import Mathlib

/-!
Verification development for the vault-gitops reconciler.

This file gives a shallow embedding, in Lean 4, of the parts of the
`trublast/vault-gitops` Go sources that the verified statements are about:

* `pkg/gitops` — the resource model (`Resource`, `State`, `StateResource`),
  normalization (`normalizeNamespace`, `normalizePath`, `normalizeValue`),
  template resolution (`ResolveTemplates`, `resolveTemplateString`,
  `getResponseDataPath`), linting (`Lint`), digesting
  (`dataDigestWithRevision`) and the apply engine (`Apply`,
  `topologicalOrder`, `deleteOrderFromState`);
* `pkg/git_repository` — the signed-commit selection
  (`FindFirstSignedCommitFromRepo`).

Modelling conventions:

* Go `interface{}` values holding decoded YAML/JSON are modelled by the
  inductive `Value`. Numbers are modelled by `Int` (floating point values are
  outside the model). Go maps are modelled as association lists in a fixed
  (insertion) order; Go's randomized map iteration order is modelled by the
  list order.
* Machine integers are modelled as `Nat`/`Int` with explicit `% 2^32` where
  overflow matters (the SHA-256 kernel below).
* HTTP is modelled as a pure environment `Client : Request → HttpResponse`;
  the JSON decoding of a response body that Go performs with
  `json.Unmarshal` is part of that environment (`HttpResponse.BodyJSON`).
  Request construction (`http.NewRequest`) is modelled as total.
* The `crypto/sha256` standard-library call is modelled by a full SHA-256
  implementation over `Nat` (validated against the FIPS 180-4 "abc" test
  vector below).
* Go strings are modelled as Lean `String`; Go's byte-level slicing is
  modelled at character level (all inputs of interest are ASCII).
-/

namespace VaultGitops

/-! ### SHA-256 over Nat (model of Go's crypto/sha256) -/

/-- reduce modulo 2^32, the word size of SHA-256 -/
def mod32 (x : Nat) : Nat := x % 4294967296

/-- rotate a 32-bit word right by `k` (`0 < k < 32`); the input is `< 2^32` -/
def rotr (k x : Nat) : Nat := (x >>> k) + (x % (2 ^ k)) * 2 ^ (32 - k)

/-- logical shift right -/
def shr (k x : Nat) : Nat := x >>> k

/-- bitwise complement of a 32-bit word -/
def wnot (x : Nat) : Nat := 4294967295 - x

/-- the Σ0 function of FIPS 180-4 -/
def bigSigma0 (x : Nat) : Nat := (rotr 2 x) ^^^ (rotr 13 x) ^^^ (rotr 22 x)

/-- the Σ1 function of FIPS 180-4 -/
def bigSigma1 (x : Nat) : Nat := (rotr 6 x) ^^^ (rotr 11 x) ^^^ (rotr 25 x)

/-- the σ0 function of FIPS 180-4 -/
def smallSigma0 (x : Nat) : Nat := (rotr 7 x) ^^^ (rotr 18 x) ^^^ (shr 3 x)

/-- the σ1 function of FIPS 180-4 -/
def smallSigma1 (x : Nat) : Nat := (rotr 17 x) ^^^ (rotr 19 x) ^^^ (shr 10 x)

/-- the Ch function of FIPS 180-4 -/
def chFn (e f g : Nat) : Nat := (e &&& f) ^^^ ((wnot e) &&& g)

/-- the Maj function of FIPS 180-4 -/
def majFn (a b c : Nat) : Nat := (a &&& b) ^^^ (a &&& c) ^^^ (b &&& c)

/-- the 64 round constants of SHA-256 -/
def sha256K : List Nat :=
  [1116352408, 1899447441, 3049323471, 3921009573, 961987163, 1508970993,
   2453635748, 2870763221, 3624381080, 310598401, 607225278, 1426881987,
   1925078388, 2162078206, 2614888103, 3248222580, 3835390401, 4022224774,
   264347078, 604807628, 770255983, 1249150122, 1555081692, 1996064986,
   2554220882, 2821834349, 2952996808, 3210313671, 3336571891, 3584528711,
   113926993, 338241895, 666307205, 773529912, 1294757372, 1396182291,
   1695183700, 1986661051, 2177026350, 2456956037, 2730485921, 2820302411,
   3259730800, 3345764771, 3516065817, 3600352804, 4094571909, 275423344,
   430227734, 506948616, 659060556, 883997877, 958139571, 1322822218,
   1537002063, 1747873779, 1955562222, 2024104815, 2227730452, 2361852424,
   2428436474, 2756734187, 3204031479, 3329325298]

/-- the eight working variables of the SHA-256 compression function -/
structure Hash8 where
  a : Nat
  b : Nat
  c : Nat
  d : Nat
  e : Nat
  f : Nat
  g : Nat
  h : Nat

/-- the initial hash value of SHA-256 -/
def sha256H0 : Hash8 :=
  ⟨1779033703, 3144134277, 1013904242, 2773480762,
   1359893119, 2600822924, 528734635, 1541459225⟩

/-- one round of the SHA-256 compression function -/
def shaStep (s : Hash8) (kt wt : Nat) : Hash8 :=
  let t1 := mod32 (s.h + bigSigma1 s.e + chFn s.e s.f s.g + kt + wt)
  let t2 := mod32 (bigSigma0 s.a + majFn s.a s.b s.c)
  ⟨mod32 (t1 + t2), s.a, s.b, s.c, mod32 (s.d + t1), s.e, s.f, s.g⟩

/-- extend the message schedule by `n` more words -/
def scheduleExt : Nat → List Nat → List Nat
  | 0, acc => acc
  | n + 1, acc =>
      let len := acc.length
      let w := mod32 (smallSigma1 (acc.getD (len - 2) 0) + acc.getD (len - 7) 0 +
                      smallSigma0 (acc.getD (len - 15) 0) + acc.getD (len - 16) 0)
      scheduleExt n (acc ++ [w])

/-- compress one 16-word block into the running hash -/
def compressBlock (hs : Hash8) (block : List Nat) : Hash8 :=
  let w := scheduleExt 48 block
  let r := (sha256K.zip w).foldl (fun s kw => shaStep s kw.1 kw.2) hs
  ⟨mod32 (hs.a + r.a), mod32 (hs.b + r.b), mod32 (hs.c + r.c), mod32 (hs.d + r.d),
   mod32 (hs.e + r.e), mod32 (hs.f + r.f), mod32 (hs.g + r.g), mod32 (hs.h + r.h)⟩

/-- pad a byte message per FIPS 180-4: `0x80`, zeros to 56 mod 64, 64-bit big-endian bit length -/
def sha256pad (msg : List Nat) : List Nat :=
  let len := msg.length
  let z := (120 - ((len + 1) % 64)) % 64
  let bitLen := 8 * len
  msg ++ [128] ++ List.replicate z 0 ++
    [(bitLen >>> 56) % 256, (bitLen >>> 48) % 256, (bitLen >>> 40) % 256, (bitLen >>> 32) % 256,
     (bitLen >>> 24) % 256, (bitLen >>> 16) % 256, (bitLen >>> 8) % 256, bitLen % 256]

/-- group bytes into 32-bit big-endian words -/
def bytesToWords : List Nat → List Nat
  | b0 :: b1 :: b2 :: b3 :: rest => (b0 * 16777216 + b1 * 65536 + b2 * 256 + b3) :: bytesToWords rest
  | _ => []

/-- group words into blocks of 16 (the padded message is a whole number of blocks) -/
def wordsToBlocks : List Nat → List (List Nat)
  | w0 :: w1 :: w2 :: w3 :: w4 :: w5 :: w6 :: w7 ::
    w8 :: w9 :: w10 :: w11 :: w12 :: w13 :: w14 :: w15 :: rest =>
      [w0, w1, w2, w3, w4, w5, w6, w7, w8, w9, w10, w11, w12, w13, w14, w15] :: wordsToBlocks rest
  | _ => []

/-- big-endian bytes of a 32-bit word -/
def wordBytes (w : Nat) : List Nat := [(w >>> 24) % 256, (w >>> 16) % 256, (w >>> 8) % 256, w % 256]

/-- SHA-256 of a byte list, as 32 bytes -/
def sha256 (msg : List Nat) : List Nat :=
  let blocks := wordsToBlocks (bytesToWords (sha256pad msg))
  let hs := blocks.foldl compressBlock sha256H0
  wordBytes hs.a ++ wordBytes hs.b ++ wordBytes hs.c ++ wordBytes hs.d ++
  wordBytes hs.e ++ wordBytes hs.f ++ wordBytes hs.g ++ wordBytes hs.h

/-- UTF-8 encoding of one character -/
def utf8Char (c : Char) : List Nat :=
  let n := c.toNat
  if n < 128 then [n]
  else if n < 2048 then [192 + n / 64, 128 + n % 64]
  else if n < 65536 then [224 + n / 4096, 128 + (n / 64) % 64, 128 + n % 64]
  else [240 + n / 262144, 128 + (n / 4096) % 64, 128 + (n / 64) % 64, 128 + n % 64]

/-- UTF-8 bytes of a string (Go strings are byte slices of UTF-8) -/
def strBytes (s : String) : List Nat := s.data.flatMap utf8Char

/-- lowercase hex digit for a value `< 16` -/
def hexDigit (n : Nat) : Char := Char.ofNat (if n < 10 then 48 + n else 87 + n)

/-- two lowercase hex digits of a byte -/
def byteHex (b : Nat) : String := String.mk [hexDigit (b / 16), hexDigit (b % 16)]

/-- lowercase hex encoding of a byte list (Go's hex.EncodeToString) -/
def hexOfBytes (bs : List Nat) : String := bs.foldl (fun acc b => acc ++ byteHex b) ""

/-- hex-encoded SHA-256 of a string's UTF-8 bytes -/
def sha256hex (s : String) : String := hexOfBytes (sha256 (strBytes s))

set_option maxRecDepth 20000

/-! ### Dynamic values (decoded YAML/JSON, Go interface values)

`Value` models the Go `interface{}` values the reconciler passes around:
`nil`, `bool`, numbers (modelled as `Int`), `string`, `[]interface{}`,
`map[string]interface{}` (`smap`) and `map[interface{}]interface{}` (`imap`).
Maps are association lists; Go map iteration order is the list order. -/

inductive Value where
  | null
  | bool (b : Bool)
  | int (n : Int)
  | str (s : String)
  | list (xs : List Value)
  | smap (es : List (String × Value))
  | imap (es : List (Value × Value))
  deriving Inhabited

/-- the `ks, _ := k.(string)` type assertion used on map keys: a string key is
itself, any other key is the zero value `""` -/
def keyString : Value → String
  | .str s => s
  | _ => ""

mutual

/-- model of `normalizeValue` (pkg/gitops): convert a `map[interface{}]interface{}`
to a `map[string]interface{}` with stringified keys and normalized values; recurse
into slices; return everything else (including `map[string]interface{}`) unchanged -/
def normalizeValue : Value → Value
  | .imap es => .smap (normalizeIEntries es)
  | .list xs => .list (normalizeList xs)
  | v => v

/-- elementwise `normalizeValue` on a slice -/
def normalizeList : List Value → List Value
  | [] => []
  | v :: vs => normalizeValue v :: normalizeList vs

/-- entrywise key stringification and value normalization of an interface-keyed map -/
def normalizeIEntries : List (Value × Value) → List (String × Value)
  | [] => []
  | (k, v) :: es => (keyString k, normalizeValue v) :: normalizeIEntries es

end

/-! ### Go string helpers -/

/-- model of `strings.TrimLeft(s, "/")`: drop all leading slashes -/
def trimLeftSlashes (s : String) : String := String.mk (s.data.dropWhile (· = '/'))

/-- model of `strings.Trim(s, "/")`: drop all leading and trailing slashes -/
def trimSlashes (s : String) : String :=
  String.mk (((s.data.dropWhile (· = '/')).reverse.dropWhile (· = '/')).reverse)

/-- model of `strings.TrimSuffix(s, "/")`: drop one trailing slash if present -/
def trimSuffixSlash (s : String) : String :=
  if s.data.getLast? = some '/' then String.mk s.data.dropLast else s

/-- model of `strings.TrimPrefix(s, "/")`: drop one leading slash if present -/
def trimOneLeadingSlash (s : String) : String :=
  match s.data with
  | '/' :: cs => String.mk cs
  | _ => s

/-- whitespace recognized by `strings.TrimSpace` (ASCII fragment of Unicode space) -/
def isGoSpace (c : Char) : Bool :=
  c = ' ' ∨ c = '\t' ∨ c = '\n' ∨ c = '\r' ∨ c = '\x0b' ∨ c = '\x0c'

/-- model of `strings.TrimSpace` -/
def goTrimSpace (s : String) : String :=
  String.mk (((s.data.dropWhile isGoSpace).reverse.dropWhile isGoSpace).reverse)

/-- model of `strings.ToUpper` on the ASCII range -/
def goToUpper (s : String) : String := String.mk (s.data.map Char.toUpper)

/-- model of `normalizeNamespace` (pkg/gitops): strip leading slashes; if the result
is non-empty and does not end in a slash, append one -/
def normalizeNamespace (s : String) : String :=
  let t := trimLeftSlashes s
  if t = "" then "" else if t.data.getLast? = some '/' then t else t ++ "/"

/-- model of `normalizePath` (pkg/gitops): strip leading and trailing slashes -/
def normalizePath (s : String) : String := trimSlashes s

/-! ### JSON encoding (model of Go's encoding/json.Marshal) -/

/-- byte-lexicographic comparison of char lists; on valid UTF-8, Go's byte order
coincides with this code-point order -/
def charListLe : List Char → List Char → Bool
  | [], _ => true
  | _ :: _, [] => false
  | a :: as_, b :: bs =>
      if a.toNat < b.toNat then true
      else if b.toNat < a.toNat then false
      else charListLe as_ bs

/-- Go's byte-lexicographic string order (used by `json.Marshal` to sort map keys) -/
def strLe (a b : String) : Bool := charListLe a.data b.data

/-- insert into a key-sorted association list -/
def insertByKey {β : Type} (kv : String × β) : List (String × β) → List (String × β)
  | [] => [kv]
  | hd :: tl => if strLe kv.1 hd.1 then kv :: hd :: tl else hd :: insertByKey kv tl

/-- sort an association list by key (insertion sort; `json.Marshal` emits map
entries in sorted key order) -/
def sortByKey {β : Type} (es : List (String × β)) : List (String × β) :=
  es.foldr insertByKey []

/-- two lowercase hex digits of a value `< 256` -/
def hex2 (n : Nat) : String := String.mk [hexDigit (n / 16), hexDigit (n % 16)]

/-- JSON escape of one character, following `encoding/json` with its default
HTML escaping (`<`, `>`, `&` become `\u00XX`) -/
def jsonQuoteChar (c : Char) : String :=
  if c = '"' then "\\\""
  else if c = '\\' then "\\\\"
  else if c = '\n' then "\\n"
  else if c = '\r' then "\\r"
  else if c = '\t' then "\\t"
  else if c.toNat < 32 then "\\u00" ++ hex2 c.toNat
  else if c = '<' then "\\u003c"
  else if c = '>' then "\\u003e"
  else if c = '&' then "\\u0026"
  else if c.toNat = 8232 then "\\u2028"
  else if c.toNat = 8233 then "\\u2029"
  else String.mk [c]

/-- JSON string literal for `s` -/
def jsonQuote (s : String) : String :=
  "\"" ++ (s.data.map jsonQuoteChar).foldl (· ++ ·) "" ++ "\""

/-- comma-join a list of rendered JSON fragments -/
def joinComma : List String → String
  | [] => ""
  | [x] => x
  | x :: rest => x ++ "," ++ joinComma rest

mutual

/-- model of `json.Marshal` on `Value`: `none` models a marshalling error.
A `map[interface{}]interface{}` is an unsupported type for `encoding/json`
and always errors; map entries are emitted in sorted key order. (The model
renders entries first and then sorts the rendered pairs, which yields the
same output and the same error behaviour as sorting first.) -/
def jsonMarshal : Value → Option String
  | .null => some "null"
  | .bool b => some (cond b "true" "false")
  | .int n => some (toString n)
  | .str s => some (jsonQuote s)
  | .list xs =>
      match jsonMarshalList xs with
      | some parts => some ("[" ++ joinComma parts ++ "]")
      | none => none
  | .smap es =>
      match jsonMarshalEntries es with
      | some rendered =>
          some ("\x7b" ++
            joinComma ((sortByKey rendered).map (fun kv => jsonQuote kv.1 ++ ":" ++ kv.2)) ++
            "\x7d")
      | none => none
  | .imap _ => none

/-- elementwise marshalling of a slice -/
def jsonMarshalList : List Value → Option (List String)
  | [] => some []
  | v :: vs =>
      match jsonMarshal v with
      | some s =>
          match jsonMarshalList vs with
          | some rest => some (s :: rest)
          | none => none
      | none => none

/-- entrywise marshalling of a string-keyed map, keeping keys with rendered values -/
def jsonMarshalEntries : List (String × Value) → Option (List (String × String))
  | [] => some []
  | (k, v) :: es =>
      match jsonMarshal v with
      | some s =>
          match jsonMarshalEntries es with
          | some rest => some ((k, s) :: rest)
          | none => none
      | none => none

end

/-! ### Digest (model of dataDigestWithRevision, revisionForDigest, dataToJSON) -/

/-- model of `revisionForDigest`: negative revisions clamp to 0, otherwise the
unsigned value -/
def revisionForDigest (revision : Int) : Nat :=
  if revision < 0 then 0 else revision.toNat

/-- the digest envelope `{"data": normalized data, "revision": revision}` that
`dataDigestWithRevision` marshals -/
def digestEnvelope (data : Value) (revision : Nat) : Value :=
  Value.smap [("data", normalizeValue data), ("revision", .int (Int.ofNat revision))]

/-- model of `dataDigestWithRevision`: hex SHA-256 of the JSON envelope
`{"data": normalized data, "revision": revision}`; the empty string models the
`return ""` taken when `json.Marshal` fails -/
def dataDigestWithRevision (data : Value) (revision : Nat) : String :=
  match jsonMarshal (digestEnvelope data revision) with
  | none => ""
  | some b => sha256hex b

/-- model of `dataToJSON`: JSON of the normalized data -/
def dataToJSON (data : Value) : Option String := jsonMarshal (normalizeValue data)

/-- model of `normalizeMethod`: upper-cased, trimmed `"GET"` maps to GET,
everything else to POST -/
def normalizeMethod (m : String) : String :=
  if goToUpper (goTrimSpace m) = "GET" then "GET" else "POST"

/-! ### Resource and State (model of the pkg/gitops data model) -/

/-- model of `StateResource`: one persisted state entry -/
structure StateResource where
  DataDigest : String
  Dependencies : List String
  IgnoreFailures : Bool
  ResponseData : Value
  Namespace : String
  Path : String
  deriving Inhabited

/-- model of `Resource`: one declarative resource decoded from YAML.
A missing `data` field decodes to the nil interface, modelled by `Value.null`. -/
structure Resource where
  Path : String
  Data : Value
  Namespace : String
  Name : String
  Revision : Int
  Dependencies : List String
  IgnoreFailures : Bool
  Method : String
  deriving Inhabited

/-- model of `Resource.NamespaceOrDefault` -/
def Resource.NamespaceOrDefault (r : Resource) : String :=
  if r.Namespace ≠ "" then r.Namespace else ""

/-- model of `Resource.EffectiveName`: the explicit name if set, else the
normalized namespace concatenated with the normalized path -/
def Resource.EffectiveName (r : Resource) : String :=
  if r.Name ≠ "" then r.Name
  else
    let ns := normalizeNamespace r.NamespaceOrDefault
    let pathN := normalizePath r.Path
    if ns = "" then pathN else ns ++ pathN

/-- model of `Resource.Key` (the state key) -/
def Resource.Key (r : Resource) : String := r.EffectiveName

/-- model of `State`: the persisted map from effective name to entry, as an
association list (Go's map iteration order is modelled by the list order) -/
structure State where
  Resources : List (String × StateResource)
  deriving Inhabited

/-- map lookup `state.Resources[k]` -/
def State.lookup (s : State) (k : String) : Option StateResource :=
  List.lookup k s.Resources

/-- map assignment `state.Resources[k] = v` (replace in place or append) -/
def State.insert (s : State) (k : String) (v : StateResource) : State :=
  if (List.lookup k s.Resources).isSome then
    ⟨s.Resources.map (fun kv => if kv.1 = k then (k, v) else kv)⟩
  else ⟨s.Resources ++ [(k, v)]⟩

/-- map deletion `delete(state.Resources, k)` -/
def State.erase (s : State) (k : String) : State :=
  ⟨s.Resources.filter (fun kv => kv.1 != k)⟩

/-- the keys of the state map -/
def State.keys (s : State) : List String := s.Resources.map (·.1)

/-- model of `State.FindByNsPath`: the first entry (in iteration order) whose
normalized namespace and path equal the given ones, with its key -/
def State.FindByNsPath (s : State) (ns path : String) : Option (String × StateResource) :=
  s.Resources.find? (fun kv =>
    normalizeNamespace kv.2.Namespace == normalizeNamespace ns &&
    normalizePath kv.2.Path == normalizePath path)

/-! ### Template resolution (model of pkg/gitops/templates.go) -/

/-- value of a digit string -/
def digitsToNat (ds : List Char) : Nat :=
  ds.foldl (fun a c => 10 * a + (c.toNat - 48)) 0

/-- model of `fmt.Sscanf(seg, "%d", &i)` on ASCII input: skip leading blanks,
read an optional sign and at least one decimal digit, ignore the rest of the
input; `none` models a scan error -/
def goScanInt (s : String) : Option Int :=
  let cs := s.data.dropWhile (fun c => c == ' ' || c == '\t')
  let signAndRest : Bool × List Char :=
    match cs with
    | '-' :: rest => (true, rest)
    | '+' :: rest => (false, rest)
    | _ => (false, cs)
  let ds := signAndRest.2.takeWhile Char.isDigit
  if ds.isEmpty then none
  else some (if signAndRest.1 then -(digitsToNat ds : Int) else (digitsToNat ds : Int))

/-- Go's `m[seg]` on a `map[interface{}]interface{}` with a string index: the
interface comparison matches exactly the string keys with the same content -/
def iLookupString (es : List (Value × Value)) (k : String) : Option Value :=
  (es.find? (fun kv =>
    match kv.1 with
    | .str t => t == k
    | _ => false)).map (·.2)

/-- one loop iteration of `getResponseDataPath`: index an object by key, a
list by a scanned in-range integer; anything else (nil or a scalar) fails -/
def stepOne (seg : String) (v : Value) : Option Value :=
  match v with
  | .smap es => List.lookup seg es
  | .imap es => iLookupString es seg
  | .list xs =>
      match goScanInt seg with
      | none => none
      | some i => if i < 0 then none else xs.get? i.toNat
  | _ => none

/-- the segment walk of `getResponseDataPath` -/
def walkPath : List String → Value → Option Value
  | [], v => some v
  | seg :: rest, v =>
      match stepOne seg v with
      | some nxt => walkPath rest nxt
      | none => none

/-- split a char list on a separator char (model of `strings.Split` for a
one-character separator) -/
def splitOnChar (sep : Char) : List Char → List (List Char)
  | [] => [[]]
  | c :: rest =>
      if c = sep then [] :: splitOnChar sep rest
      else
        match splitOnChar sep rest with
        | h :: t => (c :: h) :: t
        | [] => [[c]]

/-- the dotted-path segments (model of `strings.Split(path, ".")`) -/
def splitDots (s : String) : List String := (splitOnChar '.' s.data).map String.mk

/-- model of `getResponseDataPath`: split the dotted path and walk it -/
def getResponseDataPath (rd : Value) (path : String) : Option Value :=
  if path = "" then none else walkPath (splitDots path) rd

/-- space-join rendered fragments -/
def joinSpace : List String → String
  | [] => ""
  | [x] => x
  | x :: rest => x ++ " " ++ joinSpace rest

mutual

/-- model of `fmt.Sprint` on a dynamic value: scalars print their Go `%v`
form; maps print `map[k:v …]` with sorted keys and slices print `[e …]`
(composite printing is a faithful rendering for ASCII string keys; the
claims below only rely on the scalar cases) -/
def goSprint : Value → String
  | .null => "<nil>"
  | .bool b => cond b "true" "false"
  | .int n => toString n
  | .str s => s
  | .list xs => "[" ++ joinSpace (goSprintList xs) ++ "]"
  | .smap es =>
      "map[" ++ joinSpace ((sortByKey (goSprintSEntries es)).map (fun kv => kv.1 ++ ":" ++ kv.2)) ++ "]"
  | .imap es =>
      "map[" ++ joinSpace ((sortByKey (goSprintIEntries es)).map (fun kv => kv.1 ++ ":" ++ kv.2)) ++ "]"

/-- elementwise printing of a slice -/
def goSprintList : List Value → List String
  | [] => []
  | v :: vs => goSprint v :: goSprintList vs

/-- entrywise printing of a string-keyed map -/
def goSprintSEntries : List (String × Value) → List (String × String)
  | [] => []
  | (k, v) :: es => (k, goSprint v) :: goSprintSEntries es

/-- entrywise printing of an interface-keyed map (keys rendered then sorted) -/
def goSprintIEntries : List (Value × Value) → List (String × String)
  | [] => []
  | (k, v) :: es => (goSprint k, goSprint v) :: goSprintIEntries es

end

/-- split a char list at the first colon (model of `strings.SplitN(s, ":", 2)`;
`none` models the one-part result when there is no colon) -/
def splitOnceColon : List Char → Option (List Char × List Char)
  | [] => none
  | ':' :: rest => some ([], rest)
  | c :: rest =>
      match splitOnceColon rest with
      | some p => some (c :: p.1, p.2)
      | none => none

/-- model of the Go error string `template %q: resource %q not in state` -/
def tmplNotInStateMsg (s name : String) : String :=
  "template \"" ++ s ++ "\": resource \"" ++ name ++ "\" not in state"

/-- model of the Go error string `template %q: path %q not found in response_data of %q` -/
def tmplPathNotFoundMsg (s key name : String) : String :=
  "template \"" ++ s ++ "\": path \"" ++ key ++ "\" not found in response_data of \"" ++ name ++ "\""

/-- the template test of `resolveTemplateString`: `some (X, Y)` when the string
is exactly `<X:Y>` with non-empty `X` (up to the first colon) and non-empty `Y`,
`none` when the string is to be returned verbatim -/
def parseTemplate (s : String) : Option (String × String) :=
  match s.data with
  | '<' :: cs =>
      if cs.getLast? = some '>' ∧ 4 ≤ s.length then
        match splitOnceColon cs.dropLast with
        | none => none
        | some (nameCs, keyCs) =>
            if nameCs.isEmpty || keyCs.isEmpty then none
            else some (String.mk nameCs, String.mk keyCs)
      else none
  | _ => none

/-- model of `resolveTemplateString`: evaluate a template string against the
state; anything that is not a template is returned verbatim -/
def resolveTemplateString (s : String) (st : State) : Except String String :=
  match parseTemplate s with
  | none => .ok s
  | some (name, key) =>
      match st.lookup name with
      | none => .error (tmplNotInStateMsg s name)
      | some res =>
          match getResponseDataPath res.ResponseData key with
          | none => .error (tmplPathNotFoundMsg s key name)
          | some val => .ok (goSprint val)

mutual

/-- model of `ResolveTemplates`: resolve template strings recursively through
maps (values only) and slices; an interface-keyed map is first converted to a
string-keyed map (`mapInterfaceKeysToStrings`), here fused with the entrywise
resolution for structural recursion -/
def ResolveTemplates (data : Value) (st : State) : Except String Value :=
  match data with
  | .imap es =>
      match resolveIEntries es st with
      | .ok out => .ok (.smap out)
      | .error e => .error e
  | .smap es =>
      match resolveSEntries es st with
      | .ok out => .ok (.smap out)
      | .error e => .error e
  | .list xs =>
      match resolveValueList xs st with
      | .ok out => .ok (.list out)
      | .error e => .error e
  | .str s =>
      match resolveTemplateString s st with
      | .ok out => .ok (.str out)
      | .error e => .error e
  | v => .ok v

/-- entrywise resolution of a string-keyed map -/
def resolveSEntries : List (String × Value) → State → Except String (List (String × Value))
  | [], _ => .ok []
  | (k, v) :: es, st =>
      match ResolveTemplates v st with
      | .ok v' =>
          match resolveSEntries es st with
          | .ok rest => .ok ((k, v') :: rest)
          | .error e => .error e
      | .error e => .error e

/-- entrywise resolution of an interface-keyed map, stringifying its keys -/
def resolveIEntries : List (Value × Value) → State → Except String (List (String × Value))
  | [], _ => .ok []
  | (k, v) :: es, st =>
      match ResolveTemplates v st with
      | .ok v' =>
          match resolveIEntries es st with
          | .ok rest => .ok ((keyString k, v') :: rest)
          | .error e => .error e
      | .error e => .error e

/-- elementwise resolution of a slice -/
def resolveValueList : List Value → State → Except String (List Value)
  | [], _ => .ok []
  | v :: vs, st =>
      match ResolveTemplates v st with
      | .ok v' =>
          match resolveValueList vs st with
          | .ok rest => .ok (v' :: rest)
          | .error e => .error e
      | .error e => .error e

end

/-! ### Lint (model of pkg/gitops/lint.go) -/

/-- model of `isObject`: maps are objects, everything else (including nil) is not -/
def isObject : Value → Bool
  | .smap _ => true
  | .imap _ => true
  | _ => false

/-- the Go error string for a missing path -/
def lintMissingPathMsg (i : Nat) : String :=
  "resource at index " ++ toString (i + 1) ++ ": missing 'path'"

/-- the Go error string for missing data -/
def lintMissingDataMsg (i : Nat) (path : String) : String :=
  "resource at index " ++ toString (i + 1) ++ " (path \"" ++ path ++ "\"): missing 'data'"

/-- the Go error string for non-object data -/
def lintDataNotObjectMsg (i : Nat) (path : String) : String :=
  "resource at index " ++ toString (i + 1) ++ " (path \"" ++ path ++ "\"): 'data' must be an object"

/-- the Go error string for a negative revision -/
def lintNegativeRevisionMsg (i : Nat) (path : String) : String :=
  "resource at index " ++ toString (i + 1) ++ " (path \"" ++ path ++
    "\"): revision must be non-negative (unsigned)"

/-- the Go error string for a bad method -/
def lintBadMethodMsg (i : Nat) (path method : String) : String :=
  "resource at index " ++ toString (i + 1) ++ " (path \"" ++ path ++
    "\"): method must be GET or POST (got \"" ++ method ++ "\")"

/-- the Go error string for a duplicate effective name -/
def lintDuplicateNameMsg (eff : String) (prev i : Nat) : String :=
  "duplicate name \"" ++ eff ++ "\": resources at documents " ++ toString (prev + 1) ++
    " and " ++ toString (i + 1)

/-- the Go error string for an empty dependency name -/
def lintEmptyDepMsg (path : String) (i j : Nat) : String :=
  "resource \"" ++ path ++ "\" (doc " ++ toString (i + 1) ++ "): dependency " ++
    toString (j + 1) ++ ": name must be non-empty"

/-- the Go error string for an unresolved dependency -/
def lintDepNotFoundMsg (path : String) (i : Nat) (dep : String) : String :=
  "resource \"" ++ path ++ "\" (doc " ++ toString (i + 1) ++ "): dependency \"" ++ dep ++
    "\" not found"

/-- the per-document structural checks of `Lint`, in source order, accumulating
`byEffectiveName` (first index per name; a duplicate aborts before insertion) -/
def lintDocs (i : Nat) (byName : List (String × Nat)) :
    List Resource → Except String (List (String × Nat))
  | [] => .ok byName
  | r :: rest =>
      if r.Path = "" then .error (lintMissingPathMsg i)
      else if r.Data matches .null then .error (lintMissingDataMsg i r.Path)
      else if ¬ isObject r.Data then .error (lintDataNotObjectMsg i r.Path)
      else if r.Revision < 0 then .error (lintNegativeRevisionMsg i r.Path)
      else if (let m := goToUpper (goTrimSpace r.Method); m ≠ "" ∧ m ≠ "GET" ∧ m ≠ "POST") then
        .error (lintBadMethodMsg i r.Path r.Method)
      else
        match List.lookup r.EffectiveName byName with
        | some prev => .error (lintDuplicateNameMsg r.EffectiveName prev i)
        | none => lintDocs (i + 1) (byName ++ [(r.EffectiveName, i)]) rest

/-- the dependency checks of one resource, in order -/
def lintDeps (path : String) (i : Nat) (byName : List (String × Nat)) :
    Nat → List String → Except String Unit
  | _, [] => .ok ()
  | j, dep :: rest =>
      if dep = "" then .error (lintEmptyDepMsg path i j)
      else if (List.lookup dep byName).isNone then .error (lintDepNotFoundMsg path i dep)
      else lintDeps path i byName (j + 1) rest

/-- the dependency checks of all resources, in document order -/
def lintAllDeps (i : Nat) (byName : List (String × Nat)) :
    List Resource → Except String Unit
  | [] => .ok ()
  | r :: rest =>
      match lintDeps r.Path i byName 0 r.Dependencies with
      | .ok _ => lintAllDeps (i + 1) byName rest
      | .error e => .error e

/-- model of `Lint`: per-document structural checks and duplicate detection,
then dependency resolution, failing with the first error -/
def Lint (resources : List Resource) : Except String Unit :=
  match lintDocs 0 [] resources with
  | .error e => .error e
  | .ok byName => lintAllDeps 0 byName resources

/-! ### Kahn worklist (shared shape of topologicalOrder and deleteOrderFromState)

Both Go functions run the same worklist: pop the queue head, emit it,
decrement the in-degree of each successor and enqueue those reaching zero.
The loop is modelled with fuel `|nodes|`: each iteration emits one node and
every node is enqueued at most once, so the fuel is never exhausted before
the queue empties (proved below where needed). -/

/-- one worklist decrement: lower the in-degree of a successor and enqueue it
when the degree reaches exactly zero -/
def kahnStep {α : Type} [DecidableEq α] (p : (α → Int) × List α) (v : α) :
    (α → Int) × List α :=
  (Function.update p.1 v (p.1 v - 1), if p.1 v - 1 = 0 then p.2 ++ [v] else p.2)

/-- one Kahn worklist run; in-degrees are `Int` like Go's `int` (a decrement
below zero never re-enqueues) -/
def kahnLoop {α : Type} [DecidableEq α] (adjf : α → List α) :
    Nat → List α → (α → Int) → List α → List α
  | 0, _, _, order => order
  | _ + 1, [], _, order => order
  | fuel + 1, u :: qs, deg, order =>
      let p := (adjf u).foldl kahnStep (deg, qs)
      kahnLoop adjf fuel p.2 p.1 (order ++ [u])

/-- seed the queue with the zero-in-degree nodes (in node order, modelling
Go's iteration) and run the worklist -/
def kahnRun {α : Type} [DecidableEq α] (nodes : List α) (adjf : α → List α)
    (deg0 : α → Int) : List α :=
  kahnLoop adjf nodes.length (nodes.filter (fun v => deg0 v == 0)) deg0 []

/-! ### topologicalOrder (model of pkg/gitops/apply.go) -/

/-- insert with overwrite (Go map assignment; a later index wins) -/
def byNameInsert (m : List (String × Nat)) (k : String) (i : Nat) : List (String × Nat) :=
  if (List.lookup k m).isSome then m.map (fun kv => if kv.1 = k then (k, i) else kv)
  else m ++ [(k, i)]

/-- the `byName` map of `topologicalOrder`: effective name to index, built in
index order with overwrite -/
def buildByName (rs : List Resource) : List (String × Nat) :=
  (List.range rs.length).foldl (fun m i => byNameInsert m (rs.getD i default).EffectiveName i) []

/-- the adjacency of `topologicalOrder`: `u`'s successors are every `j` whose
dependency list names `u` (through `byName`), once per occurrence -/
def topoAdj (rs : List Resource) (byName : List (String × Nat)) (u : Nat) : List Nat :=
  (List.range rs.length).flatMap (fun j =>
    ((rs.getD j default).Dependencies.filter
      (fun dep => List.lookup dep byName == some u)).map (fun _ => j))

/-- the in-degree of `topologicalOrder`: the number of `j`'s dependency entries
that resolve through `byName` (unknown names are skipped) -/
def topoDeg (rs : List Resource) (byName : List (String × Nat)) (j : Nat) : Int :=
  Int.ofNat ((rs.getD j default).Dependencies.filter
    (fun dep => (List.lookup dep byName).isSome)).length

/-- model of `topologicalOrder`: Kahn over the resource indices; `none` models
the `cycle in dependencies` error when not all resources are emitted -/
def topologicalOrder (rs : List Resource) : Option (List Nat) :=
  let byName := buildByName rs
  let order := kahnRun (List.range rs.length) (topoAdj rs byName) (topoDeg rs byName)
  if order.length = rs.length then some order else none

/-! ### deleteOrderFromState (model of pkg/gitops/apply.go) -/

/-- the stored dependency list of a state key (Go's zero value for a missing key) -/
def storedDeps (st : State) (k : String) : List String :=
  match st.lookup k with
  | some res => res.Dependencies
  | none => []

/-- the adjacency of `deleteOrderFromState`: `d`'s successors are the keys `k`
whose stored dependencies name `d`, when `d` is itself a deletion key -/
def delAdj (st : State) (keys : List String) (d : String) : List String :=
  keys.flatMap (fun k =>
    ((storedDeps st k).filter (fun dep => dep == d && keys.contains d)).map (fun _ => k))

/-- the in-degree of `deleteOrderFromState`: the number of stored dependency
entries of `k` that are themselves deletion keys -/
def delDeg (st : State) (keys : List String) (k : String) : Int :=
  Int.ofNat ((storedDeps st k).filter (fun dep => keys.contains dep)).length

/-- model of `deleteOrderFromState`: Kahn over the deletion keys (no length
check: a cyclic component is silently omitted); Go seeds the queue in map
iteration order, modelled by the key-list order -/
def deleteOrderFromState (st : State) (keys : List String) : List String :=
  kahnRun keys (delAdj st keys) (delDeg st keys)

/-! ### The apply engine (model of Apply, pkg/gitops/apply.go)

HTTP is a pure environment `Request → HttpResponse`; the state writer is a
pure environment `State → Bool` (`false` models a SaveState error; the `nil`
writer case is not modelled). The run is instrumented with an event trace
recording, in order, each issued HTTP request, each persisted state, each
key migration and each error swallowed because of `ignore_failures`. -/

/-- an HTTP request as the engine issues it: method, URL, the
`X-Vault-Namespace` header value (`""` means the header is unset), the
`X-Vault-Token` header value, and body (the constant `X-Vault-Request: true`
header is not modelled) -/
structure Request where
  Method : String
  Url : String
  Nspace : String
  Token : String
  Body : Option String
  deriving DecidableEq, Inhabited

/-- an HTTP response: status code, raw body, and the result of Go's
`json.Unmarshal` of the body into `map[string]interface{}` (`none` models a
decode failure or a non-object body) -/
structure HttpResponse where
  Status : Nat
  BodyStr : String
  BodyJSON : Option (List (String × Value))
  deriving Inhabited

/-- one observable action of the engine -/
inductive Event where
  | http (req : Request) (resp : HttpResponse)
  | save (st : State)
  | migrate (newKey oldKey : String)
  | swallowed (msg : String)

/-- whether an event is an issued HTTP request -/
def Event.isHttp : Event → Bool
  | .http _ _ => true
  | _ => false

/-- whether an event is a swallowed per-resource error -/
def Event.isSwallowed : Event → Bool
  | .swallowed _ => true
  | _ => false

/-- whether an event is a key migration -/
def Event.isMigrate : Event → Bool
  | .migrate _ _ => true
  | _ => false

/-- the old key consumed by a migration event, if any -/
def Event.migratedOldKey : Event → Option String
  | .migrate _ oldKey => some oldKey
  | _ => none

/-- the result of a run: `err` is Go's returned error, `state` the in-memory
state at return, `events` the instrumented trace -/
structure ApplyResult where
  err : Option String
  state : State
  events : List Event

/-- outcome of processing one resource or one deletion key -/
inductive StepOutcome where
  | next (st : State) (evs : List Event)
  | abort (msg : String) (st : State) (evs : List Event)

/-- Go's `resp.StatusCode >= 200 && resp.StatusCode < 300` -/
def is2xx (n : Nat) : Bool := 200 ≤ n && n < 300

/-- the stored `response_data` of a 2xx response: the normalized `data` field
of the JSON object body, when the body is non-empty and decodes to an object
containing one; otherwise nil -/
def responseDataOf (resp : HttpResponse) : Value :=
  if resp.BodyStr.length > 0 then
    match resp.BodyJSON with
    | some parsed =>
        match List.lookup "data" parsed with
        | some d => normalizeValue d
        | none => .null
    | none => .null
  else .null

/-- the Go error text `resource <ns><path>: <rest>` -/
def resMsg (r : Resource) (rest : String) : String :=
  "resource " ++ r.Namespace ++ r.Path ++ ": " ++ rest

/-- the Go error text `delete <ns><path>: <rest>` -/
def delMsg (ns path rest : String) : String :=
  "delete " ++ ns ++ path ++ ": " ++ rest

/-- the status line of an error message (Go prints `resp.Status`, e.g.
`"500 Internal Server Error"`; the model prints the code) -/
def statusLineOf (resp : HttpResponse) : String := toString resp.Status

/-- the HTTP part of one create/update step: encode the body (POST only),
issue the request, classify the response, store and persist on 2xx -/
def applyHttpPart (client : Request → HttpResponse) (writer : State → Bool)
    (addr token : String) (r : Resource) (st : State) (resolvedData : Value) (rev : Nat) :
    StepOutcome :=
  let url := addr ++ "/v1/" ++ trimOneLeadingSlash r.Path
  let method := normalizeMethod r.Method
  let bodyRes : Option (Option String) :=
    if method = "POST" then
      match dataToJSON resolvedData with
      | some body => some (some body)
      | none => none
    else some none
  match bodyRes with
  | none =>
      let msg := resMsg r "json encode: unsupported type"
      if ¬ r.IgnoreFailures then .abort msg st [] else .next st [.swallowed msg]
  | some body =>
      let req : Request := ⟨method, url, r.Namespace, token, body⟩
      let resp := client req
      if is2xx resp.Status then
        let rd := responseDataOf resp
        let entry : StateResource :=
          ⟨dataDigestWithRevision resolvedData rev, r.Dependencies, r.IgnoreFailures, rd,
            r.NamespaceOrDefault, r.Path⟩
        let st' := st.insert r.Key entry
        if writer st' then .next st' [.http req resp, .save st']
        else
          let msg := resMsg r "save state: error"
          if ¬ r.IgnoreFailures then .abort msg st' [.http req resp]
          else .next st' [.http req resp, .swallowed msg]
      else
        let msg := resMsg r (statusLineOf resp ++ "\n" ++ goTrimSpace resp.BodyStr)
        if ¬ r.IgnoreFailures then .abort msg st [.http req resp]
        else .next st [.http req resp, .swallowed msg]

/-- one create/update step of `Apply`: resolve templates, short-circuit on a
matching digest, migrate a matching `{namespace, path}` entry to the new key,
otherwise perform the HTTP call -/
def applyResourceStep (client : Request → HttpResponse) (writer : State → Bool)
    (addr token : String) (r : Resource) (st : State) : StepOutcome :=
  let key := r.Key
  match ResolveTemplates r.Data st with
  | .error e =>
      let msg := resMsg r e
      if ¬ r.IgnoreFailures then .abort msg st [] else .next st [.swallowed msg]
  | .ok resolvedData =>
      let rev := revisionForDigest r.Revision
      match st.lookup key with
      | some prev =>
          if prev.DataDigest = dataDigestWithRevision resolvedData rev then .next st []
          else applyHttpPart client writer addr token r st resolvedData rev
      | none =>
          match st.FindByNsPath r.NamespaceOrDefault r.Path with
          | some (oldKey, prev) =>
              if prev.DataDigest = dataDigestWithRevision resolvedData rev then
                let entry : StateResource :=
                  ⟨prev.DataDigest, prev.Dependencies, prev.IgnoreFailures, prev.ResponseData,
                    r.NamespaceOrDefault, r.Path⟩
                let st' := (st.insert key entry).erase oldKey
                if writer st' then .next st' [.migrate key oldKey, .save st']
                else
                  let msg := resMsg r "save state (migrate key): error"
                  if ¬ r.IgnoreFailures then .abort msg st' [.migrate key oldKey]
                  else .next st' [.migrate key oldKey, .swallowed msg]
              else applyHttpPart client writer addr token r st resolvedData rev
          | none => applyHttpPart client writer addr token r st resolvedData rev

/-- the create/update pass: process the topological order left to right -/
def applyLoop (client : Request → HttpResponse) (writer : State → Bool)
    (addr token : String) (rs : List Resource) :
    List Nat → State → List Event → ApplyResult
  | [], st, evs => ⟨none, st, evs⟩
  | idx :: rest, st, evs =>
      match applyResourceStep client writer addr token (rs.getD idx default) st with
      | .next st' evs' => applyLoop client writer addr token rs rest st' (evs ++ evs')
      | .abort msg st' evs' => ⟨some msg, st', evs ++ evs'⟩

/-- one delete step of `Apply`: issue the DELETE; a 2xx and the 404/405
tombstones remove the key and persist, any other status is an error subject
to `ignore_failures` -/
def deleteStep (client : Request → HttpResponse) (writer : State → Bool)
    (addr token : String) (st : State) (key : String) : StepOutcome :=
  let res := (st.lookup key).getD default
  let ns := res.Namespace
  let path := res.Path
  let ignoreFailures := res.IgnoreFailures
  let url := addr ++ "/v1/" ++ trimOneLeadingSlash path
  let req : Request := ⟨"DELETE", url, ns, token, none⟩
  let resp := client req
  if is2xx resp.Status then
    let st' := st.erase key
    if writer st' then .next st' [.http req resp, .save st']
    else
      let msg := delMsg ns path "save state: error"
      if ¬ ignoreFailures then .abort msg st' [.http req resp]
      else .next st' [.http req resp, .swallowed msg]
  else if resp.Status = 405 ∨ resp.Status = 404 then
    let st' := st.erase key
    if writer st' then .next st' [.http req resp, .save st']
    else
      let msg := delMsg ns path ("save state after " ++ statusLineOf resp ++ ": error")
      if ¬ ignoreFailures then .abort msg st' [.http req resp]
      else .next st' [.http req resp, .swallowed msg]
  else
    let msg := delMsg ns path (statusLineOf resp ++ "\n" ++ goTrimSpace resp.BodyStr)
    if ¬ ignoreFailures then .abort msg st [.http req resp]
    else .next st [.http req resp, .swallowed msg]

/-- the delete pass: process the Kahn order of the removed keys -/
def deleteLoop (client : Request → HttpResponse) (writer : State → Bool)
    (addr token : String) : List String → State → List Event → ApplyResult
  | [], st, evs => ⟨none, st, evs⟩
  | key :: rest, st, evs =>
      match deleteStep client writer addr token st key with
      | .next st' evs' => deleteLoop client writer addr token rest st' (evs ++ evs')
      | .abort msg st' evs' => ⟨some msg, st', evs ++ evs'⟩

/-- model of `Apply`: validate the endpoint and token, compute the topological
order (a cycle is fatal before any request), run the create/update pass, then
delete every state key not named by the batch -/
def Apply (client : Request → HttpResponse) (writer : State → Bool)
    (resources : List Resource) (vaultAddr token : String) (state : State) : ApplyResult :=
  let addr := trimSuffixSlash vaultAddr
  if addr = "" then ⟨some "vault address is required", state, []⟩
  else if token = "" then ⟨some "vault token is required", state, []⟩
  else
    match topologicalOrder resources with
    | none => ⟨some "cycle in dependencies", state, []⟩
    | some order =>
        let currentKeys := resources.map Resource.Key
        let p := applyLoop client writer addr token resources order state []
        match p.err with
        | some _ => p
        | none =>
            let toDelete := p.state.keys.filter (fun k => ¬ currentKeys.contains k)
            let deleteOrder := deleteOrderFromState p.state toDelete
            deleteLoop client writer addr token deleteOrder p.state p.events

/-! ### Commit gate (model of FindFirstSignedCommitFromRepo, pkg/git_repository/git.go)

The repository log is modelled as the list of commits in the iterator's order
(HEAD first, walking backward); signature verification is a pure environment
`String → Bool` over commit hashes; timestamps are integers. -/

/-- a commit with its hash and committer date -/
structure CommitInfo where
  CommitHash : String
  CommitDate : Int
  deriving DecidableEq, Inhabited

/-- the boundary hash of the walk: the last finished commit's hash, or `""`
when no commit has been applied yet -/
def boundaryOf : Option CommitInfo → String
  | none => ""
  | some c => c.CommitHash

/-- the walk of `FindFirstSignedCommitFromRepo`: stop at the boundary hash,
skip commits that fail verification, are dated in the future, or are older
than the last finished commit; return the first remaining commit -/
def walkCommits (boundary : String) (lastFinished : Option CommitInfo)
    (verify : String → Bool) (now : Int) : List CommitInfo → Option CommitInfo
  | [] => none
  | c :: rest =>
      if boundary ≠ "" ∧ c.CommitHash = boundary then none
      else if ¬ verify c.CommitHash then walkCommits boundary lastFinished verify now rest
      else if now < c.CommitDate then walkCommits boundary lastFinished verify now rest
      else if (match lastFinished with
               | some l => decide (c.CommitDate < l.CommitDate)
               | none => false) = true then walkCommits boundary lastFinished verify now rest
      else some c

/-- model of `FindFirstSignedCommitFromRepo`: short-circuit when HEAD equals
the boundary, otherwise walk backward from HEAD -/
def FindFirstSignedCommitFromRepo (commits : List CommitInfo)
    (lastFinished : Option CommitInfo) (verify : String → Bool) (now : Int) :
    Option CommitInfo :=
  let boundary := boundaryOf lastFinished
  match commits with
  | [] => none
  | head :: _ =>
      if boundary ≠ "" ∧ head.CommitHash = boundary then none
      else walkCommits boundary lastFinished verify now commits

/-! ### Auxiliary definitions used by the verified statements -/

mutual

/-- whether a value contains, at any depth, a map whose keys are not typed as
strings (a `map[interface{}]interface{}`) -/
def hasIMap : Value → Bool
  | .imap _ => true
  | .list xs => hasIMapList xs
  | .smap es => hasIMapSEntries es
  | _ => false

/-- elementwise `hasIMap` on a slice -/
def hasIMapList : List Value → Bool
  | [] => false
  | v :: vs => hasIMap v || hasIMapList vs

/-- valuewise `hasIMap` on a string-keyed map -/
def hasIMapSEntries : List (String × Value) → Bool
  | [] => false
  | kv :: es => hasIMap kv.2 || hasIMapSEntries es

end

/-- the qualification test of the claimed commit gate: the commit verifies,
its committer date is not in the future, and it is not older than the last
finished commit -/
def commitQualifies (verify : String → Bool) (now : Int) (lastFinished : Option CommitInfo)
    (c : CommitInfo) : Bool :=
  verify c.CommitHash && decide (c.CommitDate ≤ now) &&
    (match lastFinished with
     | some l => decide (l.CommitDate ≤ c.CommitDate)
     | none => true)

/-- the commits the walk examines: the prefix strictly before the boundary hash -/
def walkedPrefix (boundary : String) (cs : List CommitInfo) : List CommitInfo :=
  cs.takeWhile (fun c => !(boundary != "" && c.CommitHash == boundary))

/-- the claimed single-step failure conditions of the dotted-path descent: a
missing key on an object, an unscannable segment or an out-of-range index on a
list, or reaching nil or a scalar before the segments are exhausted -/
def stepFails (v : Value) (seg : String) : Bool :=
  match v with
  | .smap es => (List.lookup seg es).isNone
  | .imap es => (iLookupString es seg).isNone
  | .list xs =>
      match goScanInt seg with
      | none => true
      | some i => decide (i < 0) || decide ((xs.length : Int) ≤ i)
  | _ => true

/-- the per-document structural acceptance conditions of the linter -/
def StructAccepts (r : Resource) : Prop :=
  r.Path ≠ "" ∧ r.Data ≠ Value.null ∧ isObject r.Data = true ∧ ¬ r.Revision < 0 ∧
    (goToUpper (goTrimSpace r.Method) = "" ∨ goToUpper (goTrimSpace r.Method) = "GET" ∨
      goToUpper (goTrimSpace r.Method) = "POST")

/-- the dependency acceptance condition of the linter for one resource -/
def DepAccepts (names : List String) (r : Resource) : Prop :=
  ∀ dep ∈ r.Dependencies, dep ≠ "" ∧ dep ∈ names

/-- the full acceptance condition of the linter -/
def lintAccepts (rs : List Resource) : Prop :=
  (∀ r ∈ rs, StructAccepts r)
  ∧ (rs.map Resource.EffectiveName).Nodup
  ∧ ∀ r ∈ rs, DepAccepts (rs.map Resource.EffectiveName) r

/-- the events of a step outcome -/
def eventsOfOutcome : StepOutcome → List Event
  | .next _ evs => evs
  | .abort _ _ evs => evs

/-- the state of a step outcome -/
def stateOfOutcome : StepOutcome → State
  | .next st _ => st
  | .abort _ st _ => st

/-- the entry written under the new key by a key migration -/
def migratedEntry (r : Resource) (prev : StateResource) : StateResource :=
  ⟨prev.DataDigest, prev.Dependencies, prev.IgnoreFailures, prev.ResponseData,
   r.NamespaceOrDefault, r.Path⟩

/-- the DELETE request one delete step issues for a key -/
def deleteReqOf (addr token : String) (st : State) (key : String) : Request :=
  ⟨"DELETE", addr ++ "/v1/" ++ trimOneLeadingSlash ((st.lookup key).getD default).Path,
   ((st.lookup key).getD default).Namespace, token, none⟩

/-- the error message of a failed DELETE -/
def deleteErrMsgOf (st : State) (key : String) (resp : HttpResponse) : String :=
  delMsg ((st.lookup key).getD default).Namespace ((st.lookup key).getD default).Path
    (statusLineOf resp ++ "\n" ++ goTrimSpace resp.BodyStr)

/-- the resource of the key-migration counterexample: data and revision match
an old entry's digest, but a decoy entry with the same namespace and path and
a different digest comes first in the state's iteration order -/
def cexMigResource : Resource :=
  ⟨"p", Value.smap [("a", Value.str "v")], "", "new", 0, [], false, ""⟩

/-- the state of the key-migration counterexample -/
def cexMigState : State :=
  ⟨[("decoy", ⟨"WRONG", [], false, Value.null, "", "p"⟩),
    ("old", ⟨dataDigestWithRevision (Value.smap [("a", Value.str "v")]) 0, [], false,
      Value.str "R", "", "p"⟩)]⟩

/-- the number of edge occurrences into `v` from the emitters `l` -/
def emitCnt {α : Type} [DecidableEq α] (adjf : α → List α) (l : List α) (v : α) : Nat :=
  (l.map (fun u => (adjf u).count v)).sum

/-- the loop invariant of the Kahn worklist -/
structure KahnInv {α : Type} [DecidableEq α] (nodes : List α) (adjf : α → List α)
    (deg0 : α → Int) (queue : List α) (deg : α → Int) (order : List α) : Prop where
  sub_order : ∀ x ∈ order, x ∈ nodes
  sub_queue : ∀ x ∈ queue, x ∈ nodes
  nodup : (order ++ queue).Nodup
  deg_eq : ∀ v ∈ nodes, deg v = deg0 v - (emitCnt adjf order v : Int)
  zero_done : ∀ v, v ∈ order ∨ v ∈ queue → deg v = 0
  not_in : ∀ v ∈ nodes, v ∉ order → v ∉ queue → deg v ≠ 0
  edges_before : ∀ l1 v l2, order = l1 ++ v :: l2 → ∀ u ∈ nodes, v ∈ adjf u → u ∈ l1

/-- the dependency edge of the claim: `i → j` when resource `j`'s dependency
list names resource `i`'s effective name -/
def claimEdge (rs : List Resource) (i j : Nat) : Prop :=
  i < rs.length ∧ j < rs.length
    ∧ (rs.getD i default).EffectiveName ∈ (rs.getD j default).Dependencies

/-- a dependency cycle among the batch resources -/
def HasDepCycle (rs : List Resource) : Prop :=
  ∃ v l, List.Chain (claimEdge rs) v (l ++ [v])

/-- a cycle in an adjacency function -/
def AdjCycle {α : Type} (adjf : α → List α) : Prop :=
  ∃ v l, List.Chain (fun a b => b ∈ adjf a) v (l ++ [v])

mutual

/-- whether a value contains no template string and no interface-keyed map, so
that template resolution is the identity in every state -/
def templateFree : Value → Bool
  | .str s => (parseTemplate s).isNone
  | .list xs => templateFreeList xs
  | .smap es => templateFreeSEntries es
  | .imap _ => false
  | _ => true

/-- elementwise `templateFree` on a slice -/
def templateFreeList : List Value → Bool
  | [] => true
  | v :: vs => templateFree v && templateFreeList vs

/-- valuewise `templateFree` on a string-keyed map -/
def templateFreeSEntries : List (String × Value) → Bool
  | [] => true
  | kv :: es => templateFree kv.2 && templateFreeSEntries es

end

/-- the stored entry of a resource's key carries the digest of its own data -/
def DigestOk (rs : List Resource) (st : State) (i : Nat) : Prop :=
  ∃ e, st.lookup (rs.getD i default).Key = some e
    ∧ e.DataDigest = dataDigestWithRevision (rs.getD i default).Data
        (revisionForDigest (rs.getD i default).Revision)

/-- the batch of the template-drift counterexample: resource `b` (processed
first) reads `<c:f>` from `c`'s stored `response_data`, which resource `c`
then overwrites on the same run -/
def cexTRs : List Resource :=
  [⟨"pb", Value.smap [("x", Value.str "<c:f>")], "", "b", 0, [], false, ""⟩,
   ⟨"pc", Value.smap [("y", Value.str "w")], "", "c", 0, [], false, ""⟩]

/-- the prior state of the template-drift counterexample: `c` is stored with a
stale digest and the old response field -/
def cexTSt0 : State :=
  ⟨[("c", ⟨"OLD", [], false, Value.smap [("f", Value.str "one")], "", "pc"⟩)]⟩

/-- the HTTP environment of the template-drift counterexample: every request
succeeds and reports `\x7b"f": "two"\x7d` as its data -/
def cexTClient : Request → HttpResponse :=
  fun _ => ⟨200, "ok", some [("data", Value.smap [("f", Value.str "two")])]⟩

/-- the state after the create/update pass of `Apply` (the input state when
the run fails before the pass) -/
def phase1State (client : Request → HttpResponse) (writer : State → Bool)
    (rs : List Resource) (vaultAddr token : String) (st0 : State) : State :=
  match topologicalOrder rs with
  | none => st0
  | some order =>
      (applyLoop client writer (trimSuffixSlash vaultAddr) token rs order st0 []).state

/-- the keys `Apply` schedules for deletion -/
def toDeleteOf (client : Request → HttpResponse) (writer : State → Bool)
    (rs : List Resource) (vaultAddr token : String) (st0 : State) : List String :=
  (phase1State client writer rs vaultAddr token st0).keys.filter
    (fun k => ¬ (rs.map Resource.Key).contains k)

/-- the duplicated-name batch of the cycle-detection counterexample: resources
named `a`, `b`, `a`; the claimed graph has the cycle `a → b → a`, but `byName`
resolves `"a"` to its last index -/
def cexCycRs : List Resource :=
  [⟨"p0", Value.smap [], "", "a", 0, ["b"], false, ""⟩,
   ⟨"p1", Value.smap [], "", "b", 0, ["a"], false, ""⟩,
   ⟨"p2", Value.smap [], "", "a", 0, [], false, ""⟩]

/-! ## Theorems -/

/-- validation of the SHA-256 model against the FIPS 180-4 test vector for "abc" -/
theorem sha256hex_abc :
    sha256hex "abc" = "ba7816bf8f01cfea414140de5dae2223b00361a396177a9cb410ff61f20015ad" := by
  decide

/-- the mutual list arm of `normalizeValue` is an elementwise map -/
theorem normalizeList_eq_map (xs : List Value) : normalizeList xs = xs.map normalizeValue := by
  induction xs with
  | nil => rfl
  | cons v vs ih => simp [normalizeList, ih]

/-- the mutual map arm of `normalizeValue` stringifies keys and normalizes values -/
theorem normalizeIEntries_eq_map (es : List (Value × Value)) :
    normalizeIEntries es = es.map (fun kv => (keyString kv.1, normalizeValue kv.2)) := by
  induction es with
  | nil => rfl
  | cons kv es ih => cases kv; simp [normalizeIEntries, ih]

/-- C6 (counterexample): `normalizeValue` does not recurse into a map that
already has string keys, so a non-string-keyed map nested inside one is not
converted — the value below is returned entirely unchanged and still contains
an interface-keyed map, contradicting the claim that every such map at any
depth is converted. -/
theorem normalizeValue_smap_counterexample :
    normalizeValue (Value.smap [("a", Value.imap [(Value.int 3, Value.int 1)])])
      = Value.smap [("a", Value.imap [(Value.int 3, Value.int 1)])]
    ∧ hasIMap (normalizeValue (Value.smap [("a", Value.imap [(Value.int 3, Value.int 1)])])) = true :=
  ⟨rfl, rfl⟩

/-- C6 (amended): `normalizeValue` converts a map whose keys are typed as
interfaces into a string-keyed map (string keys kept, any other key becoming
`""`) while normalizing its values, recurses elementwise into lists preserving
order, returns maps that already have string keys unchanged (their values are
not normalized), and returns leaves unchanged. -/
theorem normalizeValue_characterization :
    (∀ es, normalizeValue (.imap es)
        = .smap (es.map (fun kv => (keyString kv.1, normalizeValue kv.2))))
    ∧ (∀ xs, normalizeValue (.list xs) = .list (xs.map normalizeValue))
    ∧ (∀ es, normalizeValue (.smap es) = .smap es)
    ∧ normalizeValue .null = .null
    ∧ (∀ b, normalizeValue (.bool b) = .bool b)
    ∧ (∀ n, normalizeValue (.int n) = .int n)
    ∧ (∀ s, normalizeValue (.str s) = .str s)
    ∧ (∀ s, keyString (.str s) = s)
    ∧ keyString .null = ""
    ∧ (∀ b, keyString (.bool b) = "")
    ∧ (∀ n, keyString (.int n) = "")
    ∧ (∀ xs, keyString (.list xs) = "")
    ∧ (∀ es, keyString (.smap es) = "")
    ∧ (∀ es, keyString (.imap es) = "") := by
  refine ⟨?_, ?_, ?_, rfl, ?_, ?_, ?_, ?_, rfl, ?_, ?_, ?_, ?_, ?_⟩ <;>
    intros <;> simp [normalizeValue, normalizeIEntries_eq_map, normalizeList_eq_map, keyString]

/-- the SHA-256 model produces 32 bytes -/
theorem sha256_length (msg : List Nat) : (sha256 msg).length = 32 := by
  simp [sha256, wordBytes]

/-- hex encoding doubles the length -/
theorem hexOfBytes_length (bs : List Nat) : (hexOfBytes bs).length = 2 * bs.length := by
  suffices h : ∀ acc : String,
      (bs.foldl (fun acc b => acc ++ byteHex b) acc).length = acc.length + 2 * bs.length by
    simpa using h ""
  induction bs with
  | nil => intro acc; simp
  | cons b bs ih =>
      intro acc
      simp only [List.foldl_cons, ih, String.length_append, List.length_cons]
      have : (byteHex b).length = 2 := rfl
      omega

/-- a hex-encoded SHA-256 digest has 64 characters -/
theorem sha256hex_length (s : String) : (sha256hex s).length = 64 := by
  simp [sha256hex, hexOfBytes_length, sha256_length]

/-- C10: the digest function is total: it returns either the 64-character hex
SHA-256 of the marshalled JSON envelope `{"data": …, "revision": …}` or, when
the marshalling of the normalized data fails, the empty string; consequently
any two data values whose envelopes cannot be marshalled receive the identical
(empty) digest. -/
theorem dataDigest_total_and_collisions :
    (∀ data rev,
        (jsonMarshal (digestEnvelope data rev) = none ∧ dataDigestWithRevision data rev = "")
        ∨ (∃ s, jsonMarshal (digestEnvelope data rev) = some s
            ∧ dataDigestWithRevision data rev = sha256hex s
            ∧ (dataDigestWithRevision data rev).length = 64))
    ∧ (∀ d1 r1 d2 r2, jsonMarshal (digestEnvelope d1 r1) = none →
        jsonMarshal (digestEnvelope d2 r2) = none →
        dataDigestWithRevision d1 r1 = dataDigestWithRevision d2 r2) := by
  constructor
  · intro data rev
    cases h : jsonMarshal (digestEnvelope data rev) with
    | none => exact Or.inl ⟨rfl, by simp [dataDigestWithRevision, h]⟩
    | some s =>
        refine Or.inr ⟨s, rfl, by simp [dataDigestWithRevision, h], ?_⟩
        simp [dataDigestWithRevision, h, sha256hex_length]
  · intro d1 r1 d2 r2 h1 h2
    simp [dataDigestWithRevision, h1, h2]

/-- C10 (witness): two distinct unmarshalable data values (interface-keyed
maps hidden inside string-keyed maps survive normalization and defeat
`json.Marshal`) receive the identical empty digest even at different revisions. -/
theorem dataDigest_collision_witness :
    dataDigestWithRevision (Value.smap [("a", Value.imap [])]) 0
      = dataDigestWithRevision (Value.smap [("b", Value.imap [(Value.int 1, Value.null)])]) 5 :=
  dataDigest_total_and_collisions.2
    (Value.smap [("a", Value.imap [])]) 0
    (Value.smap [("b", Value.imap [(Value.int 1, Value.null)])]) 5 rfl rfl

/-- the walk returns the first qualifying commit of the boundary-limited prefix -/
theorem walkCommits_eq (boundary : String) (lf : Option CommitInfo)
    (verify : String → Bool) (now : Int) (cs : List CommitInfo) :
    walkCommits boundary lf verify now cs
      = ((walkedPrefix boundary cs).filter (commitQualifies verify now lf)).head? := by
  induction cs with
  | nil => rfl
  | cons c rest ih =>
      by_cases hb : boundary ≠ "" ∧ c.CommitHash = boundary
      · have h1 : (boundary != "") = true := bne_iff_ne.mpr hb.1
        have h2 : (c.CommitHash == boundary) = true := beq_iff_eq.mpr hb.2
        simp [walkCommits, hb, walkedPrefix, List.takeWhile_cons, h1, h2]
      · have hpre : walkedPrefix boundary (c :: rest) = c :: walkedPrefix boundary rest := by
          rcases not_and_or.mp hb with h | h
          · have h' : boundary = "" := not_not.mp h
            simp [walkedPrefix, List.takeWhile_cons, h']
          · simp [walkedPrefix, List.takeWhile_cons, h]
        rw [hpre]
        by_cases hv : verify c.CommitHash = true
        · by_cases hfut : now < c.CommitDate
          · have hq : commitQualifies verify now lf c = false := by
              simp [commitQualifies, not_le.mpr hfut]
            simp [walkCommits, hb, hv, hfut, hq, ih, List.filter_cons]
          · cases lf with
            | none =>
                have hq : commitQualifies verify now none c = true := by
                  simp [commitQualifies, hv, not_lt.mp hfut]
                simp [walkCommits, hb, hv, hfut, hq, List.filter_cons]
            | some l =>
                by_cases hold : c.CommitDate < l.CommitDate
                · have hq : commitQualifies verify now (some l) c = false := by
                    simp [commitQualifies, not_le.mpr hold]
                  simp [walkCommits, hb, hv, hfut, hold, hq, ih, List.filter_cons]
                · have hq : commitQualifies verify now (some l) c = true := by
                    simp [commitQualifies, hv, not_lt.mp hfut, not_lt.mp hold]
                  simp [walkCommits, hb, hv, hfut, hold, hq, List.filter_cons]
        · have hq : commitQualifies verify now lf c = false := by
            simp [commitQualifies, hv]
          simp [walkCommits, hb, hv, hq, ih, List.filter_cons]

/-- C1 (counterexample): with two qualifying commits and no boundary, the code
selects the commit closest to HEAD (the newest, date 10), not the oldest
qualifying one (date 5) that the walk also reaches. -/
theorem findFirstSignedCommit_counterexample :
    FindFirstSignedCommitFromRepo [⟨"c2", 10⟩, ⟨"c1", 5⟩] none (fun _ => true) 100
      = some ⟨"c2", 10⟩
    ∧ commitQualifies (fun _ => true) 100 none ⟨"c1", 5⟩ = true
    ∧ ⟨"c1", (5 : Int)⟩ ∈ walkedPrefix (boundaryOf none) [⟨"c2", 10⟩, ⟨"c1", 5⟩]
    ∧ ((5 : Int) < 10) := by
  refine ⟨rfl, rfl, ?_, by decide⟩
  simp [walkedPrefix, boundaryOf]

/-- C1 (amended): the commit the poller hands to the engine is the first
qualifying commit encountered on the backward walk from HEAD (the newest in
walk order), where a commit qualifies iff it verifies with the configured
quorum, its committer timestamp is not in the future, and (when a last-applied
commit exists) its timestamp is not earlier than the last-applied commit's;
the walk stops at the last-applied hash. -/
theorem findFirstSignedCommit_eq_first_qualifying (commits : List CommitInfo)
    (lastFinished : Option CommitInfo) (verify : String → Bool) (now : Int) :
    FindFirstSignedCommitFromRepo commits lastFinished verify now
      = ((walkedPrefix (boundaryOf lastFinished) commits).filter
          (commitQualifies verify now lastFinished)).head? := by
  cases commits with
  | nil => rfl
  | cons head tail =>
      by_cases hb : boundaryOf lastFinished ≠ "" ∧ head.CommitHash = boundaryOf lastFinished
      · simp [FindFirstSignedCommitFromRepo, hb, walkedPrefix, List.takeWhile_cons,
          bne_iff_ne, hb.1, hb.2]
      · simpa [FindFirstSignedCommitFromRepo, hb] using
          walkCommits_eq (boundaryOf lastFinished) lastFinished verify now (head :: tail)

/-- one descent step fails exactly under the claimed per-step conditions -/
theorem stepOne_none_iff (seg : String) (v : Value) :
    stepOne seg v = none ↔ stepFails v seg = true := by
  cases v with
  | smap es => simp [stepOne, stepFails, Option.isNone_iff_eq_none]
  | imap es => simp [stepOne, stepFails, Option.isNone_iff_eq_none]
  | list xs =>
      cases hscan : goScanInt seg with
      | none => simp [stepOne, stepFails, hscan]
      | some i =>
          by_cases hneg : i < 0
          · simp [stepOne, stepFails, hscan, hneg]
          · simp only [stepOne, stepFails, hscan, if_neg hneg]
            rw [List.get?_eq_none]
            constructor
            · intro h
              simp only [decide_eq_true_eq, Bool.or_eq_true]
              right
              omega
            · intro h
              simp only [decide_eq_true_eq, Bool.or_eq_true] at h
              rcases h with h | h
              · omega
              · omega
  | null => simp [stepOne, stepFails]
  | bool b => simp [stepOne, stepFails]
  | int n => simp [stepOne, stepFails]
  | str t => simp [stepOne, stepFails]

/-- the walk fails exactly when some prefix of the segments descends to a
value on which the next segment's step fails -/
theorem walkPath_none_iff (segs : List String) (rd : Value) :
    walkPath segs rd = none
      ↔ ∃ pre seg post v, segs = pre ++ seg :: post ∧ walkPath pre rd = some v
          ∧ stepFails v seg = true := by
  induction segs generalizing rd with
  | nil =>
      simp only [walkPath, iff_false_intro (Option.some_ne_none rd), false_iff]
      rintro ⟨pre, seg, post, v, hsplit, _, _⟩
      exact List.not_mem_nil seg (hsplit ▸ List.mem_append_right pre (List.mem_cons_self seg post))
  | cons s rest ih =>
      cases hstep : stepOne s rd with
      | none =>
          constructor
          · intro _
            exact ⟨[], s, rest, rd, rfl, rfl, (stepOne_none_iff s rd).mp hstep⟩
          · intro _
            simp [walkPath, hstep]
      | some nxt =>
          have hw : walkPath (s :: rest) rd = walkPath rest nxt := by
            simp [walkPath, hstep]
          rw [hw, ih nxt]
          constructor
          · rintro ⟨pre, seg, post, v, hsplit, hwalk, hfail⟩
            refine ⟨s :: pre, seg, post, v, by simp [hsplit], ?_, hfail⟩
            simp [walkPath, hstep, hwalk]
          · rintro ⟨pre, seg, post, v, hsplit, hwalk, hfail⟩
            cases pre with
            | nil =>
                simp only [List.nil_append] at hsplit
                obtain ⟨hseg, _⟩ := List.cons.inj hsplit
                simp only [walkPath, Option.some.injEq] at hwalk
                subst hseg hwalk
                rw [(stepOne_none_iff s rd).mpr hfail] at hstep
                exact absurd hstep (by simp)
            | cons p pre' =>
                simp only [List.cons_append] at hsplit
                obtain ⟨hp, hrest⟩ := List.cons.inj hsplit
                subst hp
                have hwalk' : walkPath pre' nxt = some v := by
                  simpa [walkPath, hstep] using hwalk
                exact ⟨pre', seg, post, v, hrest, hwalk', hfail⟩

/-- C5 (counterexample): the list segment `"3x"` is not a non-negative decimal
integer, yet `fmt.Sscanf` with `%d` scans the leading `3` and ignores the
rest, so the descent succeeds where the claim requires a "path not found"
failure; the same shows through `resolveTemplateString`. -/
theorem getResponseDataPath_counterexample :
    getResponseDataPath (Value.list [Value.str "a", Value.str "b", Value.str "c", Value.str "d"])
        "3x" = some (Value.str "d")
    ∧ resolveTemplateString "<r:3x>"
        ⟨[("r", ⟨"", [], false,
            Value.list [Value.str "a", Value.str "b", Value.str "c", Value.str "d"], "", ""⟩)]⟩
      = Except.ok "d" := ⟨rfl, rfl⟩

/-- C5 (amended): the dotted-path descent takes the keyed field on an object
and, on a list, the element at the scanned index, where the segment is scanned
as by `fmt.Sscanf` `%d` (leading blanks skipped, optional sign, at least one
digit, trailing characters ignored) and must be non-negative and in range; the
evaluation fails exactly when some step fails — a missing key, an unscannable
segment, an out-of-range index, or nil or a scalar reached before exhaustion —
and `resolveTemplateString` turns exactly that failure into the "path not
found" error (a name absent from state gives the "not in state" error, and a
success returns the stringified value). -/
theorem getResponseDataPath_failure_characterization :
    (∀ rd path, getResponseDataPath rd path = none
        ↔ (path = "" ∨ ∃ pre seg post v, splitDots path = pre ++ seg :: post
            ∧ walkPath pre rd = some v ∧ stepFails v seg = true))
    ∧ (∀ s st name key res, parseTemplate s = some (name, key) →
        st.lookup name = some res →
        resolveTemplateString s st
          = (match getResponseDataPath res.ResponseData key with
             | none => .error (tmplPathNotFoundMsg s key name)
             | some val => .ok (goSprint val)))
    ∧ (∀ s st name key, parseTemplate s = some (name, key) →
        st.lookup name = none →
        resolveTemplateString s st = .error (tmplNotInStateMsg s name)) := by
  refine ⟨?_, ?_, ?_⟩
  · intro rd path
    by_cases hp : path = ""
    · simp [getResponseDataPath, hp]
    · simp only [getResponseDataPath, if_neg hp, hp, false_or]
      exact walkPath_none_iff (splitDots path) rd
  · intro s st name key res hparse hlook
    simp [resolveTemplateString, hparse, hlook]
  · intro s st name key hparse hlook
    simp [resolveTemplateString, hparse, hlook]

/-- C5 (witness): a concrete template `<r:a>` against a state whose `r` entry
holds `{"a": 7}` resolves to `"7"`. -/
theorem getResponseDataPath_witness :
    resolveTemplateString "<r:a>"
        ⟨[("r", ⟨"", [], false, Value.smap [("a", Value.int 7)], "", ""⟩)]⟩
      = Except.ok "7" := by
  have h := getResponseDataPath_failure_characterization.2.1 "<r:a>"
    ⟨[("r", ⟨"", [], false, Value.smap [("a", Value.int 7)], "", ""⟩)]⟩
    "r" "a" ⟨"", [], false, Value.smap [("a", Value.int 7)], "", ""⟩ rfl rfl
  rw [h]
  rfl

/-! ### Association list lookup lemmas -/

/-- lookup misses exactly the keys that are absent -/
theorem lookup_none_iff {β : Type} (n : String) (l : List (String × β)) :
    List.lookup n l = none ↔ n ∉ l.map Prod.fst := by
  induction l with
  | nil => simp
  | cons kv l ih =>
      obtain ⟨k, v⟩ := kv
      by_cases h : n = k
      · subst h
        simp [List.lookup]
      · have hb : (n == k) = false := beq_eq_false_iff_ne.mpr h
        simp [List.lookup, hb, h, ih]

/-- lookup over a one-element extension -/
theorem lookup_append_one {β : Type} (n e : String) (i : β) (l : List (String × β)) :
    List.lookup n (l ++ [(e, i)]) = none ↔ List.lookup n l = none ∧ n ≠ e := by
  rw [lookup_none_iff, lookup_none_iff]
  simp [List.mem_append, not_or]

/-! ### Lint lemmas -/

/-- matching the nil pattern is equality with nil -/
theorem value_matches_null (v : Value) : (v matches Value.null) = true ↔ v = Value.null := by
  cases v <;> simp

/-- the structural pass succeeds exactly when every document passes the checks
and every effective name is fresh -/
theorem lintDocs_ok_iff (rest : List Resource) :
    ∀ (i : Nat) (byName : List (String × Nat)),
      (∃ m, lintDocs i byName rest = Except.ok m)
        ↔ ((∀ r ∈ rest, StructAccepts r)
            ∧ (rest.map Resource.EffectiveName).Nodup
            ∧ ∀ n ∈ rest.map Resource.EffectiveName, List.lookup n byName = none) := by
  induction rest with
  | nil => intro i byName; simp [lintDocs]
  | cons r rest ih =>
      intro i byName
      by_cases h1 : r.Path = ""
      · simp only [lintDocs, if_pos h1]
        constructor
        · rintro ⟨m, hm⟩; cases hm
        · rintro ⟨hstr, -, -⟩
          exact absurd h1 (hstr r (List.mem_cons_self r rest)).1
      · simp only [lintDocs, if_neg h1]
        by_cases h2 : r.Data = Value.null
        · rw [if_pos ((value_matches_null r.Data).mpr h2)]
          constructor
          · rintro ⟨m, hm⟩; cases hm
          · rintro ⟨hstr, -, -⟩
            exact absurd h2 (hstr r (List.mem_cons_self r rest)).2.1
        · rw [if_neg (fun hh => h2 ((value_matches_null r.Data).mp hh))]
          by_cases h3 : isObject r.Data = true
          · rw [if_neg (by simp [h3])]
            by_cases h4 : r.Revision < 0
            · rw [if_pos h4]
              constructor
              · rintro ⟨m, hm⟩; cases hm
              · rintro ⟨hstr, -, -⟩
                exact absurd h4 (hstr r (List.mem_cons_self r rest)).2.2.2.1
            · rw [if_neg h4]
              by_cases h5 : goToUpper (goTrimSpace r.Method) ≠ ""
                  ∧ goToUpper (goTrimSpace r.Method) ≠ "GET"
                  ∧ goToUpper (goTrimSpace r.Method) ≠ "POST"
              · rw [if_pos h5]
                constructor
                · rintro ⟨m, hm⟩; cases hm
                · rintro ⟨hstr, -, -⟩
                  rcases (hstr r (List.mem_cons_self r rest)).2.2.2.2 with h | h | h
                  · exact absurd h h5.1
                  · exact absurd h h5.2.1
                  · exact absurd h h5.2.2
              · rw [if_neg h5]
                cases hdup : List.lookup r.EffectiveName byName with
                | some prev =>
                    constructor
                    · rintro ⟨m, hm⟩; cases hm
                    · rintro ⟨-, -, hfresh⟩
                      have hh := hfresh r.EffectiveName
                        (by rw [List.map_cons]; exact List.mem_cons_self _ _)
                      rw [hh] at hdup; cases hdup
                | none =>
                    rw [ih (i + 1) (byName ++ [(r.EffectiveName, i)])]
                    constructor
                    · rintro ⟨hstr, hnd, hfresh⟩
                      have hstruct : StructAccepts r := by
                        refine ⟨h1, h2, h3, h4, ?_⟩
                        by_contra hcon
                        push_neg at hcon
                        exact h5 ⟨hcon.1, hcon.2.1, hcon.2.2⟩
                      refine ⟨?_, ?_, ?_⟩
                      · intro r' hr'
                        rcases List.mem_cons.mp hr' with rfl | hr'
                        · exact hstruct
                        · exact hstr r' hr'
                      · rw [List.map_cons]
                        refine List.nodup_cons.mpr ⟨?_, hnd⟩
                        intro hmem
                        exact ((lookup_append_one _ _ _ _).mp
                          (hfresh r.EffectiveName hmem)).2 rfl
                      · intro n hn
                        rw [List.map_cons] at hn
                        rcases List.mem_cons.mp hn with rfl | hn'
                        · exact hdup
                        · exact ((lookup_append_one _ _ _ _).mp (hfresh n hn')).1
                    · rintro ⟨hstr, hnd, hfresh⟩
                      rw [List.map_cons] at hnd
                      refine ⟨?_, (List.nodup_cons.mp hnd).2, ?_⟩
                      · intro r' hr'
                        exact hstr r' (List.mem_cons_of_mem r hr')
                      · intro n hn
                        refine (lookup_append_one _ _ _ _).mpr
                          ⟨hfresh n (by rw [List.map_cons]; exact List.mem_cons_of_mem _ hn), ?_⟩
                        intro hne
                        subst hne
                        exact (List.nodup_cons.mp hnd).1 hn
          · rw [if_pos (by simp [h3])]
            constructor
            · rintro ⟨m, hm⟩; cases hm
            · rintro ⟨hstr, -, -⟩
              exact absurd (hstr r (List.mem_cons_self r rest)).2.2.1 h3

/-- the structural pass extends the accumulated name map by exactly the
processed names -/
theorem lintDocs_keys (rest : List Resource) :
    ∀ (i : Nat) (byName : List (String × Nat)) (m : List (String × Nat)),
      lintDocs i byName rest = Except.ok m →
      ∀ n, List.lookup n m = none
        ↔ (List.lookup n byName = none ∧ n ∉ rest.map Resource.EffectiveName) := by
  induction rest with
  | nil =>
      intro i byName m hm n
      cases hm
      simp
  | cons r rest ih =>
      intro i byName m hm n
      simp only [lintDocs] at hm
      split at hm
      · cases hm
      · split at hm
        · cases hm
        · split at hm
          · cases hm
          · split at hm
            · cases hm
            · split at hm
              · cases hm
              · split at hm
                · cases hm
                · rw [ih _ _ _ hm n, lookup_append_one]
                  rw [List.map_cons]
                  constructor
                  · rintro ⟨⟨hb, hne⟩, hnm⟩
                    exact ⟨hb, by simp [hnm, hne]⟩
                  · rintro ⟨hb, hnm⟩
                    simp only [List.mem_cons, not_or] at hnm
                    exact ⟨⟨hb, hnm.1⟩, hnm.2⟩

/-- the dependency check of one resource succeeds exactly when every entry is
non-empty and resolves -/
theorem lintDeps_ok_iff (deps : List String) :
    ∀ (path : String) (i : Nat) (byName : List (String × Nat)) (j : Nat),
      lintDeps path i byName j deps = Except.ok ()
        ↔ ∀ dep ∈ deps, dep ≠ "" ∧ (List.lookup dep byName).isSome = true := by
  induction deps with
  | nil => intro path i byName j; simp [lintDeps]
  | cons dep deps ih =>
      intro path i byName j
      by_cases h1 : dep = ""
      · simp [lintDeps, h1]
      · simp only [lintDeps, if_neg h1]
        cases hl : List.lookup dep byName with
        | none =>
            rw [if_pos (by simp)]
            constructor
            · rintro h; cases h
            · intro h
              have hh := (h dep (List.mem_cons_self dep deps)).2
              rw [hl] at hh; cases hh
        | some v =>
            rw [if_neg (by simp)]
            rw [ih]
            constructor
            · intro h d hd
              rcases List.mem_cons.mp hd with rfl | hd'
              · exact ⟨h1, by simp [hl]⟩
              · exact h d hd'
            · intro h d hd
              exact h d (List.mem_cons_of_mem dep hd)

/-- the dependency pass succeeds exactly when every resource's entries are
non-empty and resolve -/
theorem lintAllDeps_ok_iff (rs : List Resource) :
    ∀ (i : Nat) (byName : List (String × Nat)),
      lintAllDeps i byName rs = Except.ok ()
        ↔ ∀ r ∈ rs, ∀ dep ∈ r.Dependencies,
            dep ≠ "" ∧ (List.lookup dep byName).isSome = true := by
  induction rs with
  | nil => intro i byName; simp [lintAllDeps]
  | cons r rs ih =>
      intro i byName
      cases hd : lintDeps r.Path i byName 0 r.Dependencies with
      | error e =>
          simp only [lintAllDeps, hd]
          constructor
          · rintro h; cases h
          · intro h
            have hok : lintDeps r.Path i byName 0 r.Dependencies = Except.ok () :=
              (lintDeps_ok_iff _ _ _ _ _).mpr (h r (List.mem_cons_self r rs))
            rw [hd] at hok; cases hok
      | ok u =>
          obtain ⟨⟩ := u
          simp only [lintAllDeps, hd]
          rw [ih]
          constructor
          · intro h r' hr' d hd'
            rcases List.mem_cons.mp hr' with rfl | hr''
            · exact (lintDeps_ok_iff _ _ _ _ _).mp hd d hd'
            · exact h r' hr'' d hd'
          · intro h r' hr' d hd'
            exact h r' (List.mem_cons_of_mem r hr') d hd'

/-- the dependency pass ignores documents whose checks pass -/
theorem lintAllDeps_skip (pre : List Resource) :
    ∀ (i : Nat) (byName : List (String × Nat)) (rest : List Resource),
      (∀ r' ∈ pre, ∀ d ∈ r'.Dependencies, d ≠ "" ∧ (List.lookup d byName).isSome = true) →
      lintAllDeps i byName (pre ++ rest) = lintAllDeps (i + pre.length) byName rest := by
  induction pre with
  | nil => intro i byName rest h; simp
  | cons r pre ih =>
      intro i byName rest h
      have hok : lintDeps r.Path i byName 0 r.Dependencies = Except.ok () :=
        (lintDeps_ok_iff _ _ _ _ _).mpr (h r (List.mem_cons_self r pre))
      rw [List.cons_append]
      simp only [lintAllDeps, hok]
      rw [ih (i + 1) byName rest (fun r' hr' => h r' (List.mem_cons_of_mem r hr'))]
      congr 1
      simp only [List.length_cons]
      omega

/-- the dependency check fails with the not-found message at the first
unresolved entry -/
theorem lintDeps_fail_at (deps1 : List String) :
    ∀ (path : String) (i : Nat) (byName : List (String × Nat)) (j : Nat)
      (dep : String) (deps2 : List String),
      (∀ d ∈ deps1, d ≠ "" ∧ (List.lookup d byName).isSome = true) →
      dep ≠ "" → List.lookup dep byName = none →
      lintDeps path i byName j (deps1 ++ dep :: deps2)
        = Except.error (lintDepNotFoundMsg path i dep) := by
  induction deps1 with
  | nil =>
      intro path i byName j dep deps2 _ hne hmiss
      rw [List.nil_append]
      simp only [lintDeps, if_neg hne]
      rw [if_pos (by simp [hmiss])]
  | cons d deps1 ih =>
      intro path i byName j dep deps2 h hne hmiss
      have hd := h d (List.mem_cons_self d deps1)
      rw [List.cons_append]
      simp only [lintDeps, if_neg hd.1]
      have hnn : ¬ ((List.lookup d byName).isNone = true) := by
        rw [Option.isNone_iff_eq_none]
        exact Option.isSome_iff_ne_none.mp hd.2
      rw [if_neg hnn]
      exact ih path i byName (j + 1) dep deps2 (fun d' hd' => h d' (List.mem_cons_of_mem d hd'))
        hne hmiss

/-- C7 (counterexample): a resource whose `dependencies` entry names its own
effective name — there is no other resource in the batch — passes `Lint`,
contradicting the requirement that a dependency resolve to a distinct
resource. -/
theorem lint_self_dependency_counterexample :
    Lint [⟨"p", Value.smap [], "", "x", 0, ["x"], false, ""⟩] = Except.ok ()
    ∧ Resource.EffectiveName ⟨"p", Value.smap [], "", "x", 0, ["x"], false, ""⟩ = "x"
    ∧ Resource.Dependencies ⟨"p", Value.smap [], "", "x", 0, ["x"], false, ""⟩ = ["x"] :=
  ⟨rfl, rfl, rfl⟩

/-- C7 (amended): `Lint` accepts a batch exactly when each resource passes the
structural checks, effective names are pairwise distinct, and every
`dependencies` entry is non-empty and equals the effective name of some
resource of the same batch — possibly the declaring resource itself; the first
unresolved dependency aborts with the descriptive not-found message carrying
the 1-based document index. -/
theorem lint_dependency_validation :
    (∀ rs, Lint rs = Except.ok () ↔ lintAccepts rs)
    ∧ (∀ (rs : List Resource) (byName : List (String × Nat)) (pre : List Resource)
        (r : Resource) (post : List Resource) (deps1 : List String) (dep : String)
        (deps2 : List String),
        lintDocs 0 [] rs = Except.ok byName →
        rs = pre ++ r :: post →
        (∀ r' ∈ pre, ∀ d ∈ r'.Dependencies, d ≠ "" ∧ (List.lookup d byName).isSome = true) →
        r.Dependencies = deps1 ++ dep :: deps2 →
        (∀ d ∈ deps1, d ≠ "" ∧ (List.lookup d byName).isSome = true) →
        dep ≠ "" →
        List.lookup dep byName = none →
        Lint rs = Except.error (lintDepNotFoundMsg r.Path pre.length dep)) := by
  constructor
  · intro rs
    cases hdocs : lintDocs 0 [] rs with
    | error e =>
        simp only [Lint, hdocs]
        constructor
        · rintro h; cases h
        · rintro ⟨hstr, hnd, -⟩
          obtain ⟨m, hm⟩ := (lintDocs_ok_iff rs 0 []).mpr ⟨hstr, hnd, by simp [List.lookup]⟩
          rw [hdocs] at hm; cases hm
    | ok m =>
        simp only [Lint, hdocs]
        have hkeys := lintDocs_keys rs 0 [] m hdocs
        have hsn := (lintDocs_ok_iff rs 0 []).mp ⟨m, hdocs⟩
        rw [lintAllDeps_ok_iff]
        constructor
        · intro h
          refine ⟨hsn.1, hsn.2.1, ?_⟩
          intro r hr dep hdep
          refine ⟨(h r hr dep hdep).1, ?_⟩
          have hsome := (h r hr dep hdep).2
          by_contra hmem
          have : List.lookup dep m = none := (hkeys dep).mpr ⟨by simp [List.lookup], hmem⟩
          rw [this] at hsome; cases hsome
        · rintro ⟨-, -, hdeps⟩
          intro r hr dep hdep
          refine ⟨(hdeps r hr dep hdep).1, ?_⟩
          rw [Option.isSome_iff_ne_none]
          intro hnone
          exact ((hkeys dep).mp hnone).2 (hdeps r hr dep hdep).2
  · intro rs byName pre r post deps1 dep deps2 hdocs hsplit hpre hdsplit hd1 hne hmiss
    subst hsplit
    simp only [Lint, hdocs]
    rw [lintAllDeps_skip pre 0 byName (r :: post) hpre]
    have hfail : lintDeps r.Path (0 + pre.length) byName 0 r.Dependencies
        = Except.error (lintDepNotFoundMsg r.Path (0 + pre.length) dep) := by
      rw [hdsplit]
      exact lintDeps_fail_at deps1 r.Path (0 + pre.length) byName 0 dep deps2 hd1 hne hmiss
    simp only [Nat.zero_add] at hfail
    simp only [lintAllDeps, Nat.zero_add, hfail]

/-- C7 (witness): a single-document batch whose dependency names no resource
is rejected with the not-found message for document 1. -/
theorem lint_dependency_validation_witness :
    Lint [⟨"p", Value.smap [], "", "a", 0, ["zzz"], false, ""⟩]
      = Except.error (lintDepNotFoundMsg "p" 0 "zzz") :=
  lint_dependency_validation.2
    [⟨"p", Value.smap [], "", "a", 0, ["zzz"], false, ""⟩] [("a", 0)]
    [] ⟨"p", Value.smap [], "", "a", 0, ["zzz"], false, ""⟩ [] [] "zzz" []
    rfl rfl (by simp) rfl (by simp) (by decide) rfl

/-! ### State map operation lemmas -/

/-- erasing a key removes it -/
theorem lookup_filter_ne {β : Type} (k : String) (l : List (String × β)) :
    List.lookup k (l.filter (fun kv => kv.1 != k)) = none := by
  induction l with
  | nil => rfl
  | cons kv l ih =>
      by_cases h : kv.1 = k
      · simp [List.filter, h, ih]
      · have hb : (kv.1 != k) = true := bne_iff_ne.mpr h
        have hb' : (k == kv.1) = false := beq_eq_false_iff_ne.mpr (fun hh => h hh.symm)
        simp [List.filter, hb, List.lookup, hb', ih]

/-- erasing a key leaves the others -/
theorem lookup_filter_other {β : Type} (k k' : String) (l : List (String × β)) (h : k' ≠ k) :
    List.lookup k' (l.filter (fun kv => kv.1 != k)) = List.lookup k' l := by
  induction l with
  | nil => rfl
  | cons kv l ih =>
      obtain ⟨a, b⟩ := kv
      by_cases hk : a = k
      · subst hk
        have hb' : (k' == a) = false := beq_eq_false_iff_ne.mpr h
        simp [List.filter, List.lookup, hb', ih]
      · have hb : (a != k) = true := bne_iff_ne.mpr hk
        by_cases he : k' = a
        · simp [List.filter, hb, List.lookup, he]
        · have hb' : (k' == a) = false := beq_eq_false_iff_ne.mpr he
          simp [List.filter, hb, List.lookup, hb', ih]

/-- replacement keeps the first occurrence of the key pointing at the new value -/
theorem lookup_map_replace_self {β : Type} (k : String) (v : β) (l : List (String × β))
    (h : (List.lookup k l).isSome = true) :
    List.lookup k (l.map (fun kv => if kv.1 = k then (k, v) else kv)) = some v := by
  induction l with
  | nil => simp [List.lookup] at h
  | cons kv l ih =>
      obtain ⟨a, b⟩ := kv
      rw [List.map_cons]
      by_cases hk : a = k
      · have hhead : (if (a, b).1 = k then (k, v) else (a, b)) = (k, v) := if_pos hk
        rw [hhead]
        simp [List.lookup]
      · have hhead : (if (a, b).1 = k then (k, v) else (a, b)) = (a, b) := if_neg hk
        rw [hhead]
        have hb' : (k == a) = false := beq_eq_false_iff_ne.mpr (fun hh => hk hh.symm)
        simp only [List.lookup, hb'] at h
        simp [List.lookup, hb', ih h]

/-- replacement does not affect other keys -/
theorem lookup_map_replace_other {β : Type} (k k' : String) (v : β) (l : List (String × β))
    (h : k' ≠ k) :
    List.lookup k' (l.map (fun kv => if kv.1 = k then (k, v) else kv)) = List.lookup k' l := by
  induction l with
  | nil => rfl
  | cons kv l ih =>
      obtain ⟨a, b⟩ := kv
      rw [List.map_cons]
      by_cases hk : a = k
      · have hhead : (if (a, b).1 = k then (k, v) else (a, b)) = (k, v) := if_pos hk
        rw [hhead]
        have hb' : (k' == k) = false := beq_eq_false_iff_ne.mpr h
        have hb2 : (k' == a) = false := beq_eq_false_iff_ne.mpr (hk ▸ h)
        simp [List.lookup, hb', hb2, ih]
      · have hhead : (if (a, b).1 = k then (k, v) else (a, b)) = (a, b) := if_neg hk
        rw [hhead]
        by_cases he : k' = a
        · simp [List.lookup, he]
        · have hb' : (k' == a) = false := beq_eq_false_iff_ne.mpr he
          simp [List.lookup, hb', ih]

/-- appending a fresh binding is found when the key was absent -/
theorem lookup_append_self {β : Type} (k : String) (v : β) (l : List (String × β))
    (h : List.lookup k l = none) :
    List.lookup k (l ++ [(k, v)]) = some v := by
  induction l with
  | nil => simp [List.lookup]
  | cons kv l ih =>
      by_cases hk : k = kv.1
      · simp [List.lookup, hk] at h
      · have hb' : (k == kv.1) = false := beq_eq_false_iff_ne.mpr hk
        simp only [List.lookup, hb'] at h
        simp [List.lookup, hb', ih h]

/-- appending a binding does not affect other keys -/
theorem lookup_append_other {β : Type} (k k' : String) (v : β) (l : List (String × β))
    (h : k' ≠ k) :
    List.lookup k' (l ++ [(k, v)]) = List.lookup k' l := by
  induction l with
  | nil =>
      have hb' : (k' == k) = false := beq_eq_false_iff_ne.mpr h
      simp [List.lookup, hb']
  | cons kv l ih =>
      by_cases he : k' = kv.1
      · simp [List.lookup, he]
      · have hb' : (k' == kv.1) = false := beq_eq_false_iff_ne.mpr he
        simp [List.lookup, hb', ih]

/-- inserted keys are found with the inserted value -/
theorem State_lookup_insert_self (st : State) (k : String) (v : StateResource) :
    (st.insert k v).lookup k = some v := by
  unfold State.insert State.lookup
  by_cases h : (List.lookup k st.Resources).isSome = true
  · rw [if_pos h]
    exact lookup_map_replace_self k v st.Resources h
  · rw [if_neg h]
    exact lookup_append_self k v st.Resources (by
      cases hl : List.lookup k st.Resources with
      | none => rfl
      | some w => rw [hl] at h; simp at h)

/-- insertion does not affect other keys -/
theorem State_lookup_insert_other (st : State) (k k' : String) (v : StateResource)
    (h : k' ≠ k) : (st.insert k v).lookup k' = st.lookup k' := by
  unfold State.insert State.lookup
  by_cases hs : (List.lookup k st.Resources).isSome = true
  · rw [if_pos hs]
    exact lookup_map_replace_other k k' v st.Resources h
  · rw [if_neg hs]
    exact lookup_append_other k k' v st.Resources h

/-- erased keys are gone -/
theorem State_lookup_erase_self (st : State) (k : String) :
    (st.erase k).lookup k = none :=
  lookup_filter_ne k st.Resources

/-- erasing does not affect other keys -/
theorem State_lookup_erase_other (st : State) (k k' : String) (h : k' ≠ k) :
    (st.erase k).lookup k' = st.lookup k' :=
  lookup_filter_other k k' st.Resources h

/-- a found ns/path match is a real entry of the state list -/
theorem FindByNsPath_mem (st : State) (ns path : String) (k : String) (e : StateResource)
    (h : st.FindByNsPath ns path = some (k, e)) :
    (k, e) ∈ st.Resources
    ∧ normalizeNamespace e.Namespace = normalizeNamespace ns
    ∧ normalizePath e.Path = normalizePath path := by
  have hm := List.mem_of_find?_eq_some h
  have hp := List.find?_some h
  simp only [Bool.and_eq_true, beq_iff_eq] at hp
  exact ⟨hm, hp.1, hp.2⟩

/-- membership makes lookup succeed on some value -/
theorem lookup_isSome_of_mem {β : Type} (k : String) (v : β) (l : List (String × β))
    (h : (k, v) ∈ l) : List.lookup k l ≠ none := by
  rw [Ne, lookup_none_iff]
  intro hk
  exact hk (List.mem_map.mpr ⟨(k, v), h, rfl⟩)

/-- with pairwise distinct keys, membership determines lookup -/
theorem lookup_of_mem_nodup {β : Type} (k : String) (v : β) (l : List (String × β))
    (hnd : (l.map Prod.fst).Nodup) (h : (k, v) ∈ l) : List.lookup k l = some v := by
  induction l with
  | nil => cases h
  | cons kv l ih =>
      rcases List.mem_cons.mp h with rfl | hmem
      · simp [List.lookup]
      · rw [List.map_cons] at hnd
        have hk : k ≠ kv.1 := by
          intro he
          exact (List.nodup_cons.mp hnd).1
            (he ▸ List.mem_map.mpr ⟨(k, v), hmem, rfl⟩)
        have hb' : (k == kv.1) = false := beq_eq_false_iff_ne.mpr hk
        simp [List.lookup, hb', ih (List.nodup_cons.mp hnd).2 hmem]

/-! ### C9: delete tombstones -/

/-- C9: during the delete pass, a DELETE answered with 404 or 405 removes the
key from the state and persists it, surfacing no error regardless of the
entry's `ignore_failures`; any other non-2xx status produces the formatted
error — aborting when `ignore_failures` is false and otherwise swallowing it
and leaving the key in place. -/
theorem delete_tombstone_and_error_handling :
    (∀ (client : Request → HttpResponse) (writer : State → Bool) (addr token : String)
        (st : State) (key : String),
        (client (deleteReqOf addr token st key)).Status = 404
          ∨ (client (deleteReqOf addr token st key)).Status = 405 →
        writer (st.erase key) = true →
        deleteStep client writer addr token st key
          = StepOutcome.next (st.erase key)
              [Event.http (deleteReqOf addr token st key) (client (deleteReqOf addr token st key)),
                Event.save (st.erase key)]
          ∧ (st.erase key).lookup key = none)
    ∧ (∀ (client : Request → HttpResponse) (writer : State → Bool) (addr token : String)
        (st : State) (key : String),
        is2xx (client (deleteReqOf addr token st key)).Status = false →
        (client (deleteReqOf addr token st key)).Status ≠ 404 →
        (client (deleteReqOf addr token st key)).Status ≠ 405 →
        deleteStep client writer addr token st key
          = if ((st.lookup key).getD default).IgnoreFailures
            then StepOutcome.next st
                [Event.http (deleteReqOf addr token st key)
                    (client (deleteReqOf addr token st key)),
                  Event.swallowed (deleteErrMsgOf st key (client (deleteReqOf addr token st key)))]
            else StepOutcome.abort
                (deleteErrMsgOf st key (client (deleteReqOf addr token st key))) st
                [Event.http (deleteReqOf addr token st key)
                    (client (deleteReqOf addr token st key))]) := by
  constructor
  · intro client writer addr token st key h404 hw
    refine ⟨?_, State_lookup_erase_self st key⟩
    have hnot2xx : is2xx (client (deleteReqOf addr token st key)).Status = false := by
      rcases h404 with h | h <;> rw [h] <;> rfl
    have hcond : (client (deleteReqOf addr token st key)).Status = 405
        ∨ (client (deleteReqOf addr token st key)).Status = 404 := h404.symm
    simp only [deleteStep, deleteReqOf] at hnot2xx hcond hw ⊢
    rw [hnot2xx]
    simp only [Bool.false_eq_true, if_false]
    rw [if_pos hcond, if_pos hw]
  · intro client writer addr token st key hnot2xx h404 h405
    have hcond : ¬ ((client (deleteReqOf addr token st key)).Status = 405
        ∨ (client (deleteReqOf addr token st key)).Status = 404) := by
      rintro (h | h)
      · exact h405 h
      · exact h404 h
    simp only [deleteStep, deleteReqOf, deleteErrMsgOf, delMsg] at hnot2xx hcond ⊢
    rw [hnot2xx]
    simp only [Bool.false_eq_true, if_false]
    rw [if_neg hcond]
    by_cases hig : ((st.lookup key).getD default).IgnoreFailures = true
    · rw [if_pos hig]
      rw [if_neg (by simp [hig])]
    · rw [if_neg hig]
      rw [if_pos (by simpa using hig)]

/-- C9 (witness): a 404 on the DELETE of key `k` removes its entry and
persists, with no error. -/
theorem delete_tombstone_witness :
    deleteStep (fun _ => ⟨404, "", none⟩) (fun _ => true) "http://v" "t"
        ⟨[("k", ⟨"d", [], false, Value.null, "ns", "p"⟩)]⟩ "k"
      = StepOutcome.next (State.erase ⟨[("k", ⟨"d", [], false, Value.null, "ns", "p"⟩)]⟩ "k")
          [Event.http
              (deleteReqOf "http://v" "t" ⟨[("k", ⟨"d", [], false, Value.null, "ns", "p"⟩)]⟩ "k")
              ⟨404, "", none⟩,
            Event.save (State.erase ⟨[("k", ⟨"d", [], false, Value.null, "ns", "p"⟩)]⟩ "k")]
    ∧ (State.erase ⟨[("k", ⟨"d", [], false, Value.null, "ns", "p"⟩)]⟩ "k").lookup "k" = none :=
  delete_tombstone_and_error_handling.1 (fun _ => ⟨404, "", none⟩) (fun _ => true) "http://v" "t"
    ⟨[("k", ⟨"d", [], false, Value.null, "ns", "p"⟩)]⟩ "k" (Or.inl rfl) rfl

/-! ### C3: key migration -/

/-- C3 (amended): when a resource's effective name is absent from state and
the first state entry, in iteration order, whose normalized namespace and
path equal the resource's also has the matching digest, the engine copies
that entry under the new key with the resource's namespace and path
(preserving `response_data`), deletes the old key, persists the state, and
issues no HTTP request for the resource. -/
theorem apply_key_migration (client : Request → HttpResponse) (writer : State → Bool)
    (addr token : String) (r : Resource) (st : State) (rd : Value) (oldKey : String)
    (prev : StateResource)
    (hres : ResolveTemplates r.Data st = Except.ok rd)
    (habs : st.lookup r.Key = none)
    (hfind : st.FindByNsPath r.NamespaceOrDefault r.Path = some (oldKey, prev))
    (hdig : prev.DataDigest = dataDigestWithRevision rd (revisionForDigest r.Revision))
    (hw : writer ((st.insert r.Key (migratedEntry r prev)).erase oldKey) = true) :
    applyResourceStep client writer addr token r st
      = StepOutcome.next ((st.insert r.Key (migratedEntry r prev)).erase oldKey)
          [Event.migrate r.Key oldKey,
            Event.save ((st.insert r.Key (migratedEntry r prev)).erase oldKey)]
    ∧ ((st.insert r.Key (migratedEntry r prev)).erase oldKey).lookup r.Key
        = some (migratedEntry r prev)
    ∧ (migratedEntry r prev).ResponseData = prev.ResponseData
    ∧ ((st.insert r.Key (migratedEntry r prev)).erase oldKey).lookup oldKey = none := by
  have hne : oldKey ≠ r.Key := by
    intro he
    have hmem := (FindByNsPath_mem st r.NamespaceOrDefault r.Path oldKey prev hfind).1
    have := lookup_isSome_of_mem oldKey prev st.Resources hmem
    rw [he] at this
    exact this habs
  refine ⟨?_, ?_, rfl, State_lookup_erase_self _ oldKey⟩
  · simp only [applyResourceStep, hres, habs, hfind]
    rw [if_pos hdig]
    simp only [migratedEntry] at hw ⊢
    rw [if_pos hw]
  · rw [State_lookup_erase_other _ oldKey r.Key (fun h => hne h.symm)]
    exact State_lookup_insert_self st r.Key (migratedEntry r prev)

/-- C3 (witness): with a single matching entry under `old`, the step migrates
it to the new key with the response data preserved and issues no HTTP request. -/
theorem apply_key_migration_witness :
    applyResourceStep (fun _ => ⟨204, "", none⟩) (fun _ => true) "http://v" "t"
        cexMigResource
        ⟨[("old", ⟨dataDigestWithRevision (Value.smap [("a", Value.str "v")]) 0, [], false,
            Value.str "R", "", "p"⟩)]⟩
      = StepOutcome.next
          ((State.insert
              ⟨[("old", ⟨dataDigestWithRevision (Value.smap [("a", Value.str "v")]) 0, [], false,
                  Value.str "R", "", "p"⟩)]⟩
              cexMigResource.Key
              (migratedEntry cexMigResource
                ⟨dataDigestWithRevision (Value.smap [("a", Value.str "v")]) 0, [], false,
                  Value.str "R", "", "p"⟩)).erase "old")
          [Event.migrate cexMigResource.Key "old",
            Event.save
              ((State.insert
                  ⟨[("old", ⟨dataDigestWithRevision (Value.smap [("a", Value.str "v")]) 0, [],
                      false, Value.str "R", "", "p"⟩)]⟩
                  cexMigResource.Key
                  (migratedEntry cexMigResource
                    ⟨dataDigestWithRevision (Value.smap [("a", Value.str "v")]) 0, [], false,
                      Value.str "R", "", "p"⟩)).erase "old")] :=
  (apply_key_migration (fun _ => ⟨204, "", none⟩) (fun _ => true) "http://v" "t"
    cexMigResource
    ⟨[("old", ⟨dataDigestWithRevision (Value.smap [("a", Value.str "v")]) 0, [], false,
        Value.str "R", "", "p"⟩)]⟩
    (Value.smap [("a", Value.str "v")]) "old"
    ⟨dataDigestWithRevision (Value.smap [("a", Value.str "v")]) 0, [], false,
      Value.str "R", "", "p"⟩
    rfl rfl rfl rfl rfl).1

/-- C3 (counterexample): the claim quantifies over "some state entry" with a
matching pair and digest, but the code only consults the first entry found by
`FindByNsPath`; with a decoy entry (same namespace and path, wrong digest)
ahead of the matching `old` entry, no migration happens: an HTTP request is
issued for the resource and the `old` entry survives the create/update step. -/
theorem apply_key_migration_counterexample :
    State.lookup cexMigState cexMigResource.Key = none
    ∧ State.lookup cexMigState "old"
        = some ⟨dataDigestWithRevision (Value.smap [("a", Value.str "v")]) 0, [], false,
            Value.str "R", "", "p"⟩
    ∧ normalizeNamespace (StateResource.Namespace
        ⟨dataDigestWithRevision (Value.smap [("a", Value.str "v")]) 0, [], false,
          Value.str "R", "", "p"⟩)
        = normalizeNamespace cexMigResource.NamespaceOrDefault
    ∧ normalizePath (StateResource.Path
        ⟨dataDigestWithRevision (Value.smap [("a", Value.str "v")]) 0, [], false,
          Value.str "R", "", "p"⟩)
        = normalizePath cexMigResource.Path
    ∧ ResolveTemplates cexMigResource.Data cexMigState
        = Except.ok (Value.smap [("a", Value.str "v")])
    ∧ (eventsOfOutcome (applyResourceStep (fun _ => ⟨204, "", none⟩) (fun _ => true)
          "http://v" "t" cexMigResource cexMigState)).any Event.isHttp = true
    ∧ (State.lookup (stateOfOutcome (applyResourceStep (fun _ => ⟨204, "", none⟩)
          (fun _ => true) "http://v" "t" cexMigResource cexMigState)) "old").isSome = true :=
  ⟨rfl, rfl, rfl, rfl, rfl, rfl, rfl⟩

/-! ### Kahn worklist lemmas -/

/-- sums over a duplicate-free sublist are bounded by the whole -/
theorem sum_map_le_of_nodup_subset {α : Type} [DecidableEq α] (f : α → Nat) :
    ∀ (l nodes : List α), l.Nodup → (∀ x ∈ l, x ∈ nodes) →
      (l.map f).sum ≤ (nodes.map f).sum := by
  intro l
  induction l with
  | nil => intro nodes _ _; simp
  | cons x l ih =>
      intro nodes hnd hsub
      have hx : x ∈ nodes := hsub x (List.mem_cons_self x l)
      have hperm : List.Perm nodes (x :: nodes.erase x) := List.perm_cons_erase hx
      have hsum : (nodes.map f).sum = f x + ((nodes.erase x).map f).sum := by
        rw [List.Perm.sum_eq (List.Perm.map f hperm)]
        simp
      rw [hsum, List.map_cons, List.sum_cons]
      have hl : ∀ y ∈ l, y ∈ nodes.erase x := by
        intro y hy
        refine (List.mem_erase_of_ne ?_).mpr (hsub y (List.mem_cons_of_mem x hy))
        intro he
        exact (List.nodup_cons.mp hnd).1 (he ▸ hy)
      exact Nat.add_le_add_left (ih (nodes.erase x) (List.nodup_cons.mp hnd).2 hl) (f x)

/-- a sum is covered by any list containing its support -/
theorem sum_map_le_of_support_subset {α : Type} [DecidableEq α] (f : α → Nat) :
    ∀ (nodes l : List α), nodes.Nodup → (∀ u ∈ nodes, u ∉ l → f u = 0) →
      (nodes.map f).sum ≤ (l.map f).sum := by
  intro nodes
  induction nodes with
  | nil => intro l _ _; simp
  | cons x nodes ih =>
      intro l hnd hsupp
      rw [List.map_cons, List.sum_cons]
      by_cases hx : x ∈ l
      · have hperm : List.Perm l (x :: l.erase x) := List.perm_cons_erase hx
        have hsum : (l.map f).sum = f x + ((l.erase x).map f).sum := by
          rw [List.Perm.sum_eq (List.Perm.map f hperm)]
          simp
        rw [hsum]
        refine Nat.add_le_add_left (ih (l.erase x) (List.nodup_cons.mp hnd).2 ?_) (f x)
        intro u hu hne
        by_cases hux : u = x
        · exact absurd (hux ▸ hu) (List.nodup_cons.mp hnd).1
        · refine hsupp u (List.mem_cons_of_mem x hu) ?_
          intro hul
          exact hne ((List.mem_erase_of_ne hux).mpr hul)
      · rw [hsupp x (List.mem_cons_self x nodes) hx, Nat.zero_add]
        refine ih l (List.nodup_cons.mp hnd).2 ?_
        intro u hu hne
        exact hsupp u (List.mem_cons_of_mem x hu) hne

/-- `emitCnt` distributes over append -/
theorem emitCnt_append {α : Type} [DecidableEq α] (adjf : α → List α) (l1 l2 : List α) (v : α) :
    emitCnt adjf (l1 ++ l2) v = emitCnt adjf l1 v + emitCnt adjf l2 v := by
  simp [emitCnt, List.sum_append]

/-- specification of the decrement fold of one Kahn iteration -/
theorem kahnFold_spec {α : Type} [DecidableEq α] (l : List α) :
    ∀ (deg : α → Int) (qs : List α),
      (∀ v ∈ l, (l.count v : Int) ≤ deg v) →
      (∀ v, (l.foldl kahnStep (deg, qs)).1 v = deg v - (l.count v : Int))
      ∧ ∃ newly, (l.foldl kahnStep (deg, qs)).2 = qs ++ newly ∧ newly.Nodup
          ∧ ∀ v, v ∈ newly ↔ v ∈ l ∧ deg v = (l.count v : Int) := by
  induction l with
  | nil =>
      intro deg qs _
      refine ⟨fun v => by simp, [], by simp, List.nodup_nil, fun v => by simp⟩
  | cons v0 l ih =>
      intro deg qs hpre
      have hcnt0 : (v0 :: l).count v0 = l.count v0 + 1 := by
        simp [List.count_cons]
      have hpre0 : ((v0 :: l).count v0 : Int) ≤ deg v0 := hpre v0 (List.mem_cons_self v0 l)
      have hstep : (v0 :: l).foldl kahnStep (deg, qs)
          = l.foldl kahnStep (Function.update deg v0 (deg v0 - 1),
              if deg v0 - 1 = 0 then qs ++ [v0] else qs) := by
        rfl
      have hpre' : ∀ v ∈ l, (l.count v : Int) ≤ Function.update deg v0 (deg v0 - 1) v := by
        intro v hv
        by_cases hvv : v = v0
        · subst hvv
          rw [Function.update_same]
          rw [hcnt0] at hpre0
          push_cast at hpre0 ⊢
          omega
        · rw [Function.update_noteq hvv]
          have := hpre v (List.mem_cons_of_mem v0 hv)
          have hc : (v0 :: l).count v = l.count v := by
            simp [List.count_cons, Ne.symm hvv]
          rw [hc] at this
          exact this
      obtain ⟨hdeg', newly1, hq', hnd1, hiff1⟩ :=
        ih (Function.update deg v0 (deg v0 - 1)) (if deg v0 - 1 = 0 then qs ++ [v0] else qs) hpre'
      constructor
      · intro v
        rw [hstep, hdeg' v]
        by_cases hvv : v = v0
        · subst hvv
          rw [Function.update_same, hcnt0]
          push_cast
          omega
        · rw [Function.update_noteq hvv]
          have hc : (v0 :: l).count v = l.count v := by
            simp [List.count_cons, Ne.symm hvv]
          rw [hc]
      · by_cases hz : deg v0 - 1 = 0
        · have hlcnt : l.count v0 = 0 := by
            rw [hcnt0] at hpre0
            push_cast at hpre0
            omega
          have hnotin1 : v0 ∉ newly1 := by
            intro hmem
            have hvm := ((hiff1 v0).mp hmem).1
            rw [← List.count_pos_iff] at hvm
            omega
          refine ⟨v0 :: newly1, ?_, List.nodup_cons.mpr ⟨hnotin1, hnd1⟩, ?_⟩
          · rw [hstep, hq', if_pos hz, List.append_assoc]
            rfl
          · intro v
            by_cases hvv : v = v0
            · subst hvv
              simp only [List.mem_cons, true_or, true_iff]
              refine ⟨by simp, ?_⟩
              rw [hcnt0, hlcnt]
              push_cast
              omega
            · simp only [List.mem_cons, hvv, false_or]
              rw [hiff1 v, Function.update_noteq hvv]
              have hc : (v0 :: l).count v = l.count v := by
                simp [List.count_cons, Ne.symm hvv]
              rw [hc]
        · refine ⟨newly1, ?_, hnd1, ?_⟩
          · rw [hstep, hq', if_neg hz]
          · intro v
            by_cases hvv : v = v0
            · subst hvv
              rw [hiff1 v, Function.update_same]
              constructor
              · rintro ⟨hm, he⟩
                refine ⟨List.mem_cons_self v l, ?_⟩
                rw [hcnt0]
                push_cast
                omega
              · rintro ⟨-, he⟩
                rw [hcnt0] at he
                push_cast at he
                have hmem : v ∈ l := by
                  by_contra hn
                  have h0 : l.count v = 0 := List.count_eq_zero_of_not_mem hn
                  rw [h0] at he
                  push_cast at he
                  omega
                exact ⟨hmem, by omega⟩
            · have hc : (v0 :: l).count v = l.count v := by
                simp [List.count_cons, Ne.symm hvv]
              simp only [List.mem_cons, hvv, false_or]
              rw [hiff1 v, Function.update_noteq hvv, hc]

/-- decomposition of a snoc against an append-cons -/
theorem snoc_eq_append_cons {α : Type} (a : α) :
    ∀ (xs l1 l2 : List α) (v : α),
      xs ++ [a] = l1 ++ v :: l2 →
      (l1 = xs ∧ v = a ∧ l2 = []) ∨ ∃ l2', l2 = l2' ++ [a] ∧ xs = l1 ++ v :: l2' := by
  intro xs
  induction xs with
  | nil =>
      intro l1 l2 v h
      cases l1 with
      | nil =>
          simp only [List.nil_append] at h
          obtain ⟨hv, hl2⟩ := List.cons.inj h
          exact Or.inl ⟨rfl, hv.symm, hl2.symm⟩
      | cons y l1' =>
          simp only [List.nil_append, List.cons_append] at h
          obtain ⟨-, hl⟩ := List.cons.inj h
          exact absurd hl.symm (List.append_ne_nil_of_right_ne_nil l1' (by simp))
  | cons x xs ih =>
      intro l1 l2 v h
      cases l1 with
      | nil =>
          simp only [List.cons_append, List.nil_append] at h
          obtain ⟨hv, hl⟩ := List.cons.inj h
          exact Or.inr ⟨xs, hl.symm, by rw [List.nil_append, hv]⟩
      | cons y l1' =>
          simp only [List.cons_append] at h
          obtain ⟨hxy, hl⟩ := List.cons.inj h
          rcases ih l1' l2 v hl with ⟨h1, h2, h3⟩ | ⟨l2', h1, h2⟩
          · exact Or.inl ⟨by rw [hxy, h1], h2, h3⟩
          · exact Or.inr ⟨l2', h1, by rw [hxy, h2, List.cons_append]⟩

/-- the Kahn worklist master lemma: from an invariant state, the final order
extends the current one, stays within the nodes without duplicates, respects
the edges, and any node left out has an in-neighbour that is also left out -/
theorem kahnLoop_master {α : Type} [DecidableEq α] (nodes : List α) (adjf : α → List α)
    (deg0 : α → Int)
    (hdeg0 : ∀ v ∈ nodes, deg0 v = (emitCnt adjf nodes v : Int))
    (hadj : ∀ u v, v ∈ adjf u → u ∈ nodes ∧ v ∈ nodes)
    (hnodes : nodes.Nodup) :
    ∀ (fuel : Nat) (queue : List α) (deg : α → Int) (order : List α),
      KahnInv nodes adjf deg0 queue deg order →
      fuel + order.length = nodes.length →
      (∃ suffix, kahnLoop adjf fuel queue deg order = order ++ suffix)
      ∧ (∀ x ∈ kahnLoop adjf fuel queue deg order, x ∈ nodes)
      ∧ (kahnLoop adjf fuel queue deg order).Nodup
      ∧ (∀ l1 v l2, kahnLoop adjf fuel queue deg order = l1 ++ v :: l2 →
          ∀ u ∈ nodes, v ∈ adjf u → u ∈ l1)
      ∧ (∀ v ∈ nodes, v ∉ kahnLoop adjf fuel queue deg order →
          ∃ u ∈ nodes, u ∉ kahnLoop adjf fuel queue deg order ∧ v ∈ adjf u) := by
  intro fuel
  induction fuel with
  | zero =>
      intro queue deg order inv hlen
      have hout : kahnLoop adjf 0 queue deg order = order := rfl
      have hordnd : order.Nodup := ((List.nodup_append.mp inv.nodup).1)
      have hperm : List.Perm order nodes := by
        refine List.Subperm.perm_of_length_le
          (List.Nodup.subperm hordnd (fun x hx => inv.sub_order x hx)) ?_
        omega
      rw [hout]
      refine ⟨⟨[], by simp⟩, inv.sub_order, hordnd, inv.edges_before, ?_⟩
      intro v hv hnv
      exact absurd ((List.Perm.mem_iff hperm.symm).mp hv) (by simpa using hnv)
  | succ fuel ih =>
      intro queue deg order inv hlen
      cases queue with
      | nil =>
          have hout : kahnLoop adjf (fuel + 1) [] deg order = order := rfl
          have hordnd : order.Nodup := ((List.nodup_append.mp inv.nodup).1)
          rw [hout]
          refine ⟨⟨[], by simp⟩, inv.sub_order, hordnd, inv.edges_before, ?_⟩
          intro v hv hnv
          have hdegv : deg v ≠ 0 := inv.not_in v hv hnv (by simp)
          by_contra hcon
          push_neg at hcon
          have hsupp : ∀ w ∈ nodes, w ∉ order → (adjf w).count v = 0 := by
            intro w hw hwo
            rcases List.count_eq_zero.mpr (fun hmem => (hcon w hw hwo) hmem) with h
            exact h
          have hle1 : emitCnt adjf nodes v ≤ emitCnt adjf order v :=
            sum_map_le_of_support_subset (fun w => (adjf w).count v) nodes order hnodes hsupp
          have hle2 : emitCnt adjf order v ≤ emitCnt adjf nodes v :=
            sum_map_le_of_nodup_subset (fun w => (adjf w).count v) order nodes hordnd
              (fun x hx => inv.sub_order x hx)
          have hd := inv.deg_eq v hv
          rw [hdeg0 v hv] at hd
          apply hdegv
          rw [hd]
          have : emitCnt adjf nodes v = emitCnt adjf order v := Nat.le_antisymm hle1 hle2
          rw [this]
          omega
      | cons u qs =>
          have hout : kahnLoop adjf (fuel + 1) (u :: qs) deg order
              = kahnLoop adjf fuel ((adjf u).foldl kahnStep (deg, qs)).2
                  ((adjf u).foldl kahnStep (deg, qs)).1 (order ++ [u]) := rfl
          have hnd := inv.nodup
          have hordnd : order.Nodup := (List.nodup_append.mp hnd).1
          have hqnd : (u :: qs).Nodup := (List.nodup_append.mp hnd).2.1
          have hdisj : ∀ x ∈ order, x ∉ u :: qs := by
            intro x hx hq
            exact (List.nodup_append.mp hnd).2.2 hx hq
          have hu_nodes : u ∈ nodes := inv.sub_queue u (List.mem_cons_self u qs)
          have hu_no : u ∉ order := fun hx => hdisj u hx (List.mem_cons_self u qs)
          have hsnoc_nd : (order ++ [u]).Nodup := by
            rw [List.nodup_append]
            exact ⟨hordnd, List.nodup_singleton u, by
              intro x hx hxu
              rw [List.mem_singleton] at hxu
              exact hdisj x hx (hxu ▸ List.mem_cons_self u qs)⟩
          have hsum_le : ∀ v ∈ nodes,
              emitCnt adjf order v + (adjf u).count v ≤ emitCnt adjf nodes v := by
            intro v hv
            have h := sum_map_le_of_nodup_subset (fun w => (adjf w).count v)
              (order ++ [u]) nodes hsnoc_nd (by
                intro x hx
                rcases List.mem_append.mp hx with h | h
                · exact inv.sub_order x h
                · rw [List.mem_singleton] at h
                  exact h ▸ hu_nodes)
            simpa [emitCnt, List.sum_append] using h
          have hcnt_zero : ∀ v ∈ nodes, deg v = 0 → (adjf u).count v = 0 := by
            intro v hv h0
            have hd := inv.deg_eq v hv
            rw [hdeg0 v hv] at hd
            have hle := hsum_le v hv
            omega
          have hfoldpre : ∀ v ∈ adjf u, (((adjf u).count v : Nat) : Int) ≤ deg v := by
            intro v hv
            have hvn := (hadj u v hv).2
            have hd := inv.deg_eq v hvn
            rw [hdeg0 v hvn] at hd
            have hle := hsum_le v hvn
            omega
          obtain ⟨hdeg', newly, hq', hndnew, hiff⟩ := kahnFold_spec (adjf u) deg qs hfoldpre
          have hnewly_pos : ∀ v ∈ newly, deg v ≠ 0 := by
            intro v hv
            obtain ⟨hmem, he⟩ := (hiff v).mp hv
            have : 0 < (adjf u).count v := List.count_pos_iff.mpr hmem
            omega
          have hinv' : KahnInv nodes adjf deg0 (qs ++ newly)
              ((adjf u).foldl kahnStep (deg, qs)).1 (order ++ [u]) := by
            refine ⟨?_, ?_, ?_, ?_, ?_, ?_, ?_⟩
            · intro x hx
              rcases List.mem_append.mp hx with h | h
              · exact inv.sub_order x h
              · rw [List.mem_singleton] at h
                exact h ▸ hu_nodes
            · intro x hx
              rcases List.mem_append.mp hx with h | h
              · exact inv.sub_queue x (List.mem_cons_of_mem u h)
              · exact (hadj u x ((hiff x).mp h).1).2
            · rw [List.nodup_append]
              refine ⟨hsnoc_nd, ?_, ?_⟩
              · rw [List.nodup_append]
                refine ⟨(List.nodup_cons.mp hqnd).2, hndnew, ?_⟩
                intro x hx hxn
                exact hnewly_pos x hxn (inv.zero_done x (Or.inr (List.mem_cons_of_mem u hx)))
              · intro x hx hx2
                have hxz : deg x = 0 := by
                  rcases List.mem_append.mp hx with h | h
                  · exact inv.zero_done x (Or.inl h)
                  · rw [List.mem_singleton] at h
                    exact inv.zero_done x (Or.inr (h ▸ List.mem_cons_self u qs))
                rcases List.mem_append.mp hx2 with h | h
                · rcases List.mem_append.mp hx with ho | hu'
                  · exact hdisj x ho (List.mem_cons_of_mem u h)
                  · rw [List.mem_singleton] at hu'
                    subst hu'
                    exact (List.nodup_cons.mp hqnd).1 h
                · exact hnewly_pos x h hxz
            · intro v hv
              rw [hdeg' v, inv.deg_eq v hv, emitCnt_append]
              have : emitCnt adjf [u] v = (adjf u).count v := by
                simp [emitCnt]
              rw [this]
              push_cast
              ring
            · intro v hv
              rcases hv with hv | hv
              · rcases List.mem_append.mp hv with h | h
                · have hz := inv.zero_done v (Or.inl h)
                  have hc0 := hcnt_zero v (inv.sub_order v h) hz
                  rw [hdeg' v, hz, hc0]
                  simp
                · rw [List.mem_singleton] at h
                  subst h
                  have hz := inv.zero_done v (Or.inr (List.mem_cons_self v qs))
                  have hc0 := hcnt_zero v hu_nodes hz
                  rw [hdeg' v, hz, hc0]
                  simp
              · rcases List.mem_append.mp hv with h | h
                · have hz := inv.zero_done v (Or.inr (List.mem_cons_of_mem u h))
                  have hc0 := hcnt_zero v (inv.sub_queue v (List.mem_cons_of_mem u h)) hz
                  rw [hdeg' v, hz, hc0]
                  simp
                · obtain ⟨-, he⟩ := (hiff v).mp h
                  rw [hdeg' v, he]
                  ring
            · intro v hv hvo hvq
              have hvo' : v ∉ order := fun h => hvo (List.mem_append.mpr (Or.inl h))
              have hvu : v ≠ u := by
                intro h
                exact hvo (List.mem_append.mpr (Or.inr (by simp [h])))
              have hvqs : v ∉ qs := fun h => hvq (List.mem_append.mpr (Or.inl h))
              have hvnew : v ∉ newly := fun h => hvq (List.mem_append.mpr (Or.inr h))
              have hold := inv.not_in v hv hvo' (by
                intro h
                rcases List.mem_cons.mp h with h | h
                · exact hvu h
                · exact hvqs h)
              rw [hdeg' v]
              by_cases hva : v ∈ adjf u
              · intro hcon
                apply hvnew
                rw [hiff v]
                refine ⟨hva, ?_⟩
                omega
              · rw [List.count_eq_zero.mpr hva]
                simpa using hold
            · intro l1 v l2 heq u' hu' hedge
              rcases snoc_eq_append_cons u order l1 l2 v heq with ⟨h1, h2, -⟩ | ⟨l2', -, h2⟩
              · subst h2
                rw [h1]
                by_contra hno
                have hz : deg v = 0 := inv.zero_done v (Or.inr (List.mem_cons_self v qs))
                have hc := hsum_le v hu_nodes
                have hd := inv.deg_eq v hu_nodes
                rw [hdeg0 v hu_nodes] at hd
                have hsupp := sum_map_le_of_nodup_subset (fun w => (adjf w).count v)
                  (order ++ [u']) nodes (by
                    rw [List.nodup_append]
                    exact ⟨hordnd, List.nodup_singleton u', by
                      intro x hx hxu
                      rw [List.mem_singleton] at hxu
                      exact hno (hxu ▸ hx)⟩) (by
                    intro x hx
                    rcases List.mem_append.mp hx with h | h
                    · exact inv.sub_order x h
                    · rw [List.mem_singleton] at h
                      exact h ▸ hu')
                have hsupp2 : emitCnt adjf order v + (adjf u').count v
                    ≤ emitCnt adjf nodes v := by
                  simpa [emitCnt, List.sum_append] using hsupp
                have hpos : 0 < (adjf u').count v := List.count_pos_iff.mpr hedge
                omega
              · exact inv.edges_before l1 v l2' h2 u' hu' hedge
          have hlen' : fuel + (order ++ [u]).length = nodes.length := by
            simp only [List.length_append, List.length_singleton]
            omega
          rw [hout, hq']
          obtain ⟨⟨suffix, hsuf⟩, hsub, hnd2, hedge2, hleft⟩ :=
            ih (qs ++ newly) ((adjf u).foldl kahnStep (deg, qs)).1 (order ++ [u]) hinv' hlen'
          refine ⟨⟨u :: suffix, by rw [hsuf, List.append_assoc]; rfl⟩, hsub, hnd2, hedge2, hleft⟩

/-- the Kahn run from the seeded queue: the output is a duplicate-free
selection of the nodes respecting the edges, and every omitted node has an
omitted in-neighbour -/
theorem kahnRun_spec {α : Type} [DecidableEq α] (nodes : List α) (adjf : α → List α)
    (deg0 : α → Int)
    (hdeg0 : ∀ v ∈ nodes, deg0 v = (emitCnt adjf nodes v : Int))
    (hadj : ∀ u v, v ∈ adjf u → u ∈ nodes ∧ v ∈ nodes)
    (hnodes : nodes.Nodup) :
    (∀ x ∈ kahnRun nodes adjf deg0, x ∈ nodes)
    ∧ (kahnRun nodes adjf deg0).Nodup
    ∧ (∀ l1 v l2, kahnRun nodes adjf deg0 = l1 ++ v :: l2 →
        ∀ u ∈ nodes, v ∈ adjf u → u ∈ l1)
    ∧ (∀ v ∈ nodes, v ∉ kahnRun nodes adjf deg0 →
        ∃ u ∈ nodes, u ∉ kahnRun nodes adjf deg0 ∧ v ∈ adjf u) := by
  have hinv : KahnInv nodes adjf deg0 (nodes.filter (fun v => deg0 v == 0)) deg0 [] := by
    refine ⟨?_, ?_, ?_, ?_, ?_, ?_, ?_⟩
    · intro x hx
      exact absurd hx (List.not_mem_nil x)
    · intro x hx
      exact List.mem_of_mem_filter hx
    · simpa using hnodes.filter _
    · intro v hv
      simp [emitCnt]
    · intro v hv
      rcases hv with h | h
      · exact absurd h (List.not_mem_nil v)
      · have := (List.mem_filter.mp h).2
        simpa using this
    · intro v hv h1 h2 h0
      exact h2 (List.mem_filter.mpr ⟨hv, by simp [h0]⟩)
    · intro l1 v l2 h
      exact absurd h.symm (List.append_ne_nil_of_right_ne_nil l1 (by simp))
  have hm := kahnLoop_master nodes adjf deg0 hdeg0 hadj hnodes nodes.length
    (nodes.filter (fun v => deg0 v == 0)) deg0 [] hinv (by simp)
  obtain ⟨-, h1, h2, h3, h4⟩ := hm
  exact ⟨h1, h2, h3, h4⟩

/-- every element of a chain's tail has a predecessor in the chain -/
theorem chain_pred_tail {α : Type} (rel : α → α → Prop) :
    ∀ (ws : List α), List.Chain' rel ws → ∀ x ∈ ws.tail, ∃ u ∈ ws, rel u x := by
  intro ws
  induction ws with
  | nil =>
      intro _ x hx
      exact absurd hx (List.not_mem_nil x)
  | cons a ws ih =>
      intro h x hx
      simp only [List.tail_cons] at hx
      cases ws with
      | nil => exact absurd hx (List.not_mem_nil x)
      | cons b ws' =>
          rcases List.mem_cons.mp hx with hxb | hx'
          · exact ⟨a, List.mem_cons_self a _, by rw [hxb]; exact (List.chain'_cons.mp h).1⟩
          · obtain ⟨u, hu, hr⟩ := ih (List.chain'_cons.mp h).2 x hx'
            exact ⟨u, List.mem_cons_of_mem a hu, hr⟩

/-- a duplicated element splits its list at two occurrences -/
theorem duplicate_split {α : Type} (x : α) :
    ∀ (ws : List α), List.Duplicate x ws → ∃ w1 w2 w3, ws = w1 ++ x :: w2 ++ x :: w3 := by
  intro ws h
  induction h with
  | cons_mem hm =>
      obtain ⟨s, t, hst⟩ := List.append_of_mem hm
      exact ⟨[], s, t, by rw [hst]; rfl⟩
  | cons_duplicate hd ih =>
      obtain ⟨w1, w2, w3, hw⟩ := ih
      exact ⟨_ :: w1, w2, w3, by rw [hw]; rfl⟩

/-- split a list at the first element satisfying a decidable predicate -/
theorem first_mem_split {α : Type} (p : α → Prop) [DecidablePred p] :
    ∀ (l : List α), (∃ x ∈ l, p x) →
      ∃ l1 x l2, l = l1 ++ x :: l2 ∧ p x ∧ ∀ y ∈ l1, ¬ p y := by
  intro l
  induction l with
  | nil =>
      intro h
      obtain ⟨x, hx, -⟩ := h
      exact absurd hx (List.not_mem_nil x)
  | cons a l ih =>
      intro h
      by_cases hpa : p a
      · exact ⟨[], a, l, rfl, hpa, by
          intro y hy
          exact absurd hy (List.not_mem_nil y)⟩
      · obtain ⟨x, hx, hpx⟩ := h
        rcases List.mem_cons.mp hx with hxa | hxl
        · exact absurd (hxa ▸ hpx) hpa
        · obtain ⟨l1, x', l2, heq, hp, hnone⟩ := ih ⟨x, hxl, hpx⟩
          refine ⟨a :: l1, x', l2, by rw [heq]; rfl, hp, ?_⟩
          intro y hy
          rcases List.mem_cons.mp hy with h1 | h1
          · rw [h1]
            exact hpa
          · exact hnone y h1

/-- an omitted node whose in-neighbours recursively stay omitted yields a cycle -/
theorem leftover_gives_cycle {α : Type} [DecidableEq α] (nodes : List α)
    (adjf : α → List α) (out : List α)
    (hleft : ∀ v ∈ nodes, v ∉ out → ∃ u ∈ nodes, u ∉ out ∧ v ∈ adjf u)
    (v0 : α) (hv0 : v0 ∈ nodes) (hv0o : v0 ∉ out) :
    AdjCycle adjf := by
  classical
  have walk : ∀ n : Nat, ∃ (v : α) (ws : List α),
      (∀ x ∈ v :: ws, x ∈ nodes ∧ x ∉ out)
      ∧ List.Chain' (fun a b => b ∈ adjf a) (v :: ws)
      ∧ (v :: ws).length = n + 1 := by
    intro n
    induction n with
    | zero =>
        refine ⟨v0, [], ?_, by simp, rfl⟩
        intro x hx
        rcases List.mem_cons.mp hx with rfl | h
        · exact ⟨hv0, hv0o⟩
        · exact absurd h (List.not_mem_nil x)
    | succ n ihn =>
        obtain ⟨v, ws, hmem, hch, hlen⟩ := ihn
        obtain ⟨hvN, hvO⟩ := hmem v (List.mem_cons_self v ws)
        obtain ⟨u, huN, huO, hadjv⟩ := hleft v hvN hvO
        refine ⟨u, v :: ws, ?_, List.chain'_cons.mpr ⟨hadjv, hch⟩, by simpa using hlen⟩
        intro x hx
        rcases List.mem_cons.mp hx with rfl | hx'
        · exact ⟨huN, huO⟩
        · exact hmem x hx'
  obtain ⟨v, ws, hmem, hch, hlen⟩ := walk nodes.length
  have hnotnd : ¬ (v :: ws).Nodup := by
    intro hnd
    have hsub := List.Nodup.subperm hnd (fun x hx => (hmem x hx).1)
    have := List.Subperm.length_le hsub
    omega
  obtain ⟨x, hdup⟩ := List.exists_duplicate_iff_not_nodup.mpr hnotnd
  obtain ⟨w1, w2, w3, hw⟩ := duplicate_split x _ hdup
  have hinf : (x :: w2 ++ [x]) <:+: (v :: ws) := ⟨w1, w3, by rw [hw]; simp⟩
  have hcyc : List.Chain' (fun a b => b ∈ adjf a) (x :: w2 ++ [x]) :=
    List.Chain'.infix hch hinf
  exact ⟨x, w2, hcyc⟩

/-- a worklist output respecting the edges must omit some node of a cycle -/
theorem cycle_node_not_out {α : Type} [DecidableEq α] (nodes : List α)
    (adjf : α → List α) (out : List α)
    (hedge : ∀ l1 v l2, out = l1 ++ v :: l2 → ∀ u ∈ nodes, v ∈ adjf u → u ∈ l1)
    (hadj : ∀ u v, v ∈ adjf u → u ∈ nodes ∧ v ∈ nodes)
    (hcyc : AdjCycle adjf) :
    ∃ v ∈ nodes, v ∉ out := by
  classical
  obtain ⟨v, l, hch⟩ := hcyc
  have hch' : List.Chain' (fun a b => b ∈ adjf a) (v :: l ++ [v]) := hch
  have hpred : ∀ x ∈ v :: l, ∃ u ∈ v :: l, x ∈ adjf u := by
    intro x hx
    have hxt : x ∈ (v :: l ++ [v]).tail := by
      rcases List.mem_cons.mp hx with rfl | h
      · simp
      · simp [h]
    obtain ⟨u, hu, hr⟩ := chain_pred_tail _ _ hch' x hxt
    refine ⟨u, ?_, hr⟩
    rcases List.mem_cons.mp hu with rfl | h
    · exact List.mem_cons_self _ _
    · rcases List.mem_append.mp h with h' | h'
      · exact List.mem_cons_of_mem _ h'
      · rw [List.mem_singleton] at h'
        rw [h']
        exact List.mem_cons_self _ _
  have hcycN : ∀ x ∈ v :: l, x ∈ nodes := by
    intro x hx
    obtain ⟨u, -, hr⟩ := hpred x hx
    exact (hadj u x hr).2
  by_contra hcon
  push_neg at hcon
  have hvout : v ∈ out := hcon v (hcycN v (List.mem_cons_self v l))
  have hex : ∃ x ∈ out, x ∈ v :: l := ⟨v, hvout, List.mem_cons_self v l⟩
  obtain ⟨l1, x, l2, heq, hpx, hnone⟩ := first_mem_split (fun y => y ∈ v :: l) out hex
  obtain ⟨u, hu, hr⟩ := hpred x hpx
  have huL1 : u ∈ l1 := hedge l1 x l2 heq u (hcycN u hu) hr
  exact hnone u huL1 hu

/-- a successful lookup points at a pair of the list -/
theorem lookup_mem_pairs {β : Type} :
    ∀ (l : List (String × β)) (k : String) (b : β),
      List.lookup k l = some b → (k, b) ∈ l := by
  intro l
  induction l with
  | nil =>
      intro k b h
      simp [List.lookup] at h
  | cons kv l ih =>
      intro k b h
      obtain ⟨a, c⟩ := kv
      by_cases hk : k = a
      · subst hk
        simp only [List.lookup, beq_self_eq_true, if_true] at h
        rw [Option.some.injEq] at h
        rw [List.mem_cons]
        exact Or.inl (by rw [h])
      · have hb' : (k == a) = false := beq_eq_false_iff_ne.mpr hk
        simp only [List.lookup, hb'] at h
        exact List.mem_cons_of_mem _ (ih k b h)

/-- every pair of an insertion is the inserted pair or a pair of the original -/
theorem byNameInsert_mem (m : List (String × Nat)) (k : String) (i : Nat) :
    ∀ p ∈ byNameInsert m k i, p = (k, i) ∨ p ∈ m := by
  intro p hp
  unfold byNameInsert at hp
  by_cases hs : (List.lookup k m).isSome
  · rw [if_pos hs] at hp
    obtain ⟨q, hq, hpq⟩ := List.mem_map.mp hp
    by_cases hqk : q.1 = k
    · left
      rw [← hpq, if_pos hqk]
    · right
      rw [← hpq, if_neg hqk]
      exact hq
  · rw [if_neg hs] at hp
    rcases List.mem_append.mp hp with h | h
    · right
      exact h
    · left
      rw [List.mem_singleton] at h
      exact h

/-- peel the last insertion off the `byName` build -/
theorem buildByName_step (rs : List Resource) (m : Nat) :
    (List.range (m+1)).foldl
        (fun acc i => byNameInsert acc (rs.getD i default).EffectiveName i) []
      = byNameInsert
          ((List.range m).foldl
            (fun acc i => byNameInsert acc (rs.getD i default).EffectiveName i) [])
          (rs.getD m default).EffectiveName m := by
  rw [List.range_succ, List.foldl_append]
  rfl

/-- every pair of the partial `byName` build maps a prefix index to its name -/
theorem buildByName_prefix_mem (rs : List Resource) :
    ∀ (m : Nat) p, p ∈ (List.range m).foldl
        (fun acc i => byNameInsert acc (rs.getD i default).EffectiveName i) [] →
      p.1 = (rs.getD p.2 default).EffectiveName ∧ p.2 < m := by
  intro m
  induction m with
  | zero =>
      intro p hp
      exact absurd hp (List.not_mem_nil p)
  | succ m ih =>
      intro p hp
      rw [buildByName_step] at hp
      rcases byNameInsert_mem _ _ _ p hp with h | h
      · rw [h]
        exact ⟨rfl, Nat.lt_succ_self m⟩
      · obtain ⟨h1, h2⟩ := ih p h
        exact ⟨h1, Nat.lt_succ_of_lt h2⟩

/-- `getD` within bounds is `get` -/
theorem getD_get {β : Type} (d : β) :
    ∀ (l : List β) (i : Nat) (h : i < l.length), l.getD i d = l.get ⟨i, h⟩ := by
  intro l
  induction l with
  | nil =>
      intro i h
      exact absurd h (Nat.not_lt_zero i)
  | cons a l ih =>
      intro i h
      cases i with
      | zero => rfl
      | succ n => exact ih n (Nat.lt_of_succ_lt_succ h)

/-- duplicate-free effective names are injective over the indices -/
theorem effName_inj (rs : List Resource)
    (hnn : (rs.map Resource.EffectiveName).Nodup) (i j : Nat)
    (hi : i < rs.length) (hj : j < rs.length)
    (h : (rs.getD i default).EffectiveName = (rs.getD j default).EffectiveName) : i = j := by
  have hi' : i < (rs.map Resource.EffectiveName).length := by simpa using hi
  have hj' : j < (rs.map Resource.EffectiveName).length := by simpa using hj
  have hg : (rs.map Resource.EffectiveName).get ⟨i, hi'⟩
      = (rs.map Resource.EffectiveName).get ⟨j, hj'⟩ := by
    rw [List.get_map, List.get_map]
    rw [← getD_get default rs i hi, ← getD_get default rs j hj]
    exact h
  have := (List.Nodup.get_inj_iff hnn).mp hg
  simpa using this

/-- the `byName` map binds each key to an index bearing that name, below the
batch length -/
theorem buildByName_sound (rs : List Resource) (k : String) (i : Nat)
    (h : List.lookup k (buildByName rs) = some i) :
    (rs.getD i default).EffectiveName = k ∧ i < rs.length := by
  have hm := lookup_mem_pairs _ k i h
  have hp := buildByName_prefix_mem rs rs.length (k, i) hm
  exact ⟨hp.1.symm, hp.2⟩

/-- under duplicate-free effective names, each prefix build resolves every
covered index's name to that index -/
theorem buildByName_prefix_complete (rs : List Resource)
    (hnn : (rs.map Resource.EffectiveName).Nodup) :
    ∀ (m : Nat), m ≤ rs.length → ∀ i, i < m →
      List.lookup ((rs.getD i default).EffectiveName)
          ((List.range m).foldl
            (fun acc j => byNameInsert acc (rs.getD j default).EffectiveName j) []) = some i := by
  intro m
  induction m with
  | zero =>
      intro _ i hi
      omega
  | succ m ih =>
      intro hm i hi
      rw [buildByName_step]
      have hmlt : m < rs.length := hm
      have hnone : List.lookup ((rs.getD m default).EffectiveName)
          ((List.range m).foldl
            (fun acc j => byNameInsert acc (rs.getD j default).EffectiveName j) []) = none := by
        cases hl : List.lookup ((rs.getD m default).EffectiveName)
            ((List.range m).foldl
              (fun acc j => byNameInsert acc (rs.getD j default).EffectiveName j) []) with
        | none => rfl
        | some j =>
            have hmem := lookup_mem_pairs _ _ _ hl
            have hp := buildByName_prefix_mem rs m _ hmem
            have hje : j = m := effName_inj rs hnn j m
              (lt_of_lt_of_le hp.2 (Nat.le_of_succ_le hm)) hmlt hp.1.symm
            omega
      have hbr : byNameInsert ((List.range m).foldl
            (fun acc j => byNameInsert acc (rs.getD j default).EffectiveName j) [])
          (rs.getD m default).EffectiveName m
        = ((List.range m).foldl
            (fun acc j => byNameInsert acc (rs.getD j default).EffectiveName j) [])
          ++ [((rs.getD m default).EffectiveName, m)] := by
        rw [byNameInsert, hnone]
        simp
      rw [hbr]
      by_cases him : i = m
      · subst him
        exact lookup_append_self _ _ _ hnone
      · have hne : (rs.getD i default).EffectiveName ≠ (rs.getD m default).EffectiveName := by
          intro he
          exact him (effName_inj rs hnn i m (by omega) hmlt he)
        rw [lookup_append_other _ _ _ _ hne]
        exact ih (Nat.le_of_succ_le hm) i (by omega)

/-- under duplicate-free effective names, `byName` resolves each index's name
to that index -/
theorem buildByName_complete (rs : List Resource)
    (hnn : (rs.map Resource.EffectiveName).Nodup) (i : Nat) (hi : i < rs.length) :
    List.lookup ((rs.getD i default).EffectiveName) (buildByName rs) = some i :=
  buildByName_prefix_complete rs hnn rs.length (le_refl _) i hi

/-- pointwise sum of mapped additions -/
theorem sum_map_add_nat {α : Type} (l : List α) (f g : α → Nat) :
    (l.map (fun x => f x + g x)).sum = (l.map f).sum + (l.map g).sum := by
  induction l with
  | nil => rfl
  | cons a l ih =>
      simp only [List.map_cons, List.sum_cons, ih]
      omega

/-- a sum of indicators over a duplicate-free list picks the single hit -/
theorem sum_pick_list {α : Type} [DecidableEq α] :
    ∀ (l : List α), l.Nodup → ∀ (a : α) (L : α → Nat),
      (l.map (fun d => if a = d then L d else 0)).sum = if a ∈ l then L a else 0 := by
  intro l
  induction l with
  | nil =>
      intro _ a L
      simp
  | cons x l ih =>
      intro hnd a L
      have hx : x ∉ l := (List.nodup_cons.mp hnd).1
      rw [List.map_cons, List.sum_cons, ih (List.nodup_cons.mp hnd).2 a L]
      by_cases hax : a = x
      · subst hax
        rw [if_pos rfl, if_neg hx, if_pos (List.mem_cons_self a l)]
        omega
      · rw [if_neg hax]
        by_cases hal : a ∈ l
        · rw [if_pos hal, if_pos (List.mem_cons_of_mem x hal)]
          omega
        · rw [if_neg hal, if_neg (by
            intro h
            rcases List.mem_cons.mp h with h | h
            · exact hax h
            · exact hal h)]

/-- a constant map is a replicate -/
theorem map_const_replicate {γ α : Type} (x : α) :
    ∀ (l : List γ), l.map (fun _ => x) = List.replicate l.length x := by
  intro l
  induction l with
  | nil => rfl
  | cons y l ih =>
      rw [List.map_cons, ih, List.length_cons, List.replicate_succ]

/-- counting a tag in a flatMap of constant-tagged payloads -/
theorem count_flatMap_tag {α γ : Type} [DecidableEq α] (pay : α → List γ) (a : α) :
    ∀ (src : List α),
      ((src.flatMap (fun j => (pay j).map (fun _ => j))).count a)
        = (src.map (fun j => if a = j then (pay j).length else 0)).sum := by
  intro src
  induction src with
  | nil => rfl
  | cons x src ih =>
      rw [List.flatMap_cons, List.count_append, ih, List.map_cons, List.sum_cons]
      rw [map_const_replicate x (pay x), List.count_replicate]
      by_cases hax : a = x
      · subst hax
        simp
      · have hb : (x == a) = false := beq_eq_false_iff_ne.mpr (fun h => hax h.symm)
        rw [hb, if_neg hax]
        simp

/-- classifying a filter by a duplicate-free list of classes -/
theorem sum_filter_classify {γ β : Type} [DecidableEq β] (l : List β) (hnd : l.Nodup)
    (cls : γ → Option β) (hcls : ∀ x b, cls x = some b → b ∈ l) :
    ∀ (deps : List γ),
      (l.map (fun d => (deps.filter (fun x => cls x == some d)).length)).sum
        = (deps.filter (fun x => (cls x).isSome)).length := by
  intro deps
  induction deps with
  | nil => simp
  | cons y deps ih =>
      have hterm : ∀ d : β, ((y :: deps).filter (fun x => cls x == some d)).length
          = (if cls y == some d then 1 else 0)
            + ((deps.filter (fun x => cls x == some d)).length) := by
        intro d
        rw [List.filter_cons]
        by_cases h : (cls y == some d) = true
        · rw [if_pos h, if_pos h]
          simp only [List.length_cons]
          omega
        · rw [if_neg h, if_neg h]
          omega
      have hmapeq : (l.map (fun d => ((y :: deps).filter (fun x => cls x == some d)).length))
          = l.map (fun d => (if cls y == some d then 1 else 0)
              + ((deps.filter (fun x => cls x == some d)).length)) := by
        apply List.map_congr_left
        intro d _
        exact hterm d
      rw [hmapeq, sum_map_add_nat, ih, List.filter_cons]
      cases hc : cls y with
      | none => simp
      | some b =>
          have he : (l.map (fun d => if ((some b : Option β) == some d) = true then 1 else 0))
              = l.map (fun d => if b = d then 1 else 0) := by
            apply List.map_congr_left
            intro d _
            by_cases hbd : b = d
            · subst hbd
              simp
            · simp [hbd]
          have hp : (l.map (fun d => if b = d then (1:Nat) else 0)).sum
              = if b ∈ l then 1 else 0 := sum_pick_list l hnd b (fun _ => 1)
          rw [he, hp, if_pos (hcls y b hc)]
          simp only [Option.isSome_some, if_true, List.length_cons]
          omega

/-- an edge of the resource graph stays within the index range -/
theorem topoAdj_bounds (rs : List Resource) :
    ∀ u v, v ∈ topoAdj rs (buildByName rs) u →
      u ∈ List.range rs.length ∧ v ∈ List.range rs.length := by
  intro u v hv
  unfold topoAdj at hv
  obtain ⟨j, hj, hv'⟩ := List.mem_flatMap.mp hv
  obtain ⟨dep, hdep, he⟩ := List.mem_map.mp hv'
  have hjv : j = v := he
  have hdep' := List.mem_filter.mp hdep
  have hlk : List.lookup dep (buildByName rs) = some u := by
    have := hdep'.2
    simpa using this
  exact ⟨List.mem_range.mpr (buildByName_sound rs dep u hlk).2, hjv ▸ hj⟩

/-- the modelled in-degree is the edge count into each node of the resource
graph -/
theorem topoDeg_eq_emitCnt (rs : List Resource) (j : Nat) (hj : j ∈ List.range rs.length) :
    topoDeg rs (buildByName rs) j
      = (emitCnt (topoAdj rs (buildByName rs)) (List.range rs.length) j : Int) := by
  have hcount : ∀ u : Nat, (topoAdj rs (buildByName rs) u).count j
      = ((rs.getD j default).Dependencies.filter
          (fun dep => List.lookup dep (buildByName rs) == some u)).length := by
    intro u
    unfold topoAdj
    rw [count_flatMap_tag (fun i => ((rs.getD i default).Dependencies.filter
          (fun dep => List.lookup dep (buildByName rs) == some u))) j (List.range rs.length)]
    have hp := sum_pick_list (List.range rs.length) (List.nodup_range _) j
      (fun i => ((rs.getD i default).Dependencies.filter
          (fun dep => List.lookup dep (buildByName rs) == some u)).length)
    rw [hp, if_pos hj]
  have hmc : (List.range rs.length).map
        (fun u => (topoAdj rs (buildByName rs) u).count j)
      = (List.range rs.length).map (fun u => ((rs.getD j default).Dependencies.filter
          (fun dep => List.lookup dep (buildByName rs) == some u)).length) := by
    apply List.map_congr_left
    intro u _
    exact hcount u
  have hcl := sum_filter_classify (List.range rs.length) (List.nodup_range _)
    (fun dep => List.lookup dep (buildByName rs))
    (fun x b hb => List.mem_range.mpr (buildByName_sound rs x b hb).2)
    ((rs.getD j default).Dependencies)
  unfold emitCnt topoDeg
  rw [hmc, hcl]
  rfl

/-- under duplicate-free effective names the modelled adjacency carries exactly
the claimed dependency edges -/
theorem topoAdj_iff_claimEdge (rs : List Resource)
    (hnn : (rs.map Resource.EffectiveName).Nodup) (i j : Nat) :
    j ∈ topoAdj rs (buildByName rs) i ↔ claimEdge rs i j := by
  constructor
  · intro h
    unfold topoAdj at h
    obtain ⟨jx, hjx, hmem⟩ := List.mem_flatMap.mp h
    obtain ⟨dep, hdep, he⟩ := List.mem_map.mp hmem
    have hjv : jx = j := he
    subst hjv
    have hdep' := List.mem_filter.mp hdep
    have hlk : List.lookup dep (buildByName rs) = some i := by
      have := hdep'.2
      simpa using this
    obtain ⟨hname, hilt⟩ := buildByName_sound rs dep i hlk
    refine ⟨hilt, List.mem_range.mp hjx, ?_⟩
    rw [hname]
    exact hdep'.1
  · intro h
    obtain ⟨hi, hj, hdep⟩ := h
    unfold topoAdj
    refine List.mem_flatMap.mpr ⟨j, List.mem_range.mpr hj, ?_⟩
    refine List.mem_map.mpr ⟨(rs.getD i default).EffectiveName, ?_, rfl⟩
    refine List.mem_filter.mpr ⟨hdep, ?_⟩
    simp only [buildByName_complete rs hnn i hi, beq_self_eq_true]

/-- the claimed dependency cycles are the cycles of the modelled adjacency -/
theorem hasDepCycle_iff_adjCycle (rs : List Resource)
    (hnn : (rs.map Resource.EffectiveName).Nodup) :
    HasDepCycle rs ↔ AdjCycle (topoAdj rs (buildByName rs)) := by
  constructor
  · rintro ⟨v, l, hch⟩
    exact ⟨v, l, List.Chain.imp (fun a b hab => (topoAdj_iff_claimEdge rs hnn a b).mpr hab) hch⟩
  · rintro ⟨v, l, hch⟩
    exact ⟨v, l, List.Chain.imp (fun a b hab => (topoAdj_iff_claimEdge rs hnn a b).mp hab) hch⟩

/-- a dependency cycle makes `topologicalOrder` fail -/
theorem topologicalOrder_none_of_cycle (rs : List Resource)
    (hnn : (rs.map Resource.EffectiveName).Nodup) (hc : HasDepCycle rs) :
    topologicalOrder rs = none := by
  obtain ⟨hsub, hnd, hedge, hleft⟩ := kahnRun_spec (List.range rs.length)
    (topoAdj rs (buildByName rs)) (topoDeg rs (buildByName rs))
    (fun j hj => topoDeg_eq_emitCnt rs j hj) (topoAdj_bounds rs) (List.nodup_range _)
  obtain ⟨v, hvN, hvO⟩ := cycle_node_not_out (List.range rs.length) _ _ hedge
    (topoAdj_bounds rs) ((hasDepCycle_iff_adjCycle rs hnn).mp hc)
  have hlen : ¬ ((kahnRun (List.range rs.length) (topoAdj rs (buildByName rs))
      (topoDeg rs (buildByName rs))).length = rs.length) := by
    intro hl
    have hsp := List.Nodup.subperm hnd hsub
    have h1 : (List.range rs.length).length = rs.length := List.length_range rs.length
    have hperm := List.Subperm.perm_of_length_le hsp (by omega)
    exact hvO ((List.Perm.mem_iff hperm.symm).mp hvN)
  simp only [topologicalOrder]
  rw [if_neg hlen]

/-- without a dependency cycle `topologicalOrder` emits a permutation of all
the indices placing dependencies before dependents -/
theorem topologicalOrder_some_of_acyclic (rs : List Resource)
    (hnn : (rs.map Resource.EffectiveName).Nodup) (hnc : ¬ HasDepCycle rs) :
    ∃ order, topologicalOrder rs = some order
      ∧ List.Perm order (List.range rs.length)
      ∧ ∀ l1 j l2, order = l1 ++ j :: l2 → ∀ i, claimEdge rs i j → i ∈ l1 := by
  obtain ⟨hsub, hnd, hedge, hleft⟩ := kahnRun_spec (List.range rs.length)
    (topoAdj rs (buildByName rs)) (topoDeg rs (buildByName rs))
    (fun j hj => topoDeg_eq_emitCnt rs j hj) (topoAdj_bounds rs) (List.nodup_range _)
  have hall : ∀ v ∈ List.range rs.length, v ∈ kahnRun (List.range rs.length)
      (topoAdj rs (buildByName rs)) (topoDeg rs (buildByName rs)) := by
    intro v hv
    by_contra hvo
    exact hnc ((hasDepCycle_iff_adjCycle rs hnn).mpr
      (leftover_gives_cycle (List.range rs.length) _ _ hleft v hv hvo))
  have hsp := List.Nodup.subperm hnd hsub
  have hsp2 := List.Nodup.subperm (List.nodup_range _) hall
  have hperm : List.Perm (kahnRun (List.range rs.length) (topoAdj rs (buildByName rs))
      (topoDeg rs (buildByName rs))) (List.range rs.length) :=
    List.Subperm.perm_of_length_le hsp (List.Subperm.length_le hsp2)
  refine ⟨kahnRun (List.range rs.length) (topoAdj rs (buildByName rs))
      (topoDeg rs (buildByName rs)), ?_, hperm, ?_⟩
  · simp only [topologicalOrder]
    rw [if_pos (by rw [List.Perm.length_eq hperm, List.length_range])]
  · intro l1 j l2 heq i hce
    exact hedge l1 j l2 heq i (List.mem_range.mpr hce.1)
      ((topoAdj_iff_claimEdge rs hnn i j).mpr hce)

/-- C8: under duplicate-free effective names — which the linter enforces — a
batch whose claimed dependency graph has a cycle makes `Apply` return an error
with an empty event trace (no HTTP request, no state write), and an acyclic
batch's topological order emits every resource index exactly once with every
dependency placed before its dependents -/
theorem cycle_detection_and_topo_order (rs : List Resource)
    (hnn : (rs.map Resource.EffectiveName).Nodup) :
    (HasDepCycle rs →
      topologicalOrder rs = none
      ∧ ∀ client writer addr token st,
          (Apply client writer rs addr token st).err.isSome = true
          ∧ (Apply client writer rs addr token st).events = [])
    ∧ (¬ HasDepCycle rs →
      ∃ order, topologicalOrder rs = some order
        ∧ List.Perm order (List.range rs.length)
        ∧ ∀ l1 j l2, order = l1 ++ j :: l2 → ∀ i, claimEdge rs i j → i ∈ l1) := by
  constructor
  · intro hc
    have hnone := topologicalOrder_none_of_cycle rs hnn hc
    refine ⟨hnone, ?_⟩
    intro client writer addr token st
    simp only [Apply]
    by_cases h1 : trimSuffixSlash addr = ""
    · rw [if_pos h1]
      exact ⟨rfl, rfl⟩
    · rw [if_neg h1]
      by_cases h2 : token = ""
      · rw [if_pos h2]
        exact ⟨rfl, rfl⟩
      · rw [if_neg h2]
        rw [hnone]
        exact ⟨rfl, rfl⟩
  · exact topologicalOrder_some_of_acyclic rs hnn

/-- C8 counterexample: a batch with a duplicated effective name whose claimed
dependency graph is cyclic (`a → b → a`) passes the cycle check, because
`byName` resolves the duplicated name to its last index only -/
theorem cycle_detection_counterexample :
    HasDepCycle cexCycRs ∧ topologicalOrder cexCycRs = some [2, 1, 0] := by
  constructor
  · refine ⟨0, [1], ?_⟩
    exact List.Chain.cons ⟨by decide, by decide, by decide⟩
      (List.Chain.cons ⟨by decide, by decide, by decide⟩ List.Chain.nil)
  · rfl

/-- C8 witness: the claim theorem applied to a concrete duplicate-free batch -/
theorem cycle_detection_and_topo_order_witness :
    (([(⟨"p", Value.smap [], "", "a", 0, [], false, ""⟩ : Resource)].map
        Resource.EffectiveName).Nodup)
    ∧ ((HasDepCycle [(⟨"p", Value.smap [], "", "a", 0, [], false, ""⟩ : Resource)] →
        topologicalOrder [(⟨"p", Value.smap [], "", "a", 0, [], false, ""⟩ : Resource)] = none
        ∧ ∀ client writer addr token st,
            (Apply client writer [(⟨"p", Value.smap [], "", "a", 0, [], false, ""⟩ : Resource)]
              addr token st).err.isSome = true
            ∧ (Apply client writer [(⟨"p", Value.smap [], "", "a", 0, [], false, ""⟩ : Resource)]
              addr token st).events = [])
      ∧ (¬ HasDepCycle [(⟨"p", Value.smap [], "", "a", 0, [], false, ""⟩ : Resource)] →
        ∃ order, topologicalOrder [(⟨"p", Value.smap [], "", "a", 0, [], false, ""⟩ : Resource)]
            = some order
          ∧ List.Perm order (List.range
              [(⟨"p", Value.smap [], "", "a", 0, [], false, ""⟩ : Resource)].length)
          ∧ ∀ l1 j l2, order = l1 ++ j :: l2 → ∀ i,
              claimEdge [(⟨"p", Value.smap [], "", "a", 0, [], false, ""⟩ : Resource)] i j →
                i ∈ l1)) :=
  ⟨by decide, cycle_detection_and_topo_order
    [(⟨"p", Value.smap [], "", "a", 0, [], false, ""⟩ : Resource)] (by decide)⟩

/-- lookup succeeds exactly on the listed keys -/
theorem State_lookup_isSome_iff_mem_keys (st : State) (k : String) :
    (st.lookup k).isSome = true ↔ k ∈ st.keys := by
  unfold State.lookup State.keys
  constructor
  · intro h
    cases hl : List.lookup k st.Resources with
    | none =>
        rw [hl] at h
        simp at h
    | some v =>
        have hm := lookup_mem_pairs _ _ _ hl
        exact List.mem_map.mpr ⟨(k, v), hm, rfl⟩
  · intro h
    obtain ⟨p, hp, hpk⟩ := List.mem_map.mp h
    cases hl : List.lookup k st.Resources with
    | some v => rfl
    | none =>
        rw [lookup_none_iff] at hl
        exact absurd (List.mem_map.mpr ⟨p, hp, hpk⟩) hl

/-- insertion keeps the key list duplicate-free -/
theorem State_insert_keys_nodup (st : State) (k : String) (v : StateResource)
    (h : st.keys.Nodup) : (st.insert k v).keys.Nodup := by
  unfold State.keys at h
  unfold State.insert State.keys
  by_cases hs : (List.lookup k st.Resources).isSome = true
  · rw [if_pos hs]
    have he : (st.Resources.map (fun kv => if kv.1 = k then (k, v) else kv)).map
          (fun p => p.1)
        = st.Resources.map (fun p => p.1) := by
      rw [List.map_map]
      apply List.map_congr_left
      intro kv _
      by_cases hk : kv.1 = k
      · simp [Function.comp, hk]
      · simp [Function.comp, hk]
    rw [he]
    exact h
  · rw [if_neg hs, List.map_append, List.nodup_append]
    refine ⟨h, by simp, ?_⟩
    intro x hx hx2
    simp only [List.map_cons, List.map_nil, List.mem_singleton] at hx2
    have hnone : List.lookup k st.Resources = none := by
      cases hl : List.lookup k st.Resources with
      | none => rfl
      | some w =>
          rw [hl] at hs
          simp at hs
    rw [lookup_none_iff] at hnone
    apply hnone
    obtain ⟨p, hp, hpk⟩ := List.mem_map.mp hx
    exact List.mem_map.mpr ⟨p, hp, by rw [hpk, hx2]⟩

/-- erasing keeps the key list duplicate-free -/
theorem State_erase_keys_nodup (st : State) (k : String) (h : st.keys.Nodup) :
    (st.erase k).keys.Nodup := by
  unfold State.keys at h
  unfold State.erase State.keys
  exact List.Nodup.sublist (List.Sublist.map _ (List.filter_sublist _)) h

/-- a graph with no edges has no cycle -/
theorem adjCycle_empty {α : Type} (adjf : α → List α) (h : ∀ u, adjf u = []) :
    ¬ AdjCycle adjf := by
  rintro ⟨v, l, hch⟩
  cases l with
  | nil =>
      rw [List.nil_append] at hch
      cases hch with
      | cons h1 h2 =>
          rw [h v] at h1
          exact absurd h1 (List.not_mem_nil v)
  | cons c l2 =>
      cases hch with
      | cons h1 h2 =>
          rw [h v] at h1
          exact absurd h1 (List.not_mem_nil c)

/-- a boolean scan certifying that no event is a swallowed error -/
theorem all_not_swallowed (evs : List Event)
    (h : (evs.all (fun e => ! e.isSwallowed)) = true) :
    ∀ e ∈ evs, e.isSwallowed = false := by
  intro e he
  have := List.all_eq_true.mp h e he
  simpa using this

/-- a boolean scan certifying that no event is a key migration -/
theorem all_not_migrate (evs : List Event)
    (h : (evs.all (fun e => ! e.isMigrate)) = true) :
    ∀ e ∈ evs, e.isMigrate = false := by
  intro e he
  have := List.all_eq_true.mp h e he
  simpa using this

/-- an edge of the delete graph stays within the deletion keys -/
theorem delAdj_bounds (st : State) (keys : List String) :
    ∀ d k, k ∈ delAdj st keys d → d ∈ keys ∧ k ∈ keys := by
  intro d k hk
  unfold delAdj at hk
  obtain ⟨kx, hkx, hmem⟩ := List.mem_flatMap.mp hk
  obtain ⟨dep, hdep, he⟩ := List.mem_map.mp hmem
  have hkk : kx = k := he
  have hdep' := List.mem_filter.mp hdep
  have hc : keys.contains d = true := by
    have h2 := hdep'.2
    simp only [Bool.and_eq_true] at h2
    exact h2.2
  exact ⟨by simpa using hc, hkk ▸ hkx⟩

/-- the modelled delete in-degree is the edge count into each deletion key -/
theorem delDeg_eq_emitCnt (st : State) (keys : List String) (hnd : keys.Nodup)
    (k : String) (hk : k ∈ keys) :
    delDeg st keys k = (emitCnt (delAdj st keys) keys k : Int) := by
  have hcount : ∀ d : String, (delAdj st keys d).count k
      = ((storedDeps st k).filter (fun dep => dep == d && keys.contains d)).length := by
    intro d
    unfold delAdj
    rw [count_flatMap_tag (fun kx => ((storedDeps st kx).filter
          (fun dep => dep == d && keys.contains d))) k keys]
    have hp := sum_pick_list keys hnd k
      (fun kx => ((storedDeps st kx).filter (fun dep => dep == d && keys.contains d)).length)
    rw [hp, if_pos hk]
  have hfe : ∀ d : String, (storedDeps st k).filter (fun dep => dep == d && keys.contains d)
      = (storedDeps st k).filter (fun dep =>
          (if keys.contains dep then some dep else none) == some d) := by
    intro d
    apply List.filter_congr
    intro dep _
    by_cases hdd : dep = d
    · subst hdd
      by_cases hcd : keys.contains dep = true
      · rw [hcd]
        simp
      · have hcdf : keys.contains dep = false := Bool.eq_false_iff.mpr hcd
        rw [hcdf]
        simp
    · have hdb : (dep == d) = false := beq_eq_false_iff_ne.mpr hdd
      by_cases hcd : keys.contains dep = true
      · rw [hdb, Bool.false_and, if_pos hcd]
        symm
        rw [beq_eq_false_iff_ne]
        intro h
        exact hdd (Option.some.inj h)
      · rw [hdb, Bool.false_and, if_neg hcd]
        rfl
  have hcl := sum_filter_classify keys hnd
    (fun dep => if keys.contains dep then some dep else none)
    (fun x b hb => by
      have hb' : (if keys.contains x = true then some x else none) = some b := hb
      by_cases hcx : keys.contains x = true
      · rw [if_pos hcx] at hb'
        rw [Option.some.injEq] at hb'
        rw [← hb']
        simpa using hcx
      · rw [if_neg hcx] at hb'
        cases hb')
    (storedDeps st k)
  unfold emitCnt delDeg
  have hmc : keys.map (fun d => (delAdj st keys d).count k)
      = keys.map (fun d => ((storedDeps st k).filter (fun dep =>
          (if keys.contains dep then some dep else none) == some d)).length) := by
    apply List.map_congr_left
    intro d _
    rw [hcount d, hfe d]
  rw [hmc, hcl]
  have hfe2 : (storedDeps st k).filter (fun dep => keys.contains dep)
      = (storedDeps st k).filter (fun dep =>
          ((if keys.contains dep then some dep else none) : Option String).isSome) := by
    apply List.filter_congr
    intro dep _
    by_cases hcd : keys.contains dep = true
    · rw [hcd]
      simp
    · have hcdf : keys.contains dep = false := Bool.eq_false_iff.mpr hcd
      rw [hcdf]
      simp
  rw [hfe2]
  rfl

/-- the apply pass only appends to the event accumulator -/
theorem applyLoop_acc (client : Request → HttpResponse) (writer : State → Bool)
    (addr token : String) (rs : List Resource) :
    ∀ (idxs : List Nat) (st : State) (evs : List Event),
      applyLoop client writer addr token rs idxs st evs
        = ⟨(applyLoop client writer addr token rs idxs st []).err,
           (applyLoop client writer addr token rs idxs st []).state,
           evs ++ (applyLoop client writer addr token rs idxs st []).events⟩ := by
  intro idxs
  induction idxs with
  | nil =>
      intro st evs
      simp [applyLoop]
  | cons i rest ih =>
      intro st evs
      cases h : applyResourceStep client writer addr token (rs.getD i default) st with
      | next st2 evs2 =>
          simp only [applyLoop, h, List.nil_append]
          rw [ih st2 (evs ++ evs2), ih st2 evs2]
          simp [List.append_assoc]
      | abort msg st2 evs2 =>
          simp only [applyLoop, h]
          simp

/-- the delete pass only appends to the event accumulator -/
theorem deleteLoop_acc (client : Request → HttpResponse) (writer : State → Bool)
    (addr token : String) :
    ∀ (keys : List String) (st : State) (evs : List Event),
      deleteLoop client writer addr token keys st evs
        = ⟨(deleteLoop client writer addr token keys st []).err,
           (deleteLoop client writer addr token keys st []).state,
           evs ++ (deleteLoop client writer addr token keys st []).events⟩ := by
  intro keys
  induction keys with
  | nil =>
      intro st evs
      simp [deleteLoop]
  | cons key rest ih =>
      intro st evs
      cases h : deleteStep client writer addr token st key with
      | next st2 evs2 =>
          simp only [deleteLoop, h, List.nil_append]
          rw [ih st2 (evs ++ evs2), ih st2 evs2]
          simp [List.append_assoc]
      | abort msg st2 evs2 =>
          simp only [deleteLoop, h]
          simp

/-- every delete step opens with the DELETE request for its key and either
erases the key or leaves the state unchanged -/
theorem deleteStep_shape (client : Request → HttpResponse) (writer : State → Bool)
    (addr token : String) (st : State) (key : String) :
    ∃ resp rest,
      eventsOfOutcome (deleteStep client writer addr token st key)
        = Event.http (deleteReqOf addr token st key) resp :: rest
      ∧ (stateOfOutcome (deleteStep client writer addr token st key) = st.erase key
         ∨ stateOfOutcome (deleteStep client writer addr token st key) = st) := by
  simp only [deleteStep]
  split
  · split
    · exact ⟨_, _, rfl, Or.inl rfl⟩
    · split
      · exact ⟨_, _, rfl, Or.inl rfl⟩
      · exact ⟨_, _, rfl, Or.inl rfl⟩
  · split
    · split
      · exact ⟨_, _, rfl, Or.inl rfl⟩
      · split
        · exact ⟨_, _, rfl, Or.inl rfl⟩
        · exact ⟨_, _, rfl, Or.inl rfl⟩
    · split
      · exact ⟨_, _, rfl, Or.inr rfl⟩
      · exact ⟨_, _, rfl, Or.inr rfl⟩

/-- an error-free delete pass issues the DELETE request of every listed key,
with the URL and namespace read from the pass's entry state -/
theorem deleteLoop_issues (client : Request → HttpResponse) (writer : State → Bool)
    (addr token : String) (stP : State) :
    ∀ (keys : List String) (st : State), keys.Nodup →
      (∀ k ∈ keys, st.lookup k = stP.lookup k) →
      (deleteLoop client writer addr token keys st []).err = none →
      ∀ k ∈ keys, ∃ resp,
        Event.http (deleteReqOf addr token stP k) resp
          ∈ (deleteLoop client writer addr token keys st []).events := by
  intro keys
  induction keys with
  | nil =>
      intro st _ _ _ k hk
      exact absurd hk (List.not_mem_nil k)
  | cons key rest ih =>
      intro st hnd hlk herr k hk
      obtain ⟨resp0, rest0, hev0, hst0⟩ := deleteStep_shape client writer addr token st key
      cases hstep : deleteStep client writer addr token st key with
      | abort msg st2 evs2 =>
          have hL : deleteLoop client writer addr token (key :: rest) st []
              = ⟨some msg, st2, [] ++ evs2⟩ := by
            simp only [deleteLoop, hstep]
          rw [hL] at herr
          exact Option.noConfusion herr
      | next st2 evs2 =>
          have hL : deleteLoop client writer addr token (key :: rest) st []
              = ⟨(deleteLoop client writer addr token rest st2 []).err,
                 (deleteLoop client writer addr token rest st2 []).state,
                 evs2 ++ (deleteLoop client writer addr token rest st2 []).events⟩ := by
            simp only [deleteLoop, hstep]
            rw [List.nil_append, deleteLoop_acc client writer addr token rest st2 evs2]
          rw [hL] at herr ⊢
          rw [hstep] at hev0 hst0
          have hev : evs2 = Event.http (deleteReqOf addr token st key) resp0 :: rest0 := hev0
          have hst : st2 = st.erase key ∨ st2 = st := hst0
          have herr2 : (deleteLoop client writer addr token rest st2 []).err = none := herr
          have hreq : deleteReqOf addr token st key = deleteReqOf addr token stP key := by
            unfold deleteReqOf
            rw [hlk key (List.mem_cons_self key rest)]
          rcases List.mem_cons.mp hk with rfl | hk2
          · refine ⟨resp0, ?_⟩
            have hmem : Event.http (deleteReqOf addr token stP k) resp0
                ∈ evs2 ++ (deleteLoop client writer addr token rest st2 []).events := by
              rw [hev, ← hreq]
              exact List.mem_append.mpr (Or.inl (List.mem_cons_self _ _))
            exact hmem
          · have hst2 : ∀ kx ∈ rest, st2.lookup kx = stP.lookup kx := by
              intro kx hkx
              have hne : kx ≠ key := by
                intro he
                exact (List.nodup_cons.mp hnd).1 (he ▸ hkx)
              rcases hst with he | he
              · rw [he, State_lookup_erase_other st key kx hne]
                exact hlk kx (List.mem_cons_of_mem key hkx)
              · rw [he]
                exact hlk kx (List.mem_cons_of_mem key hkx)
            obtain ⟨resp, hm⟩ := ih st2 (List.nodup_cons.mp hnd).2 hst2 herr2 k hk2
            exact ⟨resp, List.mem_append.mpr (Or.inr hm)⟩

/-- the delete pass does not touch keys outside its list -/
theorem deleteLoop_preserves_other (client : Request → HttpResponse) (writer : State → Bool)
    (addr token : String) :
    ∀ (keys : List String) (st : State) (k : String), k ∉ keys →
      ((deleteLoop client writer addr token keys st []).state).lookup k = st.lookup k := by
  intro keys
  induction keys with
  | nil =>
      intro st k _
      rfl
  | cons key rest ih =>
      intro st k hk
      have hne : k ≠ key := fun he => hk (he ▸ List.mem_cons_self key rest)
      have hk2 : k ∉ rest := fun h2 => hk (List.mem_cons_of_mem key h2)
      obtain ⟨resp0, rest0, hev0, hst0⟩ := deleteStep_shape client writer addr token st key
      cases hstep : deleteStep client writer addr token st key with
      | abort msg st2 evs2 =>
          have hL : deleteLoop client writer addr token (key :: rest) st []
              = ⟨some msg, st2, [] ++ evs2⟩ := by
            simp only [deleteLoop, hstep]
          rw [hL]
          rw [hstep] at hst0
          have hst : st2 = st.erase key ∨ st2 = st := hst0
          show st2.lookup k = st.lookup k
          rcases hst with he | he
          · rw [he]
            exact State_lookup_erase_other st key k hne
          · rw [he]
      | next st2 evs2 =>
          have hL : deleteLoop client writer addr token (key :: rest) st []
              = ⟨(deleteLoop client writer addr token rest st2 []).err,
                 (deleteLoop client writer addr token rest st2 []).state,
                 evs2 ++ (deleteLoop client writer addr token rest st2 []).events⟩ := by
            simp only [deleteLoop, hstep]
            rw [List.nil_append, deleteLoop_acc client writer addr token rest st2 evs2]
          rw [hL]
          rw [hstep] at hst0
          have hst : st2 = st.erase key ∨ st2 = st := hst0
          show ((deleteLoop client writer addr token rest st2 []).state).lookup k = st.lookup k
          rw [ih st2 k hk2]
          rcases hst with he | he
          · rw [he]
            exact State_lookup_erase_other st key k hne
          · rw [he]

/-- a non-aborting HTTP part that swallows nothing stores the new entry -/
theorem applyHttpPart_next_shape (client : Request → HttpResponse) (writer : State → Bool)
    (addr token : String) (r : Resource) (st : State) (resolvedData : Value) (rev : Nat)
    (st2 : State) (evs : List Event)
    (h : applyHttpPart client writer addr token r st resolvedData rev = .next st2 evs)
    (hnosw : ∀ e ∈ evs, e.isSwallowed = false) :
    ∃ entry, st2 = st.insert r.Key entry := by
  simp only [applyHttpPart] at h
  split at h
  · split at h
    · cases h
    · injection h with h1 h2
      exact absurd (hnosw _ (by rw [← h2]; exact List.mem_singleton_self _))
        (by simp [Event.isSwallowed])
  · split at h
    · split at h
      · injection h with h1 h2
        exact ⟨_, h1.symm⟩
      · split at h
        · cases h
        · injection h with h1 h2
          exact ⟨_, h1.symm⟩
    · split at h
      · cases h
      · injection h with h1 h2
        exact absurd (hnosw _ (by
            rw [← h2]
            exact List.mem_cons_of_mem _ (List.mem_singleton_self _)))
          (by simp [Event.isSwallowed])

/-- a non-aborting resource step that swallows nothing and migrates nothing
either short-circuits on a present matching entry or stores its own key -/
theorem applyResourceStep_next_shape (client : Request → HttpResponse) (writer : State → Bool)
    (addr token : String) (r : Resource) (st : State) (st2 : State) (evs : List Event)
    (h : applyResourceStep client writer addr token r st = .next st2 evs)
    (hnosw : ∀ e ∈ evs, e.isSwallowed = false)
    (hnomig : ∀ e ∈ evs, e.isMigrate = false) :
    ((st.lookup r.Key).isSome = true ∧ st2 = st) ∨ ∃ entry, st2 = st.insert r.Key entry := by
  simp only [applyResourceStep] at h
  split at h
  · split at h
    · cases h
    · injection h with h1 h2
      exact absurd (hnosw _ (by rw [← h2]; exact List.mem_singleton_self _))
        (by simp [Event.isSwallowed])
  · split at h
    next prev heq =>
      split at h
      · injection h with h1 h2
        left
        exact ⟨by rw [heq]; rfl, h1.symm⟩
      · right
        exact applyHttpPart_next_shape client writer addr token r st _ _ st2 evs h hnosw
    next heq =>
      split at h
      next pr heq2 =>
        split at h
        · split at h
          · injection h with h1 h2
            exact absurd (hnomig _ (by rw [← h2]; exact List.mem_cons_self _ _))
              (by simp [Event.isMigrate])
          · split at h
            · cases h
            · injection h with h1 h2
              exact absurd (hnomig _ (by rw [← h2]; exact List.mem_cons_self _ _))
                (by simp [Event.isMigrate])
        · right
          exact applyHttpPart_next_shape client writer addr token r st _ _ st2 evs h hnosw
      next heq2 =>
        right
        exact applyHttpPart_next_shape client writer addr token r st _ _ st2 evs h hnosw

/-- consequences of a clean resource step: key presence, key monotonicity,
and duplicate-free keys -/
theorem applyResourceStep_next_mono (client : Request → HttpResponse) (writer : State → Bool)
    (addr token : String) (r : Resource) (st : State) (st2 : State) (evs : List Event)
    (h : applyResourceStep client writer addr token r st = .next st2 evs)
    (hnosw : ∀ e ∈ evs, e.isSwallowed = false)
    (hnomig : ∀ e ∈ evs, e.isMigrate = false) :
    (∀ k, (st.lookup k).isSome = true → (st2.lookup k).isSome = true)
    ∧ (st2.lookup r.Key).isSome = true
    ∧ (st.keys.Nodup → st2.keys.Nodup) := by
  rcases applyResourceStep_next_shape client writer addr token r st st2 evs h hnosw hnomig with
    ⟨hsome, he⟩ | ⟨entry, he⟩
  · subst he
    exact ⟨fun k hk => hk, hsome, fun hn => hn⟩
  · subst he
    refine ⟨?_, ?_, State_insert_keys_nodup st r.Key entry⟩
    · intro k hk
      by_cases hkr : k = r.Key
      · subst hkr
        rw [State_lookup_insert_self]
        rfl
      · rw [State_lookup_insert_other st r.Key k entry hkr]
        exact hk
    · rw [State_lookup_insert_self]
      rfl

/-- an error-free apply pass that swallows nothing and migrates nothing keeps
every existing key, establishes every processed resource's key, and preserves
duplicate-free keys -/
theorem applyLoop_ok_spec (client : Request → HttpResponse) (writer : State → Bool)
    (addr token : String) (rs : List Resource) :
    ∀ (idxs : List Nat) (st : State),
      (applyLoop client writer addr token rs idxs st []).err = none →
      (∀ e ∈ (applyLoop client writer addr token rs idxs st []).events,
        e.isSwallowed = false) →
      (∀ e ∈ (applyLoop client writer addr token rs idxs st []).events,
        e.isMigrate = false) →
      (∀ k, (st.lookup k).isSome = true →
        (((applyLoop client writer addr token rs idxs st []).state).lookup k).isSome = true)
      ∧ (∀ i ∈ idxs,
        (((applyLoop client writer addr token rs idxs st []).state).lookup
          (rs.getD i default).Key).isSome = true)
      ∧ (st.keys.Nodup →
        ((applyLoop client writer addr token rs idxs st []).state).keys.Nodup) := by
  intro idxs
  induction idxs with
  | nil =>
      intro st _ _ _
      exact ⟨fun k hk => hk, fun i hi => absurd hi (List.not_mem_nil i), fun hn => hn⟩
  | cons i rest ih =>
      intro st herr hnosw hnomig
      cases hstep : applyResourceStep client writer addr token (rs.getD i default) st with
      | abort msg st2 evs2 =>
          have hL : applyLoop client writer addr token rs (i :: rest) st []
              = ⟨some msg, st2, [] ++ evs2⟩ := by
            simp only [applyLoop, hstep]
          rw [hL] at herr
          exact Option.noConfusion herr
      | next st2 evs2 =>
          have hL : applyLoop client writer addr token rs (i :: rest) st []
              = ⟨(applyLoop client writer addr token rs rest st2 []).err,
                 (applyLoop client writer addr token rs rest st2 []).state,
                 evs2 ++ (applyLoop client writer addr token rs rest st2 []).events⟩ := by
            simp only [applyLoop, hstep]
            rw [List.nil_append, applyLoop_acc client writer addr token rs rest st2 evs2]
          rw [hL] at herr hnosw hnomig ⊢
          have herr2 : (applyLoop client writer addr token rs rest st2 []).err = none := herr
          have hsw1 : ∀ e ∈ evs2, e.isSwallowed = false :=
            fun e he => hnosw e (List.mem_append.mpr (Or.inl he))
          have hmg1 : ∀ e ∈ evs2, e.isMigrate = false :=
            fun e he => hnomig e (List.mem_append.mpr (Or.inl he))
          have hsw2 : ∀ e ∈ (applyLoop client writer addr token rs rest st2 []).events,
              e.isSwallowed = false :=
            fun e he => hnosw e (List.mem_append.mpr (Or.inr he))
          have hmg2 : ∀ e ∈ (applyLoop client writer addr token rs rest st2 []).events,
              e.isMigrate = false :=
            fun e he => hnomig e (List.mem_append.mpr (Or.inr he))
          obtain ⟨hm, hp, hn⟩ := applyResourceStep_next_mono client writer addr token
            (rs.getD i default) st st2 evs2 hstep hsw1 hmg1
          obtain ⟨ihm, ihp, ihn⟩ := ih st2 herr2 hsw2 hmg2
          refine ⟨?_, ?_, ?_⟩
          · intro k hk
            exact ihm k (hm k hk)
          · intro j hj
            rcases List.mem_cons.mp hj with rfl | hj2
            · exact ihm _ hp
            · exact ihp j hj2
          · intro hnd
            exact ihn (hn hnd)

/-- inverting a successful `topologicalOrder` -/
theorem topologicalOrder_some_inv (rs : List Resource) (order : List Nat)
    (h : topologicalOrder rs = some order) :
    order = kahnRun (List.range rs.length) (topoAdj rs (buildByName rs))
        (topoDeg rs (buildByName rs))
      ∧ order.length = rs.length := by
  simp only [topologicalOrder] at h
  split at h
  next hlen =>
    rw [Option.some.injEq] at h
    subst h
    exact ⟨rfl, hlen⟩
  next hlen => cases h

/-- a successful `topologicalOrder` emits every index -/
theorem topologicalOrder_some_mem (rs : List Resource) (order : List Nat)
    (h : topologicalOrder rs = some order) :
    ∀ i, i < rs.length → i ∈ order := by
  obtain ⟨heq, hlen⟩ := topologicalOrder_some_inv rs order h
  obtain ⟨hsub, hnd, hedge, hleft⟩ := kahnRun_spec (List.range rs.length)
    (topoAdj rs (buildByName rs)) (topoDeg rs (buildByName rs))
    (fun j hj => topoDeg_eq_emitCnt rs j hj) (topoAdj_bounds rs) (List.nodup_range _)
  intro i hi
  rw [heq]
  have hsp := List.Nodup.subperm hnd hsub
  have h1 : (List.range rs.length).length = rs.length := List.length_range rs.length
  have hlen2 : (kahnRun (List.range rs.length) (topoAdj rs (buildByName rs))
      (topoDeg rs (buildByName rs))).length = rs.length := by
    rw [← heq]
    exact hlen
  have hperm := List.Subperm.perm_of_length_le hsp (by omega)
  exact (List.Perm.mem_iff hperm.symm).mp (List.mem_range.mpr hi)

/-- a list member sits at some index -/
theorem mem_getD_index {β : Type} [Inhabited β] (l : List β) (x : β) (h : x ∈ l) :
    ∃ i, i < l.length ∧ l.getD i default = x := by
  obtain ⟨⟨i, hi⟩, hg⟩ := List.mem_iff_get.mp h
  exact ⟨i, hi, by rw [getD_get default l i hi]; exact hg⟩

/-- the delete pass over an acyclic removal set: keys outside the set are
untouched, and every key of the set receives its DELETE request -/
theorem apply_phase2_spec (client : Request → HttpResponse) (writer : State → Bool)
    (addr token : String) (pSt : State) (pEvs : List Event) (toDel : List String)
    (hndDel : toDel.Nodup)
    (herr : (deleteLoop client writer addr token (deleteOrderFromState pSt toDel) pSt pEvs).err
        = none)
    (hacyc : ¬ AdjCycle (delAdj pSt toDel)) :
    (∀ k, k ∉ toDel →
      (((deleteLoop client writer addr token (deleteOrderFromState pSt toDel)
          pSt pEvs).state).lookup k)
        = pSt.lookup k)
    ∧ ∀ k ∈ toDel, ∃ resp, Event.http (deleteReqOf addr token pSt k) resp
        ∈ (deleteLoop client writer addr token (deleteOrderFromState pSt toDel) pSt pEvs).events := by
  have hdo : deleteOrderFromState pSt toDel
      = kahnRun toDel (delAdj pSt toDel) (delDeg pSt toDel) := rfl
  obtain ⟨hsub, hndOrd, hedge, hleft⟩ := kahnRun_spec toDel (delAdj pSt toDel) (delDeg pSt toDel)
    (fun k hk => delDeg_eq_emitCnt pSt toDel hndDel k hk)
    (fun u v hv => delAdj_bounds pSt toDel u v hv)
    hndDel
  have hacc := deleteLoop_acc client writer addr token (deleteOrderFromState pSt toDel) pSt pEvs
  constructor
  · intro k hkN
    have hkNo : k ∉ deleteOrderFromState pSt toDel := by
      rw [hdo]
      intro hmem
      exact hkN (hsub k hmem)
    rw [hacc]
    show (((deleteLoop client writer addr token (deleteOrderFromState pSt toDel)
        pSt []).state).lookup k) = pSt.lookup k
    exact deleteLoop_preserves_other client writer addr token _ pSt k hkNo
  · intro k hkT
    have hkOrd : k ∈ deleteOrderFromState pSt toDel := by
      rw [hdo]
      by_contra hno
      exact hacyc (leftover_gives_cycle toDel _ _ hleft k hkT hno)
    have herr2 : (deleteLoop client writer addr token (deleteOrderFromState pSt toDel)
        pSt []).err = none := by
      rw [hacc] at herr
      exact herr
    obtain ⟨resp, hm⟩ := deleteLoop_issues client writer addr token pSt
      (deleteOrderFromState pSt toDel) pSt hndOrd (fun kx _ => rfl) herr2 k hkOrd
    refine ⟨resp, ?_⟩
    rw [hacc]
    exact List.mem_append.mpr (Or.inr hm)

/-- C4 (amended): after an error-free `Apply` that swallows no per-resource
failure and migrates no key, the final state's keys cover every batch key; and
when the stored delete graph over the removed keys is acyclic, every prior key
that is not a batch key receives a DELETE request built from the post-pass
state -/
theorem apply_superset_and_delete_coverage
    (client : Request → HttpResponse) (writer : State → Bool)
    (rs : List Resource) (vaultAddr token : String) (st0 : State)
    (hnd0 : st0.keys.Nodup)
    (herr : (Apply client writer rs vaultAddr token st0).err = none)
    (hnosw : ∀ e ∈ (Apply client writer rs vaultAddr token st0).events, e.isSwallowed = false)
    (hnomig : ∀ e ∈ (Apply client writer rs vaultAddr token st0).events, e.isMigrate = false)
    (hacyc : ¬ AdjCycle (delAdj (phase1State client writer rs vaultAddr token st0)
        (toDeleteOf client writer rs vaultAddr token st0))) :
    (∀ r ∈ rs,
      (((Apply client writer rs vaultAddr token st0).state).lookup r.Key).isSome = true)
    ∧ ∀ k ∈ st0.keys, k ∉ rs.map Resource.Key →
        ∃ resp, Event.http (deleteReqOf (trimSuffixSlash vaultAddr) token
            (phase1State client writer rs vaultAddr token st0) k) resp
          ∈ (Apply client writer rs vaultAddr token st0).events := by
  by_cases ha : trimSuffixSlash vaultAddr = ""
  · rw [show Apply client writer rs vaultAddr token st0
        = ⟨some "vault address is required", st0, []⟩ from by
        simp only [Apply, if_pos ha]] at herr
    exact absurd herr (by simp)
  by_cases hb : token = ""
  · rw [show Apply client writer rs vaultAddr token st0
        = ⟨some "vault token is required", st0, []⟩ from by
        simp only [Apply, if_neg ha, if_pos hb]] at herr
    exact absurd herr (by simp)
  cases horder : topologicalOrder rs with
  | none =>
      rw [show Apply client writer rs vaultAddr token st0
          = ⟨some "cycle in dependencies", st0, []⟩ from by
          simp only [Apply, if_neg ha, if_neg hb, horder]] at herr
      exact absurd herr (by simp)
  | some order =>
      have hp1 : phase1State client writer rs vaultAddr token st0
          = (applyLoop client writer (trimSuffixSlash vaultAddr) token rs order st0 []).state := by
        simp only [phase1State, horder]
      cases hperr : (applyLoop client writer (trimSuffixSlash vaultAddr) token
          rs order st0 []).err with
      | some m =>
          rw [show Apply client writer rs vaultAddr token st0
              = applyLoop client writer (trimSuffixSlash vaultAddr) token rs order st0 [] from by
              simp only [Apply, if_neg ha, if_neg hb, horder, hperr]] at herr
          rw [hperr] at herr
          exact Option.noConfusion herr
      | none =>
          have hApply : Apply client writer rs vaultAddr token st0
              = deleteLoop client writer (trimSuffixSlash vaultAddr) token
                  (deleteOrderFromState
                    (phase1State client writer rs vaultAddr token st0)
                    (toDeleteOf client writer rs vaultAddr token st0))
                  (phase1State client writer rs vaultAddr token st0)
                  (applyLoop client writer (trimSuffixSlash vaultAddr) token
                    rs order st0 []).events := by
            rw [hp1]
            simp only [Apply, if_neg ha, if_neg hb, horder, hperr, toDeleteOf, phase1State]
          have haccD := deleteLoop_acc client writer (trimSuffixSlash vaultAddr) token
            (deleteOrderFromState
              (phase1State client writer rs vaultAddr token st0)
              (toDeleteOf client writer rs vaultAddr token st0))
            (phase1State client writer rs vaultAddr token st0)
            (applyLoop client writer (trimSuffixSlash vaultAddr) token rs order st0 []).events
          have hevSplit : (Apply client writer rs vaultAddr token st0).events
              = (applyLoop client writer (trimSuffixSlash vaultAddr) token
                  rs order st0 []).events
                ++ (deleteLoop client writer (trimSuffixSlash vaultAddr) token
                  (deleteOrderFromState
                    (phase1State client writer rs vaultAddr token st0)
                    (toDeleteOf client writer rs vaultAddr token st0))
                  (phase1State client writer rs vaultAddr token st0) []).events := by
            rw [hApply, haccD]
          have hswP : ∀ e ∈ (applyLoop client writer (trimSuffixSlash vaultAddr) token
              rs order st0 []).events, e.isSwallowed = false := by
            intro e he
            apply hnosw e
            rw [hevSplit]
            exact List.mem_append.mpr (Or.inl he)
          have hmgP : ∀ e ∈ (applyLoop client writer (trimSuffixSlash vaultAddr) token
              rs order st0 []).events, e.isMigrate = false := by
            intro e he
            apply hnomig e
            rw [hevSplit]
            exact List.mem_append.mpr (Or.inl he)
          obtain ⟨hP1mono, hP1keys, hP1nd⟩ := applyLoop_ok_spec client writer
            (trimSuffixSlash vaultAddr) token rs order st0 hperr hswP hmgP
          have hndP : (phase1State client writer rs vaultAddr token st0).keys.Nodup := by
            rw [hp1]
            exact hP1nd hnd0
          have hndT : (toDeleteOf client writer rs vaultAddr token st0).Nodup := by
            unfold toDeleteOf
            exact hndP.filter _
          have herrD : (deleteLoop client writer (trimSuffixSlash vaultAddr) token
              (deleteOrderFromState
                (phase1State client writer rs vaultAddr token st0)
                (toDeleteOf client writer rs vaultAddr token st0))
              (phase1State client writer rs vaultAddr token st0)
              (applyLoop client writer (trimSuffixSlash vaultAddr) token
                rs order st0 []).events).err = none := by
            rw [← hApply]
            exact herr
          obtain ⟨hKeep, hDel⟩ := apply_phase2_spec client writer (trimSuffixSlash vaultAddr)
            token (phase1State client writer rs vaultAddr token st0)
            (applyLoop client writer (trimSuffixSlash vaultAddr) token rs order st0 []).events
            (toDeleteOf client writer rs vaultAddr token st0) hndT herrD hacyc
          constructor
          · intro r hr
            obtain ⟨i, hi, hgd⟩ := mem_getD_index rs r hr
            have hiOrd : i ∈ order := topologicalOrder_some_mem rs order horder i hi
            have hkeyP : (((phase1State client writer rs vaultAddr token st0)).lookup
                r.Key).isSome = true := by
              rw [hp1, ← hgd]
              exact hP1keys i hiOrd
            have hkNotDel : r.Key ∉ toDeleteOf client writer rs vaultAddr token st0 := by
              intro hmem
              unfold toDeleteOf at hmem
              have h2 := (List.mem_filter.mp hmem).2
              simp only [decide_eq_true_eq] at h2
              exact h2 (by simpa using List.mem_map.mpr ⟨r, hr, rfl⟩)
            rw [hApply, hKeep r.Key hkNotDel]
            exact hkeyP
          · intro k hk0 hkB
            have hkS0 : (st0.lookup k).isSome = true :=
              (State_lookup_isSome_iff_mem_keys st0 k).mpr hk0
            have hkSP : (((phase1State client writer rs vaultAddr token st0)).lookup
                k).isSome = true := by
              rw [hp1]
              exact hP1mono k hkS0
            have hkT : k ∈ toDeleteOf client writer rs vaultAddr token st0 := by
              unfold toDeleteOf
              refine List.mem_filter.mpr
                ⟨(State_lookup_isSome_iff_mem_keys _ k).mp hkSP, ?_⟩
              simpa using hkB
            obtain ⟨resp, hm⟩ := hDel k hkT
            refine ⟨resp, ?_⟩
            rw [hApply]
            exact hm

/-- C4 counterexample: one resource with `ignore_failures` receives a 500;
`Apply` returns no error, yet the batch key is absent from the final state, so
the key-superset guarantee does not hold for every error-free run -/
theorem apply_superset_counterexample :
    (Apply (fun _ => ⟨500, "boom", none⟩) (fun _ => true)
        [⟨"p", Value.smap [("a", Value.str "v")], "", "r1", 0, [], true, ""⟩]
        "http://v" "t" ⟨[]⟩).err = none
    ∧ ((Apply (fun _ => ⟨500, "boom", none⟩) (fun _ => true)
        [⟨"p", Value.smap [("a", Value.str "v")], "", "r1", 0, [], true, ""⟩]
        "http://v" "t" ⟨[]⟩).state.lookup "r1") = none :=
  ⟨rfl, rfl⟩

/-- C4 witness: the claim theorem applied to a run that deletes one stale key -/
theorem apply_superset_and_delete_coverage_witness :
    (Apply (fun _ => ⟨200, "", none⟩) (fun _ => true) ([] : List Resource) "http://v" "t"
        ⟨[("old", ⟨"d", [], false, Value.null, "", "po"⟩)]⟩).err = none
    ∧ ((∀ r ∈ ([] : List Resource),
        (((Apply (fun _ => ⟨200, "", none⟩) (fun _ => true) ([] : List Resource) "http://v" "t"
            ⟨[("old", ⟨"d", [], false, Value.null, "", "po"⟩)]⟩).state).lookup r.Key).isSome
          = true)
      ∧ ∀ k ∈ (⟨[("old", ⟨"d", [], false, Value.null, "", "po"⟩)]⟩ : State).keys,
          k ∉ ([] : List Resource).map Resource.Key →
          ∃ resp, Event.http (deleteReqOf (trimSuffixSlash "http://v") "t"
              (phase1State (fun _ => ⟨200, "", none⟩) (fun _ => true) ([] : List Resource)
                "http://v" "t" ⟨[("old", ⟨"d", [], false, Value.null, "", "po"⟩)]⟩) k) resp
            ∈ (Apply (fun _ => ⟨200, "", none⟩) (fun _ => true) ([] : List Resource) "http://v"
                "t" ⟨[("old", ⟨"d", [], false, Value.null, "", "po"⟩)]⟩).events) :=
  ⟨rfl, apply_superset_and_delete_coverage (fun _ => ⟨200, "", none⟩) (fun _ => true)
    ([] : List Resource) "http://v" "t" ⟨[("old", ⟨"d", [], false, Value.null, "", "po"⟩)]⟩
    (by decide) rfl
    (all_not_swallowed _ (by decide))
    (all_not_migrate _ (by decide))
    (adjCycle_empty _ (fun u => rfl))⟩

mutual

/-- template-free values resolve to themselves in every state -/
theorem templateFree_resolve (v : Value) (h : templateFree v = true) (st : State) :
    ResolveTemplates v st = .ok v :=
  match v with
  | .null => rfl
  | .bool _ => rfl
  | .int _ => rfl
  | .str s => by
      have hp : parseTemplate s = none := by
        have h2 : (parseTemplate s).isNone = true := h
        exact Option.isNone_iff_eq_none.mp h2
      simp only [ResolveTemplates, resolveTemplateString, hp]
  | .list xs => by
      have h2 : templateFreeList xs = true := h
      simp only [ResolveTemplates, templateFreeList_resolve xs h2 st]
  | .smap es => by
      have h2 : templateFreeSEntries es = true := h
      simp only [ResolveTemplates, templateFreeSEntries_resolve es h2 st]
  | .imap _ => by
      exact absurd h (by simp [templateFree])

/-- elementwise resolution of a template-free slice is the identity -/
theorem templateFreeList_resolve (xs : List Value) (h : templateFreeList xs = true)
    (st : State) : resolveValueList xs st = .ok xs :=
  match xs with
  | [] => rfl
  | v :: vs => by
      have h2 : templateFree v = true ∧ templateFreeList vs = true := by
        have h3 : (templateFree v && templateFreeList vs) = true := h
        exact ⟨(Bool.and_eq_true_iff.mp h3).1, (Bool.and_eq_true_iff.mp h3).2⟩
      simp only [resolveValueList, templateFree_resolve v h2.1 st,
        templateFreeList_resolve vs h2.2 st]

/-- valuewise resolution of a template-free string-keyed map is the identity -/
theorem templateFreeSEntries_resolve (es : List (String × Value))
    (h : templateFreeSEntries es = true) (st : State) : resolveSEntries es st = .ok es :=
  match es with
  | [] => rfl
  | (k, v) :: rest => by
      have h2 : templateFree v = true ∧ templateFreeSEntries rest = true := by
        have h3 : (templateFree (k, v).2 && templateFreeSEntries rest) = true := h
        exact ⟨(Bool.and_eq_true_iff.mp h3).1, (Bool.and_eq_true_iff.mp h3).2⟩
      simp only [resolveSEntries, templateFree_resolve v h2.1 st,
        templateFreeSEntries_resolve rest h2.2 st]

end

/-- a non-aborting HTTP part that swallows nothing stores exactly the digest
entry of the resolved data -/
theorem applyHttpPart_next_entry (client : Request → HttpResponse) (writer : State → Bool)
    (addr token : String) (r : Resource) (st : State) (resolvedData : Value) (rev : Nat)
    (st2 : State) (evs : List Event)
    (h : applyHttpPart client writer addr token r st resolvedData rev = .next st2 evs)
    (hnosw : ∀ e ∈ evs, e.isSwallowed = false) :
    ∃ rd, st2 = st.insert r.Key
      ⟨dataDigestWithRevision resolvedData rev, r.Dependencies, r.IgnoreFailures, rd,
       r.NamespaceOrDefault, r.Path⟩ := by
  simp only [applyHttpPart] at h
  split at h
  · split at h
    · cases h
    · injection h with h1 h2
      exact absurd (hnosw _ (by rw [← h2]; exact List.mem_singleton_self _))
        (by simp [Event.isSwallowed])
  · split at h
    · split at h
      · injection h with h1 h2
        exact ⟨_, h1.symm⟩
      · split at h
        · cases h
        · injection h with h1 h2
          exact ⟨_, h1.symm⟩
    · split at h
      · cases h
      · injection h with h1 h2
        exact absurd (hnosw _ (by
            rw [← h2]
            exact List.mem_cons_of_mem _ (List.mem_singleton_self _)))
          (by simp [Event.isSwallowed])

/-- a clean resource step over self-resolving data either short-circuits on a
digest-matching entry or stores a digest-correct entry for its key -/
theorem applyResourceStep_digest_shape (client : Request → HttpResponse)
    (writer : State → Bool) (addr token : String) (r : Resource) (st : State)
    (st2 : State) (evs : List Event)
    (htf : ResolveTemplates r.Data st = .ok r.Data)
    (h : applyResourceStep client writer addr token r st = .next st2 evs)
    (hnosw : ∀ e ∈ evs, e.isSwallowed = false)
    (hnomig : ∀ e ∈ evs, e.isMigrate = false) :
    (st2 = st ∧ ∃ e, st.lookup r.Key = some e
        ∧ e.DataDigest = dataDigestWithRevision r.Data (revisionForDigest r.Revision))
    ∨ (∃ e, st2 = st.insert r.Key e
        ∧ e.DataDigest = dataDigestWithRevision r.Data (revisionForDigest r.Revision)) := by
  simp only [applyResourceStep, htf] at h
  split at h
  next prev heq =>
    split at h
    next hdig =>
      injection h with h1 h2
      left
      exact ⟨h1.symm, prev, heq, hdig⟩
    next hdig =>
      right
      obtain ⟨rd, he⟩ := applyHttpPart_next_entry client writer addr token r st _ _ st2 evs
        h hnosw
      exact ⟨_, he, rfl⟩
  next heq =>
    split at h
    next pr heq2 =>
      split at h
      · split at h
        · injection h with h1 h2
          exact absurd (hnomig _ (by rw [← h2]; exact List.mem_cons_self _ _))
            (by simp [Event.isMigrate])
        · split at h
          · cases h
          · injection h with h1 h2
            exact absurd (hnomig _ (by rw [← h2]; exact List.mem_cons_self _ _))
              (by simp [Event.isMigrate])
      · right
        obtain ⟨rd, he⟩ := applyHttpPart_next_entry client writer addr token r st _ _ st2 evs
          h hnosw
        exact ⟨_, he, rfl⟩
    next heq2 =>
      right
      obtain ⟨rd, he⟩ := applyHttpPart_next_entry client writer addr token r st _ _ st2 evs
        h hnosw
      exact ⟨_, he, rfl⟩

/-- a pass over resources that all short-circuit is a no-op with no events -/
theorem applyLoop_noop (client : Request → HttpResponse) (writer : State → Bool)
    (addr token : String) (rs : List Resource) :
    ∀ (idxs : List Nat) (st : State),
      (∀ i ∈ idxs, ResolveTemplates (rs.getD i default).Data st
        = .ok (rs.getD i default).Data) →
      (∀ i ∈ idxs, ∃ e, st.lookup (rs.getD i default).Key = some e
        ∧ e.DataDigest = dataDigestWithRevision (rs.getD i default).Data
            (revisionForDigest (rs.getD i default).Revision)) →
      applyLoop client writer addr token rs idxs st [] = ⟨none, st, []⟩ := by
  intro idxs
  induction idxs with
  | nil =>
      intro st _ _
      rfl
  | cons i rest ih =>
      intro st hres hdig
      obtain ⟨e, he, hd⟩ := hdig i (List.mem_cons_self i rest)
      have hstep : applyResourceStep client writer addr token (rs.getD i default) st
          = .next st [] := by
        simp only [applyResourceStep, hres i (List.mem_cons_self i rest), he, if_pos hd]
      simp only [applyLoop, hstep, List.nil_append]
      exact ih st (fun j hj => hres j (List.mem_cons_of_mem i hj))
        (fun j hj => hdig j (List.mem_cons_of_mem i hj))

/-- an error-free pass over self-resolving resources with distinct names
establishes and preserves the digest-correct entries -/
theorem applyLoop_digest (client : Request → HttpResponse) (writer : State → Bool)
    (addr token : String) (rs : List Resource)
    (hnn : (rs.map Resource.EffectiveName).Nodup) :
    ∀ (idxs : List Nat) (st : State),
      (applyLoop client writer addr token rs idxs st []).err = none →
      (∀ e ∈ (applyLoop client writer addr token rs idxs st []).events,
        e.isSwallowed = false) →
      (∀ e ∈ (applyLoop client writer addr token rs idxs st []).events,
        e.isMigrate = false) →
      (∀ i ∈ idxs, i < rs.length) →
      (∀ i ∈ idxs, ∀ stx, ResolveTemplates (rs.getD i default).Data stx
        = .ok (rs.getD i default).Data) →
      (∀ j, j < rs.length → DigestOk rs st j →
        DigestOk rs ((applyLoop client writer addr token rs idxs st []).state) j)
      ∧ (∀ i ∈ idxs, DigestOk rs ((applyLoop client writer addr token rs idxs st []).state) i) := by
  intro idxs
  induction idxs with
  | nil =>
      intro st _ _ _ _ _
      exact ⟨fun j hj hd => hd, fun i hi => absurd hi (List.not_mem_nil i)⟩
  | cons i rest ih =>
      intro st herr hnosw hnomig hlt hres
      cases hstep : applyResourceStep client writer addr token (rs.getD i default) st with
      | abort msg st2 evs2 =>
          have hL : applyLoop client writer addr token rs (i :: rest) st []
              = ⟨some msg, st2, [] ++ evs2⟩ := by
            simp only [applyLoop, hstep]
          rw [hL] at herr
          exact Option.noConfusion herr
      | next st2 evs2 =>
          have hL : applyLoop client writer addr token rs (i :: rest) st []
              = ⟨(applyLoop client writer addr token rs rest st2 []).err,
                 (applyLoop client writer addr token rs rest st2 []).state,
                 evs2 ++ (applyLoop client writer addr token rs rest st2 []).events⟩ := by
            simp only [applyLoop, hstep]
            rw [List.nil_append, applyLoop_acc client writer addr token rs rest st2 evs2]
          rw [hL] at herr hnosw hnomig ⊢
          have herr2 : (applyLoop client writer addr token rs rest st2 []).err = none := herr
          have hsw1 : ∀ e ∈ evs2, e.isSwallowed = false :=
            fun e he => hnosw e (List.mem_append.mpr (Or.inl he))
          have hmg1 : ∀ e ∈ evs2, e.isMigrate = false :=
            fun e he => hnomig e (List.mem_append.mpr (Or.inl he))
          have hsw2 : ∀ e ∈ (applyLoop client writer addr token rs rest st2 []).events,
              e.isSwallowed = false :=
            fun e he => hnosw e (List.mem_append.mpr (Or.inr he))
          have hmg2 : ∀ e ∈ (applyLoop client writer addr token rs rest st2 []).events,
              e.isMigrate = false :=
            fun e he => hnomig e (List.mem_append.mpr (Or.inr he))
          have hstep2 : ∀ j, j < rs.length → DigestOk rs st j → DigestOk rs st2 j := by
            intro j hj hd
            rcases applyResourceStep_digest_shape client writer addr token
              (rs.getD i default) st st2 evs2 (hres i (List.mem_cons_self i rest) st)
              hstep hsw1 hmg1 with ⟨he, -⟩ | ⟨e, he, hdg⟩
            · rw [he]
              exact hd
            · by_cases hkey : (rs.getD j default).Key = (rs.getD i default).Key
              · have hji : j = i := effName_inj rs hnn j i hj
                  (hlt i (List.mem_cons_self i rest)) hkey
                subst hji
                rw [he]
                refine ⟨e, ?_, hdg⟩
                rw [hkey]
                exact State_lookup_insert_self st _ e
              · obtain ⟨ep, hep, hdp⟩ := hd
                rw [he]
                refine ⟨ep, ?_, hdp⟩
                rw [State_lookup_insert_other st _ _ e hkey]
                exact hep
          have hstepi : DigestOk rs st2 i := by
            rcases applyResourceStep_digest_shape client writer addr token
              (rs.getD i default) st st2 evs2 (hres i (List.mem_cons_self i rest) st)
              hstep hsw1 hmg1 with ⟨he, e, hle, hdg⟩ | ⟨e, he, hdg⟩
            · rw [he]
              exact ⟨e, hle, hdg⟩
            · rw [he]
              exact ⟨e, State_lookup_insert_self st _ e, hdg⟩
          obtain ⟨ihm, ihi⟩ := ih st2 herr2 hsw2 hmg2
            (fun j hj => hlt j (List.mem_cons_of_mem i hj))
            (fun j hj => hres j (List.mem_cons_of_mem i hj))
          refine ⟨?_, ?_⟩
          · intro j hj hd
            exact ihm j hj (hstep2 j hj hd)
          · intro j hj
            rcases List.mem_cons.mp hj with rfl | hj2
            · exact ihm j (hlt j (List.mem_cons_self j rest)) hstepi
            · exact ihi j hj2

/-- a non-aborting delete step that swallows nothing erases its key -/
theorem deleteStep_next_erases (client : Request → HttpResponse) (writer : State → Bool)
    (addr token : String) (st : State) (key : String) (st2 : State) (evs : List Event)
    (h : deleteStep client writer addr token st key = .next st2 evs)
    (hnosw : ∀ e ∈ evs, e.isSwallowed = false) :
    st2 = st.erase key := by
  simp only [deleteStep] at h
  split at h
  · split at h
    · injection h with h1 h2
      exact h1.symm
    · split at h
      · cases h
      · injection h with h1 h2
        exact h1.symm
  · split at h
    · split at h
      · injection h with h1 h2
        exact h1.symm
      · split at h
        · cases h
        · injection h with h1 h2
          exact h1.symm
    · split at h
      · cases h
      · injection h with h1 h2
        exact absurd (hnosw _ (by
            rw [← h2]
            exact List.mem_cons_of_mem _ (List.mem_singleton_self _)))
          (by simp [Event.isSwallowed])

/-- an error-free delete pass that swallows nothing removes every listed key -/
theorem deleteLoop_erases (client : Request → HttpResponse) (writer : State → Bool)
    (addr token : String) :
    ∀ (keys : List String) (st : State),
      (deleteLoop client writer addr token keys st []).err = none →
      (∀ e ∈ (deleteLoop client writer addr token keys st []).events,
        e.isSwallowed = false) →
      ∀ k ∈ keys, ((deleteLoop client writer addr token keys st []).state).lookup k = none := by
  intro keys
  induction keys with
  | nil =>
      intro st _ _ k hk
      exact absurd hk (List.not_mem_nil k)
  | cons key rest ih =>
      intro st herr hnosw k hk
      cases hstep : deleteStep client writer addr token st key with
      | abort msg st2 evs2 =>
          have hL : deleteLoop client writer addr token (key :: rest) st []
              = ⟨some msg, st2, [] ++ evs2⟩ := by
            simp only [deleteLoop, hstep]
          rw [hL] at herr
          exact Option.noConfusion herr
      | next st2 evs2 =>
          have hL : deleteLoop client writer addr token (key :: rest) st []
              = ⟨(deleteLoop client writer addr token rest st2 []).err,
                 (deleteLoop client writer addr token rest st2 []).state,
                 evs2 ++ (deleteLoop client writer addr token rest st2 []).events⟩ := by
            simp only [deleteLoop, hstep]
            rw [List.nil_append, deleteLoop_acc client writer addr token rest st2 evs2]
          rw [hL] at herr hnosw ⊢
          have herr2 : (deleteLoop client writer addr token rest st2 []).err = none := herr
          have hsw1 : ∀ e ∈ evs2, e.isSwallowed = false :=
            fun e he => hnosw e (List.mem_append.mpr (Or.inl he))
          have hsw2 : ∀ e ∈ (deleteLoop client writer addr token rest st2 []).events,
              e.isSwallowed = false :=
            fun e he => hnosw e (List.mem_append.mpr (Or.inr he))
          have hera : st2 = st.erase key :=
            deleteStep_next_erases client writer addr token st key st2 evs2 hstep hsw1
          rcases List.mem_cons.mp hk with rfl | hk2
          · by_cases hkr : k ∈ rest
            · exact ih st2 herr2 hsw2 k hkr
            · show ((deleteLoop client writer addr token rest st2 []).state).lookup k = none
              rw [deleteLoop_preserves_other client writer addr token rest st2 k hkr, hera]
              exact State_lookup_erase_self st k
          · exact ih st2 herr2 hsw2 k hk2

/-- C2 (amended): a resource whose stored entry's digest matches the digest of
its resolved data is skipped with no HTTP request and no state change; and for
a template-free batch with pairwise distinct effective names, after an
error-free first run that swallows no failure and migrates no key over an
acyclic removal graph, running the same batch again is a complete no-op:
no events of any kind and an unchanged state -/
theorem apply_noop_and_idempotence :
    (∀ (client : Request → HttpResponse) (writer : State → Bool) (addr token : String)
        (r : Resource) (st : State) (resolved : Value) (prev : StateResource),
      ResolveTemplates r.Data st = .ok resolved →
      st.lookup r.Key = some prev →
      prev.DataDigest = dataDigestWithRevision resolved (revisionForDigest r.Revision) →
      applyResourceStep client writer addr token r st = .next st [])
    ∧ ∀ (client client2 : Request → HttpResponse) (writer writer2 : State → Bool)
        (rs : List Resource) (vaultAddr token : String) (st0 : State),
        (rs.map Resource.EffectiveName).Nodup →
        (∀ r ∈ rs, templateFree r.Data = true) →
        st0.keys.Nodup →
        (Apply client writer rs vaultAddr token st0).err = none →
        (∀ e ∈ (Apply client writer rs vaultAddr token st0).events, e.isSwallowed = false) →
        (∀ e ∈ (Apply client writer rs vaultAddr token st0).events, e.isMigrate = false) →
        (¬ AdjCycle (delAdj (phase1State client writer rs vaultAddr token st0)
            (toDeleteOf client writer rs vaultAddr token st0))) →
        Apply client2 writer2 rs vaultAddr token
            (Apply client writer rs vaultAddr token st0).state
          = ⟨none, (Apply client writer rs vaultAddr token st0).state, []⟩ := by
  constructor
  · intro client writer addr token r st resolved prev hres hlk hd
    simp only [applyResourceStep, hres, hlk, if_pos hd]
  · intro client client2 writer writer2 rs vaultAddr token st0 hnn htf hnd0 herr hnosw
      hnomig hacyc
    by_cases ha : trimSuffixSlash vaultAddr = ""
    · rw [show Apply client writer rs vaultAddr token st0
          = ⟨some "vault address is required", st0, []⟩ from by
          simp only [Apply, if_pos ha]] at herr
      exact absurd herr (by simp)
    by_cases hb : token = ""
    · rw [show Apply client writer rs vaultAddr token st0
          = ⟨some "vault token is required", st0, []⟩ from by
          simp only [Apply, if_neg ha, if_pos hb]] at herr
      exact absurd herr (by simp)
    cases horder : topologicalOrder rs with
    | none =>
        rw [show Apply client writer rs vaultAddr token st0
            = ⟨some "cycle in dependencies", st0, []⟩ from by
            simp only [Apply, if_neg ha, if_neg hb, horder]] at herr
        exact absurd herr (by simp)
    | some order =>
        have hp1 : phase1State client writer rs vaultAddr token st0
            = (applyLoop client writer (trimSuffixSlash vaultAddr) token rs order st0 []).state := by
          simp only [phase1State, horder]
        cases hperr : (applyLoop client writer (trimSuffixSlash vaultAddr) token
            rs order st0 []).err with
        | some m =>
            rw [show Apply client writer rs vaultAddr token st0
                = applyLoop client writer (trimSuffixSlash vaultAddr) token rs order st0 []
                from by
                simp only [Apply, if_neg ha, if_neg hb, horder, hperr]] at herr
            rw [hperr] at herr
            exact Option.noConfusion herr
        | none =>
            have hApply : Apply client writer rs vaultAddr token st0
                = deleteLoop client writer (trimSuffixSlash vaultAddr) token
                    (deleteOrderFromState
                      (phase1State client writer rs vaultAddr token st0)
                      (toDeleteOf client writer rs vaultAddr token st0))
                    (phase1State client writer rs vaultAddr token st0)
                    (applyLoop client writer (trimSuffixSlash vaultAddr) token
                      rs order st0 []).events := by
              rw [hp1]
              simp only [Apply, if_neg ha, if_neg hb, horder, hperr, toDeleteOf, phase1State]
            have haccD := deleteLoop_acc client writer (trimSuffixSlash vaultAddr) token
              (deleteOrderFromState
                (phase1State client writer rs vaultAddr token st0)
                (toDeleteOf client writer rs vaultAddr token st0))
              (phase1State client writer rs vaultAddr token st0)
              (applyLoop client writer (trimSuffixSlash vaultAddr) token rs order st0 []).events
            have hevSplit : (Apply client writer rs vaultAddr token st0).events
                = (applyLoop client writer (trimSuffixSlash vaultAddr) token
                    rs order st0 []).events
                  ++ (deleteLoop client writer (trimSuffixSlash vaultAddr) token
                    (deleteOrderFromState
                      (phase1State client writer rs vaultAddr token st0)
                      (toDeleteOf client writer rs vaultAddr token st0))
                    (phase1State client writer rs vaultAddr token st0) []).events := by
              rw [hApply, haccD]
            have hswP : ∀ e ∈ (applyLoop client writer (trimSuffixSlash vaultAddr) token
                rs order st0 []).events, e.isSwallowed = false := by
              intro e he
              apply hnosw e
              rw [hevSplit]
              exact List.mem_append.mpr (Or.inl he)
            have hmgP : ∀ e ∈ (applyLoop client writer (trimSuffixSlash vaultAddr) token
                rs order st0 []).events, e.isMigrate = false := by
              intro e he
              apply hnomig e
              rw [hevSplit]
              exact List.mem_append.mpr (Or.inl he)
            obtain ⟨hP1mono, hP1keys, hP1nd⟩ := applyLoop_ok_spec client writer
              (trimSuffixSlash vaultAddr) token rs order st0 hperr hswP hmgP
            have hndP : (phase1State client writer rs vaultAddr token st0).keys.Nodup := by
              rw [hp1]
              exact hP1nd hnd0
            have hndT : (toDeleteOf client writer rs vaultAddr token st0).Nodup := by
              unfold toDeleteOf
              exact hndP.filter _
            have herrD : (deleteLoop client writer (trimSuffixSlash vaultAddr) token
                (deleteOrderFromState
                  (phase1State client writer rs vaultAddr token st0)
                  (toDeleteOf client writer rs vaultAddr token st0))
                (phase1State client writer rs vaultAddr token st0)
                (applyLoop client writer (trimSuffixSlash vaultAddr) token
                  rs order st0 []).events).err = none := by
              rw [← hApply]
              exact herr
            obtain ⟨hKeep, hDel⟩ := apply_phase2_spec client writer (trimSuffixSlash vaultAddr)
              token (phase1State client writer rs vaultAddr token st0)
              (applyLoop client writer (trimSuffixSlash vaultAddr) token rs order st0 []).events
              (toDeleteOf client writer rs vaultAddr token st0) hndT herrD hacyc
            -- bounds and resolution facts for the order
            obtain ⟨heqO, hlenO⟩ := topologicalOrder_some_inv rs order horder
            obtain ⟨hsubO, hndO, -, -⟩ := kahnRun_spec (List.range rs.length)
              (topoAdj rs (buildByName rs)) (topoDeg rs (buildByName rs))
              (fun j hj => topoDeg_eq_emitCnt rs j hj) (topoAdj_bounds rs)
              (List.nodup_range _)
            have hordlt : ∀ i ∈ order, i < rs.length := by
              intro i hi
              rw [heqO] at hi
              exact List.mem_range.mp (hsubO i hi)
            have hresAll : ∀ i ∈ order, ∀ stx : State,
                ResolveTemplates (rs.getD i default).Data stx
                  = .ok (rs.getD i default).Data := by
              intro i hi stx
              have hilt := hordlt i hi
              have hmem : rs.getD i default ∈ rs := by
                rw [getD_get default rs i hilt]
                exact List.get_mem rs i hilt
              exact templateFree_resolve _ (htf _ hmem) stx
            obtain ⟨-, hDig⟩ := applyLoop_digest client writer (trimSuffixSlash vaultAddr)
              token rs hnn order st0 hperr hswP hmgP hordlt hresAll
            have hDigP : ∀ i, i < rs.length →
                DigestOk rs (phase1State client writer rs vaultAddr token st0) i := by
              intro i hilt
              rw [hp1]
              exact hDig i (topologicalOrder_some_mem rs order horder i hilt)
            have hBatchNotDel : ∀ i, i < rs.length →
                (rs.getD i default).Key ∉ toDeleteOf client writer rs vaultAddr token st0 := by
              intro i hilt hmem
              unfold toDeleteOf at hmem
              have h2 := (List.mem_filter.mp hmem).2
              simp only [decide_eq_true_eq] at h2
              apply h2
              have hmemr : rs.getD i default ∈ rs := by
                rw [getD_get default rs i hilt]
                exact List.get_mem rs i hilt
              simpa using List.mem_map.mpr ⟨rs.getD i default, hmemr, rfl⟩
            have hDigS : ∀ i, i < rs.length →
                DigestOk rs ((Apply client writer rs vaultAddr token st0).state) i := by
              intro i hilt
              obtain ⟨e, hle, hdg⟩ := hDigP i hilt
              refine ⟨e, ?_, hdg⟩
              rw [hApply, hKeep _ (hBatchNotDel i hilt)]
              exact hle
            have hgone : ∀ k ∈ toDeleteOf client writer rs vaultAddr token st0,
                (((Apply client writer rs vaultAddr token st0).state).lookup k) = none := by
              intro k hkT
              obtain ⟨hsubD, hndD2, hedgeD, hleftD⟩ := kahnRun_spec
                (toDeleteOf client writer rs vaultAddr token st0)
                (delAdj (phase1State client writer rs vaultAddr token st0)
                  (toDeleteOf client writer rs vaultAddr token st0))
                (delDeg (phase1State client writer rs vaultAddr token st0)
                  (toDeleteOf client writer rs vaultAddr token st0))
                (fun k2 hk2 => delDeg_eq_emitCnt _ _ hndT k2 hk2)
                (fun u v hv => delAdj_bounds _ _ u v hv) hndT
              have hkOrd : k ∈ deleteOrderFromState
                  (phase1State client writer rs vaultAddr token st0)
                  (toDeleteOf client writer rs vaultAddr token st0) := by
                by_contra hno
                exact hacyc (leftover_gives_cycle _ _ _ hleftD k hkT hno)
              have herrD2 : (deleteLoop client writer (trimSuffixSlash vaultAddr) token
                  (deleteOrderFromState
                    (phase1State client writer rs vaultAddr token st0)
                    (toDeleteOf client writer rs vaultAddr token st0))
                  (phase1State client writer rs vaultAddr token st0) []).err = none := by
                rw [haccD] at herrD
                exact herrD
              have hswD2 : ∀ e ∈ (deleteLoop client writer (trimSuffixSlash vaultAddr) token
                  (deleteOrderFromState
                    (phase1State client writer rs vaultAddr token st0)
                    (toDeleteOf client writer rs vaultAddr token st0))
                  (phase1State client writer rs vaultAddr token st0) []).events,
                  e.isSwallowed = false := by
                intro e he
                apply hnosw e
                rw [hevSplit]
                exact List.mem_append.mpr (Or.inr he)
              rw [hApply, haccD]
              exact deleteLoop_erases client writer (trimSuffixSlash vaultAddr) token
                (deleteOrderFromState
                  (phase1State client writer rs vaultAddr token st0)
                  (toDeleteOf client writer rs vaultAddr token st0))
                (phase1State client writer rs vaultAddr token st0) herrD2 hswD2 k hkOrd
            have hsub1 : ∀ k,
                ((((Apply client writer rs vaultAddr token st0).state).lookup k).isSome = true) →
                k ∈ rs.map Resource.Key := by
              intro k hkS
              by_cases hkT : k ∈ toDeleteOf client writer rs vaultAddr token st0
              · rw [hgone k hkT] at hkS
                simp at hkS
              · have hkP : (((phase1State client writer rs vaultAddr token st0).lookup
                    k).isSome = true) := by
                  rw [← hKeep k hkT, ← hApply]
                  exact hkS
                have hkKeys := (State_lookup_isSome_iff_mem_keys _ k).mp hkP
                by_contra hkB
                apply hkT
                unfold toDeleteOf
                refine List.mem_filter.mpr ⟨hkKeys, ?_⟩
                simpa using hkB
            -- the second run
            have hresolve2 : ∀ i ∈ order,
                ResolveTemplates (rs.getD i default).Data
                  ((Apply client writer rs vaultAddr token st0).state)
                  = .ok (rs.getD i default).Data :=
              fun i hi => hresAll i hi _
            have hdig2 : ∀ i ∈ order, ∃ e,
                (((Apply client writer rs vaultAddr token st0).state).lookup
                  (rs.getD i default).Key) = some e
                ∧ e.DataDigest = dataDigestWithRevision (rs.getD i default).Data
                    (revisionForDigest (rs.getD i default).Revision) :=
              fun i hi => hDigS i (hordlt i hi)
            have hloop2 : applyLoop client2 writer2 (trimSuffixSlash vaultAddr) token rs order
                ((Apply client writer rs vaultAddr token st0).state) []
                = ⟨none, (Apply client writer rs vaultAddr token st0).state, []⟩ :=
              applyLoop_noop client2 writer2 (trimSuffixSlash vaultAddr) token rs order _
                hresolve2 hdig2
            have htd2 : (((Apply client writer rs vaultAddr token st0).state).keys.filter
                (fun k => ¬ (rs.map Resource.Key).contains k)) = [] := by
              rw [List.filter_eq_nil_iff]
              intro k hk
              have hkB := hsub1 k ((State_lookup_isSome_iff_mem_keys _ k).mpr hk)
              simp [hkB]
            generalize hgen : (Apply client writer rs vaultAddr token st0).state = st1
            rw [hgen] at hloop2 htd2
            rw [show Apply client2 writer2 rs vaultAddr token st1
                = deleteLoop client2 writer2 (trimSuffixSlash vaultAddr) token
                    (deleteOrderFromState st1
                      (st1.keys.filter (fun k => ¬ (rs.map Resource.Key).contains k)))
                    st1 []
                from by
                simp only [Apply, if_neg ha, if_neg hb, horder, hloop2]]
            rw [htd2]
            rfl

/-- C2 counterexample: a fully successful first run (no error, nothing
swallowed) whose batch resolves a template against another resource's stored
`response_data`; the run overwrites that `response_data` after the reader was
processed, so the second run of the same batch against the produced state
issues an HTTP request -/
theorem apply_idempotence_counterexample :
    (Apply cexTClient (fun _ => true) cexTRs "http://v" "t" cexTSt0).err = none
    ∧ ((Apply cexTClient (fun _ => true) cexTRs "http://v" "t" cexTSt0).events.all
        (fun e => ! e.isSwallowed)) = true
    ∧ ((Apply cexTClient (fun _ => true) cexTRs "http://v" "t"
          (Apply cexTClient (fun _ => true) cexTRs "http://v" "t" cexTSt0).state).events.any
        (fun e => e.isHttp)) = true :=
  ⟨rfl, rfl, rfl⟩

/-- C2 witness: both halves of the claim theorem at concrete inputs -/
theorem apply_noop_and_idempotence_witness :
    (applyResourceStep (fun _ => ⟨200, "", none⟩) (fun _ => true) "http://v" "t"
        ⟨"p", Value.smap [("a", Value.str "v")], "", "r1", 0, [], false, ""⟩
        ⟨[("r1", ⟨dataDigestWithRevision (Value.smap [("a", Value.str "v")]) 0, [], false,
          Value.null, "", "p"⟩)]⟩
      = .next ⟨[("r1", ⟨dataDigestWithRevision (Value.smap [("a", Value.str "v")]) 0, [], false,
          Value.null, "", "p"⟩)]⟩ [])
    ∧ Apply (fun _ => ⟨500, "x", none⟩) (fun _ => false)
        [⟨"p", Value.smap [("a", Value.str "v")], "", "r1", 0, [], false, ""⟩] "http://v" "t"
        (Apply (fun _ => ⟨200, "", none⟩) (fun _ => true)
          [⟨"p", Value.smap [("a", Value.str "v")], "", "r1", 0, [], false, ""⟩] "http://v" "t"
          ⟨[]⟩).state
      = ⟨none, (Apply (fun _ => ⟨200, "", none⟩) (fun _ => true)
          [⟨"p", Value.smap [("a", Value.str "v")], "", "r1", 0, [], false, ""⟩] "http://v" "t"
          ⟨[]⟩).state, []⟩ :=
  ⟨(apply_noop_and_idempotence).1 (fun _ => ⟨200, "", none⟩) (fun _ => true) "http://v" "t"
      ⟨"p", Value.smap [("a", Value.str "v")], "", "r1", 0, [], false, ""⟩
      ⟨[("r1", ⟨dataDigestWithRevision (Value.smap [("a", Value.str "v")]) 0, [], false,
        Value.null, "", "p"⟩)]⟩
      (Value.smap [("a", Value.str "v")])
      ⟨dataDigestWithRevision (Value.smap [("a", Value.str "v")]) 0, [], false,
        Value.null, "", "p"⟩
      rfl rfl rfl,
   (apply_noop_and_idempotence).2 (fun _ => ⟨200, "", none⟩) (fun _ => ⟨500, "x", none⟩)
      (fun _ => true) (fun _ => false)
      [⟨"p", Value.smap [("a", Value.str "v")], "", "r1", 0, [], false, ""⟩] "http://v" "t" ⟨[]⟩
      (by decide) (by decide) (by decide) rfl
      (all_not_swallowed _ (by decide)) (all_not_migrate _ (by decide))
      (adjCycle_empty _ (fun u => rfl))⟩

end VaultGitops
